import Mathlib

/-!
Verification of the event-brief extraction engine.

The engine (function `parseLaiEventBrief` and its helpers) takes the plain
text extracted from an event-brief PDF and recovers a structured record:
booking number, header facts, venue sites, contacts, flight schedule and a
coverage-style confidence score.  This file gives a shallow embedding of the
engine over `List Char` / `String`, faithful to the JavaScript source
including its regular-expression backtracking behaviour, and proves or
refutes the specification claims about it.

Conventions of the embedding:
* text is a `List Char`; `String` appears only at the API boundary;
* each regular expression of the source is translated to a dedicated total
  matcher implementing the ECMAScript first-match / leftmost,
  greedy-with-backtracking semantics of that particular pattern;
* JavaScript truthiness on strings (empty string is falsy) is modelled
  explicitly where the source relies on it (`orNullS`, `truthyS`);
* case-insensitive (`/i`) matching folds ASCII letters, which coincides with
  the ECMAScript canonicalisation for the ASCII-only patterns of the source.
-/

namespace EventBrief

/-! ## Character classes -/

/-- ECMAScript `\s` (also the character set stripped by `String.trim`):
whitespace and line terminators. -/
def isJsWS (c : Char) : Bool :=
  c == ' ' || c == '\t' || c == '\n' || c == '\r' ||
  c.toNat == 0x0b || c.toNat == 0x0c || c.toNat == 0xa0 || c.toNat == 0x1680 ||
  (0x2000 ≤ c.toNat && c.toNat ≤ 0x200a) || c.toNat == 0x2028 || c.toNat == 0x2029 ||
  c.toNat == 0x202f || c.toNat == 0x205f || c.toNat == 0x3000 || c.toNat == 0xfeff

/-- ECMAScript `\w` (used by the `\b` word-boundary assertion). -/
def isWordChar (c : Char) : Bool :=
  c.isAlpha || c.isDigit || c == '_'

/-- ASCII lower-casing, the effect of the `/i` flag on the ASCII-only
patterns of the source. -/
def lowAscii (c : Char) : Char :=
  if c.isUpper then Char.ofNat (c.toNat + 32) else c

/-- Case-insensitive character comparison for `/i` patterns. -/
def icEq (a b : Char) : Bool :=
  lowAscii a == lowAscii b

/-- Character class `[0-9()\- ]` of the phone-number patterns. -/
def isPhoneChar (c : Char) : Bool :=
  c.isDigit || c == '(' || c == ')' || c == '-' || c == ' '

/-- Character class `[A-Z0-9]` under `/i`: ASCII letters and digits. -/
def isAlnum (c : Char) : Bool :=
  c.isAlpha || c.isDigit

/-! ## The text normalizer (source function `normalize`)

The source is the chain of global replacements
`\r → ""`, `[ \t]+ → " "`, `" ?\n ?" → "\n"`, `\n{3,} → "\n\n"`,
followed by `String.prototype.trim`. -/

/-- `replace(/\r/g, "")`. -/
def removeCR (l : List Char) : List Char :=
  l.filter (fun c => c ≠ '\r')

/-- Is the character horizontal whitespace `[ \t]`? -/
def isHT (c : Char) : Bool :=
  c == ' ' || c == '\t'

/-- `replace(/[ \t]+/g, " ")`: the flag records whether the previous
character belonged to a run already replaced by a space. -/
def collapseWSAux : Bool → List Char → List Char
  | _, [] => []
  | inRun, c :: cs =>
    if isHT c then
      if inRun then collapseWSAux true cs else ' ' :: collapseWSAux true cs
    else c :: collapseWSAux false cs

/-- `replace(/ ?\n ?/g, "\n")`, scanning left to right over
non-overlapping matches exactly as the ECMAScript engine does. -/
def fixNL : List Char → List Char
  | [] => []
  | '\n' :: ' ' :: cs => '\n' :: fixNL cs
  | '\n' :: cs => '\n' :: fixNL cs
  | ' ' :: '\n' :: ' ' :: cs => '\n' :: fixNL cs
  | ' ' :: '\n' :: cs => '\n' :: fixNL cs
  | c :: cs => c :: fixNL cs

/-- `replace(/\n{3,}/g, "\n\n")`: `k` counts the newlines already kept in
the current run (saturating at 2: further newlines of the run are dropped). -/
def squeezeNLAux : Nat → List Char → List Char
  | _, [] => []
  | k, c :: cs =>
    if c = '\n' then
      if 2 ≤ k then squeezeNLAux k cs else '\n' :: squeezeNLAux (k + 1) cs
    else c :: squeezeNLAux 0 cs

/-- `String.prototype.trim`. -/
def trimL (l : List Char) : List Char :=
  ((l.dropWhile isJsWS).reverse.dropWhile isJsWS).reverse

/-- The full normalizer on character lists. -/
def normalizeL (l : List Char) : List Char :=
  trimL (squeezeNLAux 0 (fixNL (collapseWSAux false (removeCR l))))

/-- Source function `normalize`. -/
def normalize (s : String) : String :=
  (normalizeL s.toList).asString

/-! ## Generic scanning

ECMAScript regex search tries the pattern at every position from left to
right; a global (`/g`) `exec` loop resumes after the end of each match
(non-overlapping).  `tryAt prev s` attempts a pattern at the position whose
preceding character is `prev` and whose remaining text is `s`, returning the
match length and the extracted data. -/

/-- All matches of a global `exec` loop.  `skip` counts positions still
inside the previous match; `pos` is the absolute offset of `s` in the text. -/
def scanAllAux (tryAt : Option Char → List Char → Option (Nat × α)) :
    Option Char → Nat → Nat → List Char → List (Nat × Nat × α)
  | _, _, _, [] => []
  | _, Nat.succ k, pos, c :: cs => scanAllAux tryAt (some c) k (pos + 1) cs
  | prev, 0, pos, c :: cs =>
    match tryAt prev (c :: cs) with
    | some (len, a) => (pos, len, a) :: scanAllAux tryAt (some c) (len - 1) (pos + 1) cs
    | none => scanAllAux tryAt (some c) 0 (pos + 1) cs

/-- All non-overlapping matches, with offsets, lengths and captures. -/
def scanAll (tryAt : Option Char → List Char → Option (Nat × α)) (t : List Char) :
    List (Nat × Nat × α) :=
  scanAllAux tryAt none 0 0 t

/-- First match at or after the current position (non-global `exec`/`match`). -/
def findFirstAux (tryAt : Option Char → List Char → Option (Nat × α)) :
    Option Char → Nat → List Char → Option (Nat × Nat × α)
  | _, _, [] => none
  | prev, pos, c :: cs =>
    match tryAt prev (c :: cs) with
    | some (len, a) => some (pos, len, a)
    | none => findFirstAux tryAt (some c) (pos + 1) cs

/-- First match in the whole text. -/
def findFirst (tryAt : Option Char → List Char → Option (Nat × α)) (t : List Char) :
    Option (Nat × Nat × α) :=
  findFirstAux tryAt none 0 t

/-- The character just before offset `start`, for boundary assertions when a
search resumes mid-text (`lastIndex` semantics). -/
def prevCharAt (t : List Char) (start : Nat) : Option Char :=
  (t.take start).getLast?

/-- First match at or after offset `start` (a `lastIndex`-guided `exec`). -/
def findFirstFrom (tryAt : Option Char → List Char → Option (Nat × α)) (t : List Char)
    (start : Nat) : Option (Nat × Nat × α) :=
  (findFirstAux tryAt (prevCharAt t start) start (t.drop start))

/-- Case-insensitively consume the literal `pat`, returning the rest. -/
def icPrefixRest : List Char → List Char → Option (List Char)
  | [], s => some s
  | _ :: _, [] => none
  | p :: ps, c :: cs => if icEq p c then icPrefixRest ps cs else none

/-- `\b` before a position whose following character is a word character. -/
def boundaryOk (prev : Option Char) : Bool :=
  match prev with
  | none => true
  | some c => !isWordChar c

/-- `\b` after a position whose preceding character is a word character. -/
def boundaryAfterOk (rest : List Char) : Bool :=
  match rest with
  | [] => true
  | c :: _ => !isWordChar c

/-! ## Heading segmenter (source function `splitByHeadingsMulti`)

The source builds, for each heading, the regex
`new RegExp("\\b" + escapeRe(h).replace(/\\s+/g, "\\\\s+") + "\\b", "ig")`.
The inner `replace` looks for a literal backslash followed by `s` and so
never fires on the heading names; the resulting regex is the literal heading
with word boundaries, case-insensitive. -/

/-- One heading occurrence. -/
structure Hit where
  heading : String
  idx : Nat
  len : Nat
deriving Repr, DecidableEq

/-- Attempt `\b<heading>\b` (case-insensitive) at one position. -/
def tryHeadingAt (h : List Char) (prev : Option Char) (s : List Char) :
    Option (Nat × Unit) :=
  if boundaryOk prev then
    match icPrefixRest h s with
    | some rest => if boundaryAfterOk rest then some (h.length, ()) else none
    | none => none
  else none

/-- All non-overlapping occurrences of all headings, per-heading scan order
(the `hits` array before sorting). -/
def headingHits (t : List Char) (hs : List String) : List Hit :=
  (hs.map (fun h =>
    (scanAll (tryHeadingAt h.toList) t).map
      (fun r => { heading := h, idx := r.1, len := r.2.1 }))).flatten

/-- Stable insertion into a list already sorted by `idx`. -/
def insertHit (x : Hit) : List Hit → List Hit
  | [] => [x]
  | y :: ys => if x.idx ≤ y.idx then x :: y :: ys else y :: insertHit x ys

/-- Stable sort by offset (`hits.sort((a, b) => a.idx - b.idx)`). -/
def sortHits : List Hit → List Hit
  | [] => []
  | x :: xs => insertHit x (sortHits xs)

/-- The span of each occurrence: from the end of its match to the start of
the next occurrence in the sorted sequence (or end of text), then trimmed. -/
def buildSections (t : List Char) : List Hit → List (String × List Char)
  | [] => []
  | x :: rest =>
    let endPos := match rest with
      | [] => t.length
      | y :: _ => y.idx
    (x.heading, trimL ((t.take endPos).drop (x.idx + x.len))) :: buildSections t rest

/-- Source function `splitByHeadingsMulti`, as the ordered association list
of (heading, chunk) pairs; `sectionSpans` recovers the per-heading arrays. -/
def splitByHeadingsMulti (t : List Char) (hs : List String) :
    List (String × List Char) :=
  buildSections t (sortHits (headingHits t hs))

/-- The per-heading array of chunks (`out[h]`), in document order. -/
def sectionSpans (m : List (String × List Char)) (h : String) : List (List Char) :=
  (m.filter (fun p => p.1 == h)).map (fun p => p.2)

/-- The heading vocabulary passed by `parseLaiEventBrief`. -/
def headingsVocab : List String :=
  ["CONTACT INFORMATION", "SCHEDULE OF EVENTS", "EVENT DETAILS",
   "CLIENT DETAILS", "EVENT AGENDA", "TALENT INTRODUCTION",
   "EMERGENCY TRAVEL NUMBERS", "STAGE DIAGRAM", "COX CAMPUS MAP"]

/-! ## Data model (the shapes returned by the source) -/

/-- `hotelDetails` sub-record of a hotel site. -/
structure HotelDetails where
  checkIn : Option String
  checkOut : Option String
  confirmation : Option String
  roomType : Option String
  nights : Option Nat
  rate : Option String
deriving Repr, DecidableEq

/-- One venue site recovered from the CONTACT INFORMATION section. -/
structure Site where
  type : String
  label : String
  name : Option String
  address : Option String
  phone : Option String
  email : Option String
  hotelDetails : Option HotelDetails
  raw : String
deriving Repr, DecidableEq

/-- One contact record. -/
structure Contact where
  group : String
  name : Option String
  title : Option String
  office : Option String
  cell : Option String
  email : Option String
  companion : Option String
  raw : String
deriving Repr, DecidableEq

/-- One flight leg recovered from the schedule section. -/
structure FlightLeg where
  airline : String
  flightNumber : String
  reservationCode : Option String
  seat : Option String
  raw : String
deriving Repr, DecidableEq

/-- Header facts from the block before CONTACT INFORMATION. -/
structure HeaderFacts where
  talentName : Option String
  clientName : Option String
  eventTitle : Option String
  eventDateText : Option String
  raw : Option String
deriving Repr, DecidableEq

/-- The coverage score. -/
structure Confidence where
  overall : Nat
  hasBookingNumber : Bool
  hasHeader : Bool
  hasSites : Bool
  hasContacts : Bool
deriving Repr, DecidableEq

/-- The schedule sub-record. -/
structure Schedule where
  flights : List FlightLeg
  raw : String
deriving Repr, DecidableEq

/-- Raw section passthroughs of the root record. -/
structure Sections where
  contactInformation : Option String
  eventDetails : Option String
  clientDetails : Option String
  talentIntroduction : Option String
deriving Repr, DecidableEq

/-- The root record returned by `parseLaiEventBrief`. -/
structure ParsedBrief where
  bookingNumber : Option String
  header : HeaderFacts
  sites : List Site
  contacts : List Contact
  schedule : Option Schedule
  sections : Sections
  confidence : Confidence
deriving Repr, DecidableEq

/-- Input record of `computeConfidence`. -/
structure ConfFacts where
  bookingNumber : Option String
  talentName : Option String
  clientName : Option String
  eventTitle : Option String
  eventDateText : Option String
  sites : List Site
  contacts : List Contact
deriving Repr, DecidableEq

/-! ## Small string helpers mirroring JavaScript idioms -/

/-- JavaScript truthiness of a nullable string (empty string is falsy). -/
def truthyS : Option String → Bool
  | none => false
  | some s => !(s == "")

/-- JavaScript `x || null` on a nullable string. -/
def orNullS : Option String → Option String
  | none => none
  | some s => if s == "" then none else some s

/-- JavaScript `a || b` on nullable strings (empty string falls through). -/
def jsOr (a b : Option String) : Option String :=
  match a with
  | none => b
  | some s => if s == "" then b else some s

/-- An empty chunk becomes an absent value (`x || null` on a chunk). -/
def olist (l : List Char) : Option (List Char) :=
  if l.isEmpty then none else some l

/-- `split` on a separator character (JavaScript `String.prototype.split`). -/
def splitOnChar (sep : Char) : List Char → List (List Char)
  | [] => [[]]
  | c :: cs =>
    if c = sep then [] :: splitOnChar sep cs
    else
      match splitOnChar sep cs with
      | [] => [[c]]
      | x :: xs => (c :: x) :: xs

/-- `block.split("\n").map(s => s.trim()).filter(Boolean)`. -/
def linesOf (l : List Char) : List (List Char) :=
  ((splitOnChar '\n' l).map trimL).filter (fun x => !x.isEmpty)

/-- `join("\n")`. -/
def joinNl (ls : List (List Char)) : List Char :=
  List.intercalate ['\n'] ls

/-- ASCII lower-casing of a string (the effect of `toLowerCase` on the
ASCII contact-key data; non-ASCII characters pass through). -/
def lowerS (s : String) : String :=
  (s.toList.map lowAscii).asString

/-- Source function `normalizePhone`: keep only digits. -/
def normalizePhone (s : String) : String :=
  (s.toList.filter Char.isDigit).asString

/-- Digit-string to number (JavaScript `Number` on a digit capture). -/
def digitsToNat (s : List Char) : Nat :=
  s.foldl (fun a c => a * 10 + (c.toNat - 48)) 0

/-! ## Field extractors

Each is the translation of one regular expression of the source, together
with the `match1` convention: first match in the text, first capture group,
trimmed.  Determinism of each translation follows from the shape of the
pattern (greedy runs stop at characters the continuation cannot accept); the
one genuinely backtracking piece, `\s*` before a character class containing
a space, is implemented by the descending-`w` search `phoneCapAfter`. -/

/-- `match1`: trim the capture and move to `String`. -/
def capToS (r : Option (Nat × Nat × List Char)) : Option String :=
  r.map (fun x => (trimL x.2.2).asString)

/-- `/Booking\s*#\s*(\d{5,12})/i` at one position: literal, greedy
whitespace (deterministic: `#` and digits are not whitespace), at least 5
digits, capture capped at 12. -/
def tryBookingAt (_ : Option Char) (s : List Char) : Option (Nat × List Char) :=
  match icPrefixRest "booking".toList s with
  | none => none
  | some r1 =>
    let w1 := r1.takeWhile isJsWS
    match r1.drop w1.length with
    | '#' :: r3 =>
      let w2 := r3.takeWhile isJsWS
      let r4 := r3.drop w2.length
      let ds := r4.takeWhile Char.isDigit
      if 5 ≤ ds.length then
        some (7 + w1.length + 1 + w2.length + min ds.length 12, ds.take 12)
      else none
    | _ => none

/-- `bookingNumber = match1(t, /Booking\s*#\s*(\d{5,12})/i)`. -/
def bookingNumberL (t : List Char) : Option String :=
  capToS (findFirst tryBookingAt t)

/-- Offsets of `'\n'` inside a whitespace run (the viable backtracking
choices of the `\s*` just before the mandatory `\n` of the header pattern). -/
def nlIndicesAux : List Char → Nat → List Nat
  | [], _ => []
  | c :: cs, i =>
    if c = '\n' then i :: nlIndicesAux cs (i + 1) else nlIndicesAux cs (i + 1)

/-- First case-insensitive occurrence of a literal (no boundaries):
the target of a lazy `[\s\S]*?` followed by that literal. -/
def findICLit (pat : List Char) (s : List Char) : Option Nat :=
  (findFirst (fun _ u => (icPrefixRest pat u).map (fun _ => (pat.length, ()))) s).map
    (fun r => r.1)

/-- The header-block pattern `-\s*-\s*-\s*\n([\s\S]*?)\nCONTACT INFORMATION`
(flag `i`) at one position.
The third `\s*` is followed by a mandatory `\n`, so the greedy choices are
the newline offsets of the whitespace run, longest first; for each, the lazy
body ends at the first later occurrence of `"\nCONTACT INFORMATION"`. -/
def tryDashAt (_ : Option Char) (s : List Char) : Option (Nat × List Char) :=
  match s with
  | '-' :: r1 =>
    let w1 := r1.takeWhile isJsWS
    match r1.drop w1.length with
    | '-' :: r2 =>
      let w2 := r2.takeWhile isJsWS
      match r2.drop w2.length with
      | '-' :: r3 =>
        let run := r3.takeWhile isJsWS
        ((nlIndicesAux run 0).reverse.findSome? (fun w =>
          let after := r3.drop (w + 1)
          (findICLit "\nCONTACT INFORMATION".toList after).map (fun j =>
            (3 + w1.length + w2.length + w + 1 + j + 20, after.take j))))
      | _ => none
    | _ => none
  | _ => none

/-- `headerBlock = matchBlock(t, ...)` with the header-block pattern above
(`matchBlock` trims the capture). -/
def headerBlockCap (t : List Char) : Option (List Char) :=
  (findFirst tryDashAt t).map (fun r => trimL r.2.2)

/-- The backtracking tail `\s*([0-9()\- ]{7,})` shared by all phone
patterns: `w` whitespace characters are consumed (longest first, since the
class also contains the space character) and the greedy class run from there
must reach 7 characters. -/
def phoneCapTry (u : List Char) : Nat → Option (Nat × List Char)
  | 0 =>
    let run := u.takeWhile isPhoneChar
    if 7 ≤ run.length then some (run.length, run) else none
  | Nat.succ w2 =>
    let run := (u.drop (w2 + 1)).takeWhile isPhoneChar
    if 7 ≤ run.length then some (w2 + 1 + run.length, run) else phoneCapTry u w2

/-- `\s*([0-9()\- ]{7,})` after a label, full backtracking order. -/
def phoneCapAfter (u : List Char) : Option (Nat × List Char) :=
  phoneCapTry u (u.takeWhile isJsWS).length

/-- `/<label>\s*...` phone pattern at one position, with an optional leading
`\b` (used by `/\bCell:/` in the talent block). -/
def tryPhoneLabelAt (needB : Bool) (lab : String) (prev : Option Char)
    (s : List Char) : Option (Nat × List Char) :=
  if needB && !boundaryOk prev then none
  else
    match icPrefixRest lab.toList s with
    | none => none
    | some u => (phoneCapAfter u).map (fun r => (lab.length + r.1, r.2))

/-- `match1` for a phone-class pattern. -/
def matchPhone (t : List Char) (lab : String) (needB : Bool) : Option String :=
  capToS (findFirst (tryPhoneLabelAt needB lab) t)

/-- `/Email:\s*([^\s]+@[^\s]+)/i` at one position: after the greedy
whitespace the non-whitespace run must contain an `@` that is neither its
first nor its last character; the capture is the whole run. -/
def tryEmailAt (_ : Option Char) (s : List Char) : Option (Nat × List Char) :=
  match icPrefixRest "email:".toList s with
  | none => none
  | some u =>
    let w := u.takeWhile isJsWS
    let r := (u.drop w.length).takeWhile (fun c => !isJsWS c)
    if (r.drop 1).dropLast.contains '@' then
      some (6 + w.length + r.length, r)
    else none

/-- `match1` for the email pattern. -/
def matchEmail (t : List Char) : Option String :=
  capToS (findFirst tryEmailAt t)

/-- `/<lit>:\s*([^\n]+)/i` (several alternative spellings of the label, as
produced by an optional `-?`): the capture is the rest of the line, with the
`\s*` backtracking to the latest position whose character is not `\n`. -/
def lineCapTry (u : List Char) : Nat → Option (Nat × List Char)
  | 0 =>
    match u with
    | c :: _ =>
      if c = '\n' then none
      else some ((u.takeWhile (fun d => d ≠ '\n')).length, u.takeWhile (fun d => d ≠ '\n'))
    | [] => none
  | Nat.succ w2 =>
    match u.drop (w2 + 1) with
    | c :: _ =>
      if c = '\n' then lineCapTry u w2
      else
        some (w2 + 1 + ((u.drop (w2 + 1)).takeWhile (fun d => d ≠ '\n')).length,
          (u.drop (w2 + 1)).takeWhile (fun d => d ≠ '\n'))
    | [] => lineCapTry u w2

/-- One-position attempt for a rest-of-line capture after any of the given
label spellings. -/
def tryLineCapAt (labs : List String) (_ : Option Char) (s : List Char) :
    Option (Nat × List Char) :=
  labs.findSome? (fun lab =>
    match icPrefixRest lab.toList s with
    | none => none
    | some u =>
      (lineCapTry u (u.takeWhile isJsWS).length).map
        (fun r => (lab.length + r.1, r.2)))

/-- `match1` for a rest-of-line pattern. -/
def matchLineCap (t : List Char) (labs : List String) : Option String :=
  capToS (findFirst (tryLineCapAt labs) t)

/-- Character class `[A-Z0-9\-]` under `/i`. -/
def isConfChar (c : Char) : Bool :=
  isAlnum c || c == '-'

/-- After the optional `(?:\s*#|\s*Number)` part: `:\s*([A-Z0-9\-]+)`. -/
def confTail (u : List Char) : Option (Nat × List Char) :=
  match u with
  | ':' :: r =>
    let w := r.takeWhile isJsWS
    let run := (r.drop w.length).takeWhile isConfChar
    if run.isEmpty then none else some (1 + w.length + run.length, run)
  | _ => none

/-- `/Confirmation(?:\s*#|\s*Number)?:\s*([A-Z0-9\-]+)/i` at one position,
trying the `#` alternative, then `Number`, then the empty option. -/
def tryConfAt (_ : Option Char) (s : List Char) : Option (Nat × List Char) :=
  match icPrefixRest "confirmation".toList s with
  | none => none
  | some u =>
    let w := u.takeWhile isJsWS
    let afterW := u.drop w.length
    let alt1 : Option (Nat × List Char) :=
      match afterW with
      | '#' :: r => (confTail r).map (fun x => (w.length + 1 + x.1, x.2))
      | _ => none
    let alt2 : Option (Nat × List Char) :=
      match icPrefixRest "number".toList afterW with
      | some r => (confTail r).map (fun x => (w.length + 6 + x.1, x.2))
      | none => none
    ((alt1.orElse (fun _ => alt2)).orElse (fun _ => confTail u)).map
      (fun x => (12 + x.1, x.2))

/-- `match1` for the confirmation pattern. -/
def matchConf (t : List Char) : Option String :=
  capToS (findFirst tryConfAt t)

/-- `/Nights:\s*(\d+)/i` at one position. -/
def tryNightsAt (_ : Option Char) (s : List Char) : Option (Nat × List Char) :=
  match icPrefixRest "nights:".toList s with
  | none => none
  | some u =>
    let w := u.takeWhile isJsWS
    let run := (u.drop w.length).takeWhile Char.isDigit
    if run.isEmpty then none else some (7 + w.length + run.length, run)

/-- `match1` for the nights pattern. -/
def matchNights (t : List Char) : Option String :=
  capToS (findFirst tryNightsAt t)

/-- `/Rate:\s*([$€£]?\s*[0-9,]+(?:\.[0-9]{2})?)/i` at one position.  The
leading whitespace outside the capture is greedy, so the inner `\s*` only
matters after a currency sign. -/
def tryRateAt (_ : Option Char) (s : List Char) : Option (Nat × List Char) :=
  match icPrefixRest "rate:".toList s with
  | none => none
  | some u =>
    let w := u.takeWhile isJsWS
    let v := u.drop w.length
    let cur : Nat :=
      match v with
      | c :: _ => if c = '$' || c = '€' || c = '£' then 1 else 0
      | [] => 0
    let w2 := (v.drop cur).takeWhile isJsWS
    let v3 := v.drop (cur + w2.length)
    let run := v3.takeWhile (fun c => c.isDigit || c == ',')
    if run.isEmpty then none
    else
      let dec : Nat :=
        match v3.drop run.length with
        | '.' :: d1 :: d2 :: _ => if d1.isDigit && d2.isDigit then 3 else 0
        | _ => 0
      let capLen := cur + w2.length + run.length + dec
      some (5 + w.length + capLen, v.take capLen)

/-- `match1` for the rate pattern. -/
def matchRate (t : List Char) : Option String :=
  capToS (findFirst tryRateAt t)

/-! ## Flight parser (source function `parseFlights`)

Pattern:
`\b([A-Z]{2,}|[A-Z][A-Za-z]+(?:\s+[A-Z][A-Za-z]+)*)\s+#?(\d{2,5})\b`
followed by a lazy `[\s\S]*?` that stops at `\n\n`, at another
airline-number pattern, or at end of input. -/

/-- The number tail `\s+#?(\d{2,5})\b`: deterministic, and it succeeds
exactly when the maximal digit run has length 2–5 and is followed by a
non-word character (shorter greedy choices leave a digit, a word character,
after the capture). -/
def tailNumMatch (u : List Char) : Option (Nat × List Char) :=
  let w := u.takeWhile isJsWS
  if w.isEmpty then none
  else
    let u1 := u.drop w.length
    let hash : Nat := match u1 with | '#' :: _ => 1 | _ => 0
    let u2 := u1.drop hash
    let ds := u2.takeWhile Char.isDigit
    if 2 ≤ ds.length && ds.length ≤ 5 && boundaryAfterOk (u2.drop ds.length) then
      some (w.length + hash + ds.length, ds)
    else none

/-- First alternative `[A-Z]{2,}`, greedy: candidate lengths `k` descend
from the maximal uppercase run, each continuing with the number tail. -/
def alt1Go (s U : List Char) : Nat → Option (Nat × (List Char × List Char))
  | 0 => none
  | 1 => none
  | Nat.succ w2 =>
    match tailNumMatch (s.drop (w2 + 1)) with
    | some (n, ds) => some (w2 + 1 + n, (U.take (w2 + 1), ds))
    | none => alt1Go s U w2

/-- One `(?:\s+[A-Z][A-Za-z]+)` unit of the second alternative. -/
def unitMatch (u : List Char) : Option Nat :=
  let w := u.takeWhile isJsWS
  if w.isEmpty then none
  else
    match u.drop w.length with
    | c :: r =>
      if c.isUpper then
        let m := r.takeWhile Char.isAlpha
        if m.isEmpty then none else some (w.length + 1 + m.length)
      else none
    | [] => none

/-- Greedy unit iteration then the number tail (a unit begins with
whitespace and an uppercase letter, the tail with whitespace and `#` or a
digit, so no backtracking between them can succeed).  Returns (capture
length, total length, digits). -/
def alt2Star (wordsLen : Nat) (u : List Char) : Nat → Option (Nat × Nat × List Char)
  | 0 => (tailNumMatch u).map (fun r => (wordsLen, wordsLen + r.1, r.2))
  | Nat.succ f =>
    match unitMatch u with
    | some n => alt2Star (wordsLen + n) (u.drop n) f
    | none => (tailNumMatch u).map (fun r => (wordsLen, wordsLen + r.1, r.2))

/-- Second alternative `[A-Z][A-Za-z]+(?:\s+[A-Z][A-Za-z]+)*` plus tail. -/
def alt2Try (s : List Char) : Option (Nat × (List Char × List Char)) :=
  match s with
  | c :: r =>
    if c.isUpper then
      let l0 := r.takeWhile Char.isAlpha
      if l0.isEmpty then none
      else
        (alt2Star (1 + l0.length) (r.drop l0.length) r.length).map
          (fun x => (x.2.1, (s.take x.1, x.2.2)))
    else none
  | [] => none

/-- The airline-number head at one position: `\b`, alternative 1 with all
its greedy choices, then alternative 2.  Returns (length, airline, digits). -/
def flightHeadAt (prev : Option Char) (s : List Char) :
    Option (Nat × (List Char × List Char)) :=
  if boundaryOk prev then
    let U := s.takeWhile Char.isUpper
    match alt1Go s U U.length with
    | some r => some r
    | none => alt2Try s
  else none

/-- The lookahead `(?=\n\n|\b(...)\s+#?\d{2,5}\b|$)`. -/
def lookAheadOk (prev : Char) (u : List Char) : Bool :=
  (match u with
   | '\n' :: '\n' :: _ => true
   | _ => false) ||
  (flightHeadAt (some prev) u).isSome

/-- Length consumed by the lazy `[\s\S]*?` before the lookahead holds
(it always holds at end of input). -/
def lazyLenAux : Char → List Char → Nat
  | _, [] => 0
  | prev, c :: cs => if lookAheadOk prev (c :: cs) then 0 else 1 + lazyLenAux c cs

/-- The whole flight pattern at one position. -/
def tryFlightAt (prev : Option Char) (s : List Char) :
    Option (Nat × (List Char × List Char)) :=
  (flightHeadAt prev s).map (fun r =>
    (r.1 + lazyLenAux ((s.take r.1).getLastD ' ') (s.drop r.1), r.2))

/-- `/(?:Reservation Code|Airline Reservation Code):\s*([A-Z0-9]+)/i`. -/
def tryResAt (_ : Option Char) (s : List Char) : Option (Nat × List Char) :=
  let attempt : String → Option (Nat × List Char) := fun lab =>
    match icPrefixRest lab.toList s with
    | none => none
    | some u =>
      let w := u.takeWhile isJsWS
      let run := (u.drop w.length).takeWhile isAlnum
      if run.isEmpty then none else some (lab.length + w.length + run.length, run)
  (attempt "Reservation Code:").orElse (fun _ => attempt "Airline Reservation Code:")

/-- `/\bSeat:\s*([A-Z0-9]+)/i`. -/
def trySeatColonAt (prev : Option Char) (s : List Char) : Option (Nat × List Char) :=
  if boundaryOk prev then
    match icPrefixRest "seat:".toList s with
    | none => none
    | some u =>
      let w := u.takeWhile isJsWS
      let run := (u.drop w.length).takeWhile isAlnum
      if run.isEmpty then none else some (5 + w.length + run.length, run)
  else none

/-- `/\bSeat\s+([A-Z0-9]+)\b/i`. -/
def trySeatSpAt (prev : Option Char) (s : List Char) : Option (Nat × List Char) :=
  if boundaryOk prev then
    match icPrefixRest "seat".toList s with
    | none => none
    | some u =>
      let w := u.takeWhile isJsWS
      if w.isEmpty then none
      else
        let u2 := u.drop w.length
        let run := u2.takeWhile isAlnum
        if run.isEmpty || !boundaryAfterOk (u2.drop run.length) then none
        else some (4 + w.length + run.length, run)
  else none

/-- Source function `parseFlights`: the global `exec` loop, with
`raw = normalize(m[0])` and the two secondary extractors applied to it. -/
def parseFlights (sched : List Char) : List FlightLeg :=
  (scanAll tryFlightAt sched).map (fun r =>
    let raw := normalizeL ((sched.drop r.1).take r.2.1)
    { airline := (trimL r.2.2.1).asString
      flightNumber := (trimL r.2.2.2).asString
      reservationCode := capToS (findFirst tryResAt raw)
      seat := jsOr (capToS (findFirst trySeatColonAt raw))
        (capToS (findFirst trySeatSpAt raw))
      raw := raw.asString })

/-! ## Label-block slicing -/

/-- `/\n[A-Z][A-Z \/\*]{3,}:\s*/` (the secondary all-caps LABEL cut). -/
def tryCapsAt (_ : Option Char) (s : List Char) : Option (Nat × Unit) :=
  match s with
  | '\n' :: c :: r =>
    if c.isUpper then
      let run := r.takeWhile (fun d => d.isUpper || d == ' ' || d == '/' || d == '*')
      if 3 ≤ run.length then
        match r.drop run.length with
        | ':' :: r2 => some (2 + run.length + 1 + (r2.takeWhile isJsWS).length, ())
        | _ => none
      else none
    else none
  | _ => none

/-- A site or contact label pattern is a sequence of case-insensitive
literals and `\s*` gaps (the latter appears in the stored label string
`LEADING AUTHORITIES\s*CONTACTS`). -/
inductive LabTok where
  | lit : String → LabTok
  | wsStar : LabTok

/-- Consume a token sequence, returning the consumed length. -/
def matchToks : List LabTok → List Char → Option Nat
  | [], _ => some 0
  | LabTok.lit p :: rest, s =>
    match icPrefixRest p.toList s with
    | some r => (matchToks rest r).map (fun n => n + p.length)
    | none => none
  | LabTok.wsStar :: rest, s =>
    let w := s.takeWhile isJsWS
    (matchToks rest (s.drop w.length)).map (fun n => n + w.length)

/-- `\b<label>\b\s*:\s*` at one position. -/
def tryLabelAt (toks : List LabTok) (prev : Option Char) (s : List Char) :
    Option (Nat × Unit) :=
  if boundaryOk prev then
    match matchToks toks s with
    | some n =>
      let rest := s.drop n
      if boundaryAfterOk rest then
        let w1 := rest.takeWhile isJsWS
        match rest.drop w1.length with
        | ':' :: r3 => some (n + w1.length + 1 + (r3.takeWhile isJsWS).length, ())
        | _ => none
      else none
    | none => none
  else none

/-- Stable insertion by a numeric key. -/
def insertByIdx (key : α → Nat) (x : α) : List α → List α
  | [] => [x]
  | y :: ys => if key x ≤ key y then x :: y :: ys else y :: insertByIdx key x ys

/-- Stable sort by a numeric key (`sort((a, b) => a.idx - b.idx)`). -/
def sortByIdx (key : α → Nat) : List α → List α
  | [] => []
  | x :: xs => insertByIdx key x (sortByIdx key xs)

/-! ## Person and talent parsing -/

/-- Character class `[a-zA-Z'’.\- ]` of the new-person heuristic. -/
def isPersonClass (c : Char) : Bool :=
  c.isAlpha || c == '\'' || c == '’' || c == '.' || c == '-' || c == ' '

/-- `/^[A-Z][a-zA-Z'’.\- ]+,\s+/.test(line)`. -/
def newPersonTest : List Char → Bool
  | [] => false
  | c :: r =>
    if c.isUpper then
      let run := r.takeWhile isPersonClass
      if run.isEmpty then false
      else
        match r.drop run.length with
        | ',' :: d :: _ => isJsWS d
        | _ => false
    else false

/-- `match1(block, ...)` for `^(.+?)(?:\n|\(|$)` (flag `i`): the shortest
non-empty newline-free prefix stopped by a newline, an opening parenthesis
or the end. -/
def primaryNameCap : List Char → Option (List Char)
  | [] => none
  | c :: r =>
    if c = '\n' then none
    else some (c :: r.takeWhile (fun d => !(d == '\n') && !(d == '(')))

/-- `/\(will be accompanied by ([^)]+)\)/i`. -/
def tryCompanionAt (_ : Option Char) (s : List Char) : Option (Nat × List Char) :=
  let lab := "(will be accompanied by "
  match icPrefixRest lab.toList s with
  | none => none
  | some u =>
    let run := u.takeWhile (fun c => !(c == ')'))
    if run.isEmpty then none
    else
      match u.drop run.length with
      | ')' :: _ => some (lab.length + run.length + 1, run)
      | _ => none

/-- `/[A-Z][a-zA-Z]+[’']s Cell:\s*([0-9()\- ]{7,})/i` (under `/i` the
leading `[A-Z]` also matches lowercase letters). -/
def tryCompCellAt (_ : Option Char) (s : List Char) : Option (Nat × List Char) :=
  match s with
  | c :: r =>
    if c.isAlpha then
      let m := r.takeWhile Char.isAlpha
      if m.isEmpty then none
      else
        match r.drop m.length with
        | q :: rest =>
          if q = '’' || q = '\'' then
            match rest with
            | sc :: rest2 =>
              if icEq sc 's' then
                match rest2 with
                | ' ' :: rest3 =>
                  match icPrefixRest "cell:".toList rest3 with
                  | some u =>
                    (phoneCapAfter u).map (fun x =>
                      (1 + m.length + 2 + 1 + 5 + x.1, x.2))
                  | none => none
                | _ => none
              else none
            | [] => none
          else none
        | [] => none
    else none
  | [] => none

/-- `/\b(Monday|...)\b/i`-style word-list test at one position. -/
def tryWordsAt (words : List String) (prev : Option Char) (s : List Char) :
    Option (Nat × Unit) :=
  if boundaryOk prev then
    words.findSome? (fun w =>
      match icPrefixRest w.toList s with
      | some rest => if boundaryAfterOk rest then some (w.length, ()) else none
      | none => none)
  else none

/-- Weekday names of the date heuristic. -/
def dayWords : List String :=
  ["Monday", "Tuesday", "Wednesday", "Thursday", "Friday", "Saturday", "Sunday"]

/-- Month names of the date heuristic. -/
def monthWords : List String :=
  ["January", "February", "March", "April", "May", "June", "July", "August",
   "September", "October", "November", "December"]

/-- The date-line heuristic of `parseHeaderBlock`. -/
def hasDateWord (l : List Char) : Bool :=
  (findFirst (tryWordsAt dayWords) l).isSome ||
  (findFirst (tryWordsAt monthWords) l).isSome

/-! ## Header, sites, contacts, confidence, and the engine -/

/-- Anchored `/^<label>/i` test. -/
def startsWithIC (lab : String) (l : List Char) : Bool :=
  (icPrefixRest lab.toList l).isSome

/-- Source function `parseHeaderBlock`. -/
def parseHeaderBlock (block : Option (List Char)) : HeaderFacts :=
  match block with
  | none =>
    { talentName := none, clientName := none, eventTitle := none,
      eventDateText := none, raw := none }
  | some b =>
    if b.isEmpty then
      { talentName := none, clientName := none, eventTitle := none,
        eventDateText := none, raw := none }
    else
      let lines := linesOf b
      let dateIdx := lines.findIdx? hasDateWord
      { talentName := (lines.get? 0).map (·.asString)
        clientName := (lines.get? 1).map (·.asString)
        eventTitle := (lines.get? 2).map (·.asString)
        eventDateText := (dateIdx.bind (fun i => lines.get? i)).map (·.asString)
        raw := some b.asString }

/-- Result shape of `parseAddressBlock`. -/
structure AddrParts where
  name : Option String
  address : Option String
  phone : Option String
  email : Option String
deriving Repr, DecidableEq

/-- Source function `parseAddressBlock`. -/
def parseAddressBlock (block : List Char) : AddrParts :=
  let lines := linesOf block
  let addrLines :=
    (lines.filter (fun l => !startsWithIC "Phone:" l && !startsWithIC "Email:" l)).take 4
  { name := (lines.get? 0).map (·.asString)
    address :=
      if addrLines.isEmpty then none
      else some ((List.intercalate ", ".toList addrLines).asString)
    phone := matchPhone block "Phone:" false
    email := matchEmail block }

/-- Source function `parseHotelDetails`. -/
def parseHotelDetails (block : List Char) : Option HotelDetails :=
  let checkIn := matchLineCap block ["Check-In:", "CheckIn:"]
  let checkOut := matchLineCap block ["Check-Out:", "CheckOut:"]
  let confirmation := matchConf block
  let roomType := matchLineCap block ["Room Type:"]
  let nights := matchNights block
  let rate := matchRate block
  if truthyS checkIn || truthyS checkOut || truthyS confirmation || truthyS roomType ||
      truthyS nights || truthyS rate then
    some { checkIn := orNullS checkIn, checkOut := orNullS checkOut,
           confirmation := orNullS confirmation, roomType := orNullS roomType,
           nights := if truthyS nights then nights.map (fun s => digitsToNat s.toList) else none,
           rate := orNullS rate }
  else none

/-- The site labels, in source order (the stored string `EVENT\/HOTEL SITE`
denotes a literal slash in the regex). -/
def siteLabelSpecs : List (String × List LabTok) :=
  [("event", [LabTok.lit "EVENT SITE"]),
   ("event", [LabTok.lit "EVENT/HOTEL SITE"]),
   ("hotel", [LabTok.lit "HOTEL SITE"]),
   ("hotel", [LabTok.lit "HOTEL"])]

/-- The site loop of `parseSitesFromContactInfo`.  The secondary all-caps
cut regex is a single global regex object reused across iterations, so its
`lastIndex` carries over from one site chunk to the next, exactly as in the
source. -/
def sitesGo (cb : List Char) : List (String × Nat × Nat) → Nat → List Site
  | [], _ => []
  | (ty, idx, mlen) :: rest, lastIdx =>
    let endPos := match rest with
      | [] => cb.length
      | (_, idx2, _) :: _ => idx2
    let chunk0 := trimL ((cb.take endPos).drop (idx + mlen))
    let s2 := '\n' :: chunk0
    let cut : Option (Nat × Nat) × Nat :=
      if s2.length < lastIdx then (none, 0)
      else
        match findFirstFrom tryCapsAt s2 lastIdx with
        | some (p, l, _) => (some (p, l), p + l)
        | none => (none, 0)
    let chunk := match cut.1 with
      | some (p, _) => if 0 < p then trimL (chunk0.take p) else chunk0
      | none => chunk0
    let parsed := parseAddressBlock chunk
    let hd := if ty == "hotel" then parseHotelDetails chunk else none
    { type := ty,
      label := if ty == "event" then "EVENT SITE" else "HOTEL SITE",
      name := parsed.name, address := parsed.address, phone := parsed.phone,
      email := parsed.email, hotelDetails := hd, raw := chunk.asString } ::
      sitesGo cb rest cut.2

/-- Source function `parseSitesFromContactInfo`. -/
def parseSitesFromContactInfo (contactBlock : List Char) : List Site :=
  if contactBlock.isEmpty then []
  else
    let positions := siteLabelSpecs.filterMap (fun spec =>
      (findFirst (tryLabelAt spec.2) contactBlock).map (fun r => (spec.1, r.1, r.2.1)))
    let sorted := sortByIdx (fun p => p.2.1) positions
    let sites := sitesGo contactBlock sorted 0
    if sites.isEmpty then
      match matchPhone contactBlock "Phone:" false with
      | some ph =>
        if ph == "" then []
        else
          let parsed := parseAddressBlock contactBlock
          [{ type := "event", label := "EVENT SITE", name := parsed.name,
             address := parsed.address, phone := parsed.phone, email := parsed.email,
             hotelDetails := none, raw := contactBlock.asString }]
      | none => []
    else sites

/-- The contact label groups, in source order. -/
def contactLabelSpecs : List (String × List LabTok) :=
  [("client_onsite", [LabTok.lit "CLIENT ONSITE CONTACT"]),
   ("client_onsite", [LabTok.lit "CLIENT ONSITE CONTACTS"]),
   ("lai_onsite", [LabTok.lit "LEADING AUTHORITIES ONSITE CONTACT"]),
   ("lai_onsite", [LabTok.lit "LEADING AUTHORITIES ONSITE CONTACTS"]),
   ("lai_contacts", [LabTok.lit "LEADING AUTHORITIES CONTACTS"]),
   ("lai_contacts", [LabTok.lit "LEADING AUTHORITIES", LabTok.wsStar, LabTok.lit "CONTACTS"]),
   ("talent", [LabTok.lit "TALENT CONTACT"])]

/-- The slice step of `sliceLabeledChunks`. -/
def chunksGo (block : List Char) : List (String × Nat × Nat) → List (String × List Char)
  | [] => []
  | (g, idx, len) :: rest =>
    let endPos := match rest with
      | [] => block.length
      | (_, idx2, _) :: _ => idx2
    (g, trimL ((block.take endPos).drop (idx + len))) :: chunksGo block rest

/-- Source function `sliceLabeledChunks` (specialised to the contact label
definitions it is called with). -/
def sliceLabeledChunks (block : List Char) : List (String × List Char) :=
  let hits := (contactLabelSpecs.map (fun spec =>
    (scanAll (tryLabelAt spec.2) block).map (fun r => (spec.1, r.1, r.2.1)))).flatten
  if hits.isEmpty then []
  else chunksGo block (sortByIdx (fun p => p.2.1) hits)

/-- Source function `parsePersonBlock`. -/
def parsePersonBlock (group : String) (b : List Char) : Option Contact :=
  let nameTitleLine := trimL ((splitOnChar '\n' b).headD [])
  if nameTitleLine.isEmpty then none
  else
    let parts := splitOnChar ',' nameTitleLine
    let hasComma := 2 ≤ parts.length
    let name := if hasComma then trimL (parts.headD []) else trimL nameTitleLine
    let title :=
      if hasComma then some (trimL (List.intercalate [','] (parts.drop 1))) else none
    let c : Contact :=
      { group := group,
        name := orNullS (some name.asString),
        title := orNullS (title.map (·.asString)),
        office := matchPhone b "Office:" false,
        cell := jsOr (matchPhone b "Cell:" false) (matchPhone b "Mobile:" false),
        email := matchEmail b,
        companion := none,
        raw := b.asString }
    some c

/-- The person-grouping loop of `parsePeopleList`. -/
def groupBlocksGo (cur : List (List Char)) : List (List Char) → List (List Char)
  | [] => if cur.isEmpty then [] else [joinNl cur]
  | l :: ls =>
    if newPersonTest l && !cur.isEmpty then
      joinNl cur :: groupBlocksGo [l] ls
    else groupBlocksGo (cur ++ [l]) ls

/-- Source function `parsePeopleList`. -/
def parsePeopleList (text : List Char) (group : String) : List Contact :=
  let lines := linesOf text
  if lines.isEmpty then []
  else
    let blocks := groupBlocksGo [] lines
    let blocks := if blocks.isEmpty then [joinNl lines] else blocks
    (blocks.map (parsePersonBlock group)).reduceOption

/-- Source function `parseTalentContacts`. -/
def parseTalentContacts (text : List Char) : List Contact :=
  let block := trimL text
  if block.isEmpty then []
  else
    let primaryName := (primaryNameCap block).map (fun l => (trimL l).asString)
    let companion := capToS (findFirst tryCompanionAt block)
    let talentCell := orNullS (capToS (findFirst (tryPhoneLabelAt true "Cell:") block))
    let companionCell := orNullS (capToS (findFirst tryCompCellAt block))
    let first : Contact :=
      { group := "talent", name := orNullS primaryName, title := none, office := none,
        cell := talentCell, email := matchEmail block,
        companion := orNullS companion, raw := block.asString }
    if truthyS companion then
      [first,
       { group := "talent_companion", name := orNullS companion, title := none,
         office := none, cell := companionCell, email := none, companion := none,
         raw := block.asString }]
    else [first]

/-- The dedup key of `dedupeContacts` (`toLowerCase` acts on the ASCII
data of the keys; non-ASCII characters pass through `lowerS` unchanged). -/
def contactKey (c : Contact) : String :=
  lowerS c.group ++ "|" ++ lowerS (c.name.getD "") ++ "|" ++
  lowerS (c.email.getD "") ++ "|" ++ normalizePhone (c.cell.getD "") ++ "|" ++
  normalizePhone (c.office.getD "")

/-- The first-occurrence-wins loop of `dedupeContacts`. -/
def dedupeGo (seen : List String) : List Contact → List Contact
  | [] => []
  | c :: cs =>
    let k := contactKey c
    if seen.contains k then dedupeGo seen cs
    else c :: dedupeGo (k :: seen) cs

/-- Source function `dedupeContacts`. -/
def dedupeContacts (l : List Contact) : List Contact :=
  dedupeGo [] l

/-- Source function `parseContactsFromContactInfo`. -/
def parseContactsFromContactInfo (contactBlock : List Char) : List Contact :=
  if contactBlock.isEmpty then []
  else
    let chunks := sliceLabeledChunks contactBlock
    let out := (chunks.map (fun ch =>
      if ch.1 == "talent" then parseTalentContacts ch.2
      else parsePeopleList ch.2 ch.1)).flatten
    dedupeContacts out

/-- Source function `computeConfidence`.  `(total * 200 + 7) / 14` equals
`Math.round((total / 7) * 100)` for every total `0..7`, the only values the
checklist can produce. -/
def computeConfidence (x : ConfFacts) : Confidence :=
  let score : Option String → Nat := fun v => if truthyS v then 1 else 0
  let headerScore := score x.bookingNumber + score x.talentName + score x.clientName +
    score x.eventTitle + score x.eventDateText
  let sitesScore := if x.sites.isEmpty then 0 else 1
  let contactsScore := if x.contacts.isEmpty then 0 else 1
  let total := headerScore + sitesScore + contactsScore
  { overall := (total * 200 + 7) / 14
    hasBookingNumber := truthyS x.bookingNumber
    hasHeader := truthyS x.talentName || truthyS x.clientName || truthyS x.eventTitle ||
      truthyS x.eventDateText
    hasSites := !x.sites.isEmpty
    hasContacts := !x.contacts.isEmpty }

/-- `sectionMap["CONTACT INFORMATION"]?.[0] || ""`. -/
def contactBlockOf (t : List Char) : List Char :=
  (sectionSpans (splitByHeadingsMulti t headingsVocab) "CONTACT INFORMATION").headD []

/-- `sectionMap[h]?.[0] || null`. -/
def sectionFirst (t : List Char) (h : String) : Option (List Char) :=
  olist ((sectionSpans (splitByHeadingsMulti t headingsVocab) h).headD [])

/-- Source function `parseLaiEventBrief` on character lists. -/
def parseLaiEventBriefL (rawText : List Char) : ParsedBrief :=
  let t := normalizeL rawText
  let bookingNumber := bookingNumberL t
  let m := splitByHeadingsMulti t headingsVocab
  let contactBlock := (sectionSpans m "CONTACT INFORMATION").headD []
  let header := parseHeaderBlock (headerBlockCap t)
  let sites := parseSitesFromContactInfo contactBlock
  let contacts := parseContactsFromContactInfo contactBlock
  let scheduleBlock := olist ((sectionSpans m "SCHEDULE OF EVENTS").headD [])
  let flights := match scheduleBlock with
    | some sb => parseFlights sb
    | none => []
  let confidence := computeConfidence
    { bookingNumber := bookingNumber, talentName := header.talentName,
      clientName := header.clientName, eventTitle := header.eventTitle,
      eventDateText := header.eventDateText, sites := sites, contacts := contacts }
  let sections : Sections :=
    { contactInformation := (olist contactBlock).map (·.asString),
      eventDetails := (olist ((sectionSpans m "EVENT DETAILS").headD [])).map (·.asString),
      clientDetails := (olist ((sectionSpans m "CLIENT DETAILS").headD [])).map (·.asString),
      talentIntroduction :=
        (olist ((sectionSpans m "TALENT INTRODUCTION").headD [])).map (·.asString) }
  { bookingNumber := bookingNumber, header := header, sites := sites,
    contacts := contacts,
    schedule := scheduleBlock.map (fun sb => { flights := flights, raw := sb.asString }),
    sections := sections,
    confidence := confidence }

/-- Source function `parseLaiEventBrief`. -/
def parseLaiEventBrief (rawText : String) : ParsedBrief :=
  parseLaiEventBriefL rawText.toList

/-- The checklist of §4.7: how many of the five top-level facts are present,
plus one point for a non-empty site list and one for a non-empty contact
list. -/
def presentCount (p : ParsedBrief) : Nat :=
  (if p.bookingNumber.isSome then 1 else 0) +
  (if p.header.talentName.isSome then 1 else 0) +
  (if p.header.clientName.isSome then 1 else 0) +
  (if p.header.eventTitle.isSome then 1 else 0) +
  (if p.header.eventDateText.isSome then 1 else 0) +
  (if p.sites.isEmpty then 0 else 1) +
  (if p.contacts.isEmpty then 0 else 1)

/-! ## Specification artifacts for the normalizer proofs -/

/-- Adjacent-pair predicate: not two spaces in a row (the fixpoint
condition of the `[ \t]+` collapse on tab-free text). -/
def noDS (a b : Char) : Prop := ¬(a = ' ' ∧ b = ' ')

/-- Adjacent-pair predicate: no double space and no space adjacent to a
newline (the fixpoint condition of the space/newline replacements). -/
def okPair (a b : Char) : Prop :=
  ¬(a = ' ' ∧ b = ' ') ∧ ¬(a = ' ' ∧ b = '\n') ∧ ¬(a = '\n' ∧ b = ' ')

/-- Does the list start with two newlines? -/
def startsNN (l : List Char) : Bool :=
  l.head? == some '\n' && l.tail.head? == some '\n'

/-- No three consecutive newlines (the fixpoint condition of the
newline squeeze). -/
def no3 : List Char → Bool
  | [] => true
  | c :: cs => (!(c == '\n' && startsNN cs)) && no3 cs

/-- The first character produced by `fixNL`. -/
def fixHead : List Char → Option Char
  | [] => none
  | ' ' :: '\n' :: _ => some '\n'
  | c :: _ => some c

/-- Reference scanner of the specification for the heading claims: try the
pattern at every single position, also inside earlier matches. -/
def occScanAux (tryAt : Option Char → List Char → Option (Nat × α)) :
    Option Char → Nat → List Char → List (Nat × Nat × α)
  | _, _, [] => []
  | prev, pos, c :: cs =>
    match tryAt prev (c :: cs) with
    | some (len, a) => (pos, len, a) :: occScanAux tryAt (some c) (pos + 1) cs
    | none => occScanAux tryAt (some c) (pos + 1) cs

/-- The previous character seen when a scan has advanced `d` positions past a
state with previous character `prev` and remaining text `l`. -/
def prevStep (prev : Option Char) (l : List Char) : Nat → Option Char
  | 0 => prev
  | Nat.succ d => l.get? d

/-- No occurrence of the pattern can start strictly inside another occurrence
of the same pattern: every self-overlap shift either lands right after a word
character (failing the word boundary) or disagrees case-insensitively. -/
def icBorderFree (p : List Char) : Bool :=
  (List.range p.length).all (fun d =>
    if 1 ≤ d then
      !(!isWordChar (p.getD (d - 1) ' ') &&
        (List.range (p.length - d)).all (fun k =>
          icEq (p.getD (d + k) ' ') (p.getD k ' ')))
    else true)

/-- The end offset of the span of the `j`-th sorted hit: the start offset of
the next hit, or the end of the text. -/
def hitEnd (t : List Char) (L : List Hit) (j : Nat) : Nat :=
  match L.drop (j + 1) with
  | [] => t.length
  | y :: _ => y.idx

/-- Declarative reading of the booking-number pattern at the start of `s`:
the word Booking case-insensitively, then `w1` whitespace characters, a hash
sign, `w2` whitespace characters, and at least five consecutive digits. -/
def bookingDecl (s : List Char) : Prop :=
  ∃ w1 w2 : Nat,
    (s.take 7).map lowAscii = "booking".toList ∧
    (∀ c ∈ (s.drop 7).take w1, isJsWS c = true) ∧
    (s.drop (7 + w1)).take 1 = ['#'] ∧
    (∀ c ∈ (s.drop (8 + w1)).take w2, isJsWS c = true) ∧
    ((s.drop (8 + w1 + w2)).take 5).length = 5 ∧
    (∀ c ∈ (s.drop (8 + w1 + w2)).take 5, c.isDigit = true)

/-- The maximal digit run that follows the booking prefix, hash and the two
maximal whitespace runs at the start of `s`. -/
def bkDigits (s : List Char) : List Char :=
  ((s.drop (8 + ((s.drop 7).takeWhile isJsWS).length +
    ((s.drop (8 + ((s.drop 7).takeWhile isJsWS).length)).takeWhile
      isJsWS).length)).takeWhile Char.isDigit)

/-- A string is trimmed: trimming it is a no-op. -/
def trimmedS (s : String) : Prop :=
  trimL s.toList = s.toList

/-- A nullable leaf string field as the invariant requires it: absent, or a
trimmed non-empty string. -/
def optTrimNE (o : Option String) : Prop :=
  o ≠ some "" ∧ ∀ s, o = some s → trimmedS s

/-- A mandatory leaf string field as the invariant requires it: a trimmed
non-empty string. -/
def strTrimNE (s : String) : Prop :=
  s ≠ "" ∧ trimmedS s

/- THEOREMS -/

/-! ## Character-class bridge lemmas -/

theorem char_eq_iff_toNat {c d : Char} : c = d ↔ c.toNat = d.toNat := by
  constructor
  · intro h; rw [h]
  · intro h
    exact Char.ext (by simpa [Char.toNat] using UInt32.ext_iff.mpr h)

theorem isJsWS_iff {c : Char} : isJsWS c = true ↔
    (c.toNat = 9 ∨ c.toNat = 10 ∨ c.toNat = 11 ∨ c.toNat = 12 ∨ c.toNat = 13 ∨
     c.toNat = 32 ∨ c.toNat = 160 ∨ c.toNat = 5760 ∨
     (8192 ≤ c.toNat ∧ c.toNat ≤ 8202) ∨ c.toNat = 8232 ∨ c.toNat = 8233 ∨
     c.toNat = 8239 ∨ c.toNat = 8287 ∨ c.toNat = 12288 ∨ c.toNat = 65279) := by
  simp only [isJsWS, Bool.or_eq_true, Bool.and_eq_true, beq_iff_eq, decide_eq_true_eq,
    char_eq_iff_toNat, show (' ' : Char).toNat = 32 from rfl,
    show ('\t' : Char).toNat = 9 from rfl, show ('\n' : Char).toNat = 10 from rfl,
    show ('\x0d' : Char).toNat = 13 from rfl]
  omega

theorem isDigit_toNat {c : Char} (h : c.isDigit = true) : 48 ≤ c.toNat ∧ c.toNat ≤ 57 := by
  simp [Char.isDigit] at h; exact h

theorem isDigit_not_ws {c : Char} (h : c.isDigit = true) : isJsWS c = false := by
  have hd := isDigit_toNat h
  cases hws : isJsWS c
  · rfl
  · have := isJsWS_iff.mp hws
    omega

theorem isUpper_toNat {c : Char} (h : c.isUpper = true) : 65 ≤ c.toNat ∧ c.toNat ≤ 90 := by
  simp [Char.isUpper] at h; exact h

theorem isAlpha_toNat {c : Char} (h : c.isAlpha = true) :
    (65 ≤ c.toNat ∧ c.toNat ≤ 90) ∨ (97 ≤ c.toNat ∧ c.toNat ≤ 122) := by
  simp [Char.isAlpha, Char.isUpper, Char.isLower] at h; exact h

theorem isAlpha_not_ws {c : Char} (h : c.isAlpha = true) : isJsWS c = false := by
  have hd := isAlpha_toNat h
  cases hws : isJsWS c
  · rfl
  · have := isJsWS_iff.mp hws
    omega

/-! ## Basic facts about `trimL`, `asString`, `linesOf` -/

theorem asString_eq_empty_iff {l : List Char} : l.asString = "" ↔ l = [] := by
  constructor
  · intro h
    have := congrArg String.data h
    simpa [List.asString] using this
  · intro h; subst h; rfl

theorem trimL_eq_nil_iff {l : List Char} : trimL l = [] ↔ ∀ c ∈ l, isJsWS c = true := by
  unfold trimL
  rw [List.reverse_eq_nil_iff, List.dropWhile_eq_nil_iff]
  constructor
  · intro h c hc
    have hsplit := List.takeWhile_append_dropWhile (p := isJsWS) (l := l)
    rw [← hsplit] at hc
    rcases List.mem_append.mp hc with h1 | h2
    · exact List.mem_takeWhile_imp h1
    · exact h _ (List.mem_reverse.mpr h2)
  · intro h c hc
    have hm : c ∈ l.dropWhile isJsWS := List.mem_reverse.mp hc
    exact h c ((List.dropWhile_sublist (p := isJsWS) (l := l)).subset hm)

theorem trimL_ne_nil_of_mem {l : List Char} {c : Char} (hc : c ∈ l)
    (hw : isJsWS c = false) : trimL l ≠ [] := by
  intro h
  have := (trimL_eq_nil_iff.mp h) c hc
  rw [hw] at this
  exact Bool.false_ne_true this

theorem mem_linesOf_ne_nil {b l : List Char} (h : l ∈ linesOf b) : l ≠ [] := by
  unfold linesOf at h
  have := List.of_mem_filter h
  simpa using this

/-! ## First-match and scan decomposition lemmas -/

theorem findFirstAux_some {α} {tryAt : Option Char → List Char → Option (Nat × α)} :
    ∀ {prev : Option Char} {pos : Nat} {l : List Char} {r},
      findFirstAux tryAt prev pos l = some r →
      ∃ p s, s <:+ l ∧ tryAt p s = some (r.2.1, r.2.2)
  | prev, pos, [], r => by simp [findFirstAux]
  | prev, pos, c :: cs, r => by
    unfold findFirstAux
    cases h : tryAt prev (c :: cs) with
    | some v =>
      intro he
      refine ⟨prev, c :: cs, List.suffix_refl _, ?_⟩
      cases he
      simpa using h
    | none =>
      intro he
      obtain ⟨p, s, hs, ht⟩ := findFirstAux_some he
      exact ⟨p, s, hs.trans (List.suffix_cons c cs), ht⟩

theorem scanAllAux_mem {α} {tryAt : Option Char → List Char → Option (Nat × α)} :
    ∀ {prev : Option Char} {k pos : Nat} {l : List Char} {r},
      r ∈ scanAllAux tryAt prev k pos l →
      ∃ p s, s <:+ l ∧ tryAt p s = some (r.2.1, r.2.2)
  | prev, k, pos, [], r => by simp [scanAllAux]
  | prev, Nat.succ k, pos, c :: cs, r => by
    intro h
    obtain ⟨p, s, hs, ht⟩ := scanAllAux_mem (by simpa [scanAllAux] using h)
    exact ⟨p, s, hs.trans (List.suffix_cons c cs), ht⟩
  | prev, 0, pos, c :: cs, r => by
    intro h
    unfold scanAllAux at h
    cases ht : tryAt prev (c :: cs) with
    | some v =>
      rw [ht] at h
      rcases List.mem_cons.mp h with h1 | h2
      · exact ⟨prev, c :: cs, List.suffix_refl _, by rw [h1]; simpa using ht⟩
      · obtain ⟨p, s, hs, ht2⟩ := scanAllAux_mem h2
        exact ⟨p, s, hs.trans (List.suffix_cons c cs), ht2⟩
    | none =>
      rw [ht] at h
      obtain ⟨p, s, hs, ht2⟩ := scanAllAux_mem h
      exact ⟨p, s, hs.trans (List.suffix_cons c cs), ht2⟩

/-! ## C1: end-to-end scenario 1 -/

set_option maxRecDepth 40000 in
/-- C1: on the exact scenario-1 input text, the extraction engine returns
booking number "123456", talent name "Jane Doe", a single site of type
"event" with phone "(555) 123-4567", a contacts list consisting of the
client_onsite contact "John Smith" with office "(555) 987-6543", a schedule
whose first flight is AA 1234 with reservation code ABCDEF and seat 12A, and
`confidence.hasBookingNumber = true`. -/
theorem c1_end_to_end_scenario1 :
    (parseLaiEventBrief "Booking # 123456\n- - -\nJane Doe\nAcme Corp\nAnnual Gala\nFriday, June 1, 2024\nCONTACT INFORMATION\nEVENT SITE: Grand Hall\n123 Main St\nPhone: (555) 123-4567\nCLIENT ONSITE CONTACT: John Smith, Manager\nOffice: (555) 987-6543\nSCHEDULE OF EVENTS\nAA 1234 Reservation Code: ABCDEF Seat 12A\n- - -\nEVENT DETAILS\nSetup at noon.").bookingNumber = some "123456" ∧
    (parseLaiEventBrief "Booking # 123456\n- - -\nJane Doe\nAcme Corp\nAnnual Gala\nFriday, June 1, 2024\nCONTACT INFORMATION\nEVENT SITE: Grand Hall\n123 Main St\nPhone: (555) 123-4567\nCLIENT ONSITE CONTACT: John Smith, Manager\nOffice: (555) 987-6543\nSCHEDULE OF EVENTS\nAA 1234 Reservation Code: ABCDEF Seat 12A\n- - -\nEVENT DETAILS\nSetup at noon.").header.talentName = some "Jane Doe" ∧
    ((parseLaiEventBrief "Booking # 123456\n- - -\nJane Doe\nAcme Corp\nAnnual Gala\nFriday, June 1, 2024\nCONTACT INFORMATION\nEVENT SITE: Grand Hall\n123 Main St\nPhone: (555) 123-4567\nCLIENT ONSITE CONTACT: John Smith, Manager\nOffice: (555) 987-6543\nSCHEDULE OF EVENTS\nAA 1234 Reservation Code: ABCDEF Seat 12A\n- - -\nEVENT DETAILS\nSetup at noon.").sites.map (fun s => (s.type, s.phone))) =
      [("event", some "(555) 123-4567")] ∧
    ((parseLaiEventBrief "Booking # 123456\n- - -\nJane Doe\nAcme Corp\nAnnual Gala\nFriday, June 1, 2024\nCONTACT INFORMATION\nEVENT SITE: Grand Hall\n123 Main St\nPhone: (555) 123-4567\nCLIENT ONSITE CONTACT: John Smith, Manager\nOffice: (555) 987-6543\nSCHEDULE OF EVENTS\nAA 1234 Reservation Code: ABCDEF Seat 12A\n- - -\nEVENT DETAILS\nSetup at noon.").contacts.map (fun c => (c.group, c.name, c.office))) =
      [("client_onsite", some "John Smith", some "(555) 987-6543")] ∧
    ((parseLaiEventBrief "Booking # 123456\n- - -\nJane Doe\nAcme Corp\nAnnual Gala\nFriday, June 1, 2024\nCONTACT INFORMATION\nEVENT SITE: Grand Hall\n123 Main St\nPhone: (555) 123-4567\nCLIENT ONSITE CONTACT: John Smith, Manager\nOffice: (555) 987-6543\nSCHEDULE OF EVENTS\nAA 1234 Reservation Code: ABCDEF Seat 12A\n- - -\nEVENT DETAILS\nSetup at noon.").schedule.map (fun sc => sc.flights.map (fun f =>
      (f.airline, f.flightNumber, f.reservationCode, f.seat)))) =
      some [("AA", "1234", some "ABCDEF", some "12A")] ∧
    (parseLaiEventBrief "Booking # 123456\n- - -\nJane Doe\nAcme Corp\nAnnual Gala\nFriday, June 1, 2024\nCONTACT INFORMATION\nEVENT SITE: Grand Hall\n123 Main St\nPhone: (555) 123-4567\nCLIENT ONSITE CONTACT: John Smith, Manager\nOffice: (555) 987-6543\nSCHEDULE OF EVENTS\nAA 1234 Reservation Code: ABCDEF Seat 12A\n- - -\nEVENT DETAILS\nSetup at noon.").confidence.hasBookingNumber = true := by
  refine ⟨?_, ?_, ?_, ?_, ?_, ?_⟩ <;> decide

/-! ## C2: the confidence score -/

theorem truthy_eq_isSome {o : Option String} (h : o ≠ some "") : truthyS o = o.isSome := by
  cases o with
  | none => rfl
  | some s =>
    have hs : s ≠ "" := fun he => h (by rw [he])
    simp [truthyS, hs]

theorem findFirst_some {α} {tryAt : Option Char → List Char → Option (Nat × α)}
    {t : List Char} {r} (h : findFirst tryAt t = some r) :
    ∃ p s, s <:+ t ∧ tryAt p s = some (r.2.1, r.2.2) :=
  findFirstAux_some h

theorem tryBookingAt_cap {p : Option Char} {s : List Char} {n : Nat} {cap : List Char}
    (h : tryBookingAt p s = some (n, cap)) :
    cap ≠ [] ∧ ∀ c ∈ cap, c.isDigit = true := by
  unfold tryBookingAt at h
  dsimp only at h
  split at h
  · exact absurd h (by simp)
  · split at h
    · split at h
      · rename_i hlen
        rw [Option.some.injEq, Prod.mk.injEq] at h
        obtain ⟨hn, hcap⟩ := h
        subst hcap
        constructor
        · intro hnil
          have hl := congrArg List.length hnil
          rw [List.length_take] at hl
          simp only [List.length_nil] at hl
          omega
        · intro c hc
          exact List.mem_takeWhile_imp (List.take_subset _ _ hc)
      · exact absurd h (by simp)
    · exact absurd h (by simp)

theorem bookingNumberL_ne_empty (t : List Char) : bookingNumberL t ≠ some "" := by
  unfold bookingNumberL capToS
  cases hf : findFirst tryBookingAt t with
  | none => simp
  | some r =>
    simp only [Option.map_some']
    intro h
    have h2 : (trimL r.2.2).asString = "" := by injection h
    have h3 : trimL r.2.2 = [] := asString_eq_empty_iff.mp h2
    obtain ⟨p, s, hs, ht⟩ := findFirst_some hf
    obtain ⟨hne, hdig⟩ := tryBookingAt_cap ht
    obtain ⟨c, hc⟩ := List.exists_mem_of_ne_nil _ hne
    exact trimL_ne_nil_of_mem hc (isDigit_not_ws (hdig c hc)) h3

theorem linesOf_opt_ne_empty (b : List Char) {o : Option (List Char)}
    (ho : ∀ x, o = some x → x ∈ linesOf b) : o.map (fun l => l.asString) ≠ some "" := by
  intro h
  rw [Option.map_eq_some'] at h
  obtain ⟨x, hx, hxs⟩ := h
  exact mem_linesOf_ne_nil (ho x hx) (asString_eq_empty_iff.mp hxs)

theorem parseHeaderBlock_ne_empty (ob : Option (List Char)) :
    (parseHeaderBlock ob).talentName ≠ some "" ∧
    (parseHeaderBlock ob).clientName ≠ some "" ∧
    (parseHeaderBlock ob).eventTitle ≠ some "" ∧
    (parseHeaderBlock ob).eventDateText ≠ some "" := by
  cases ob with
  | none => simp [parseHeaderBlock]
  | some b =>
    unfold parseHeaderBlock
    by_cases hb : b.isEmpty
    · simp [hb]
    · simp only [hb, Bool.false_eq_true, if_false]
      refine ⟨?_, ?_, ?_, ?_⟩
      · exact linesOf_opt_ne_empty b (fun x hx => List.get?_mem hx)
      · exact linesOf_opt_ne_empty b (fun x hx => List.get?_mem hx)
      · exact linesOf_opt_ne_empty b (fun x hx => List.get?_mem hx)
      · refine linesOf_opt_ne_empty b (fun x hx => ?_)
        rw [Option.bind_eq_some] at hx
        obtain ⟨i, _, hi⟩ := hx
        exact List.get?_mem hi

theorem computeConfidence_spec (x : ConfFacts) (h1 : x.bookingNumber ≠ some "")
    (h2 : x.talentName ≠ some "") (h3 : x.clientName ≠ some "")
    (h4 : x.eventTitle ≠ some "") (h5 : x.eventDateText ≠ some "") :
    (computeConfidence x).overall =
      (((if x.bookingNumber.isSome then 1 else 0) + (if x.talentName.isSome then 1 else 0) +
        (if x.clientName.isSome then 1 else 0) + (if x.eventTitle.isSome then 1 else 0) +
        (if x.eventDateText.isSome then 1 else 0) + (if x.sites.isEmpty then 0 else 1) +
        (if x.contacts.isEmpty then 0 else 1)) * 200 + 7) / 14 ∧
    (computeConfidence x).hasBookingNumber = x.bookingNumber.isSome ∧
    (computeConfidence x).hasHeader = (x.talentName.isSome || x.clientName.isSome ||
      x.eventTitle.isSome || x.eventDateText.isSome) ∧
    (computeConfidence x).hasSites = !x.sites.isEmpty ∧
    (computeConfidence x).hasContacts = !x.contacts.isEmpty := by
  refine ⟨?_, ?_, ?_, ?_, ?_⟩ <;>
    simp only [computeConfidence, truthy_eq_isSome h1, truthy_eq_isSome h2,
      truthy_eq_isSome h3, truthy_eq_isSome h4, truthy_eq_isSome h5]

set_option maxRecDepth 40000 in
/-- C2: for every input, the confidence score is the number of present facts
among booking number, talent, client, title and date, plus one point each
for a non-empty site list and a non-empty contact list, over the fixed
denominator 7 as a rounded percentage (`(n * 200 + 7) / 14` is exactly
`Math.round((n / 7) * 100)` for the reachable totals `0..7`), with the four
flags true iff a contributing fact is present; and the scenario-2 input
"Booking # 999999" yields booking number "999999", absent header fields,
empty sites and contacts, an absent schedule, and overall confidence 14. -/
theorem c2_confidence_scoring :
    (∀ s : String,
      (parseLaiEventBrief s).confidence.overall =
        (presentCount (parseLaiEventBrief s) * 200 + 7) / 14 ∧
      (parseLaiEventBrief s).confidence.hasBookingNumber =
        (parseLaiEventBrief s).bookingNumber.isSome ∧
      (parseLaiEventBrief s).confidence.hasHeader =
        ((parseLaiEventBrief s).header.talentName.isSome ||
         (parseLaiEventBrief s).header.clientName.isSome ||
         (parseLaiEventBrief s).header.eventTitle.isSome ||
         (parseLaiEventBrief s).header.eventDateText.isSome) ∧
      (parseLaiEventBrief s).confidence.hasSites = !(parseLaiEventBrief s).sites.isEmpty ∧
      (parseLaiEventBrief s).confidence.hasContacts =
        !(parseLaiEventBrief s).contacts.isEmpty) ∧
    ((parseLaiEventBrief "Booking # 999999").bookingNumber = some "999999" ∧
     (parseLaiEventBrief "Booking # 999999").header =
       { talentName := none, clientName := none, eventTitle := none,
         eventDateText := none, raw := none } ∧
     (parseLaiEventBrief "Booking # 999999").sites = [] ∧
     (parseLaiEventBrief "Booking # 999999").contacts = [] ∧
     (parseLaiEventBrief "Booking # 999999").schedule = none ∧
     (parseLaiEventBrief "Booking # 999999").confidence.overall = 14) := by
  constructor
  · intro s
    have hb := bookingNumberL_ne_empty (normalizeL s.toList)
    have hh := parseHeaderBlock_ne_empty (headerBlockCap (normalizeL s.toList))
    have hspec := computeConfidence_spec
      { bookingNumber := bookingNumberL (normalizeL s.toList),
        talentName := (parseHeaderBlock (headerBlockCap (normalizeL s.toList))).talentName,
        clientName := (parseHeaderBlock (headerBlockCap (normalizeL s.toList))).clientName,
        eventTitle := (parseHeaderBlock (headerBlockCap (normalizeL s.toList))).eventTitle,
        eventDateText := (parseHeaderBlock (headerBlockCap (normalizeL s.toList))).eventDateText,
        sites := parseSitesFromContactInfo (contactBlockOf (normalizeL s.toList)),
        contacts := parseContactsFromContactInfo (contactBlockOf (normalizeL s.toList)) }
      hb hh.1 hh.2.1 hh.2.2.1 hh.2.2.2
    exact hspec
  · refine ⟨?_, ?_, ?_, ?_, ?_, ?_⟩ <;> decide

/-! ## C7: monotonicity of the confidence score -/

theorem score_mono (a b : Bool) (h : a = true → b = true) :
    (if a then (1 : Nat) else 0) ≤ (if b then 1 else 0) := by
  cases a with
  | false => cases b <;> simp
  | true => rw [h rfl]

theorem score_mono_inv (a b : Bool) (h : a = false → b = false) :
    (if a then (0 : Nat) else 1) ≤ (if b then 0 else 1) := by
  cases a with
  | true => cases b <;> simp
  | false => rw [h rfl]

set_option maxRecDepth 40000 in
/-- C7: the confidence score is monotone in the recovered facts: whenever
one fact record dominates another pointwise (every fact present in the
first is present in the second), the rounded score does not decrease; in
particular adding a previously-absent booking number to an otherwise
fact-free input raises the score from 0 to 14. -/
theorem c7_confidence_monotone :
    (∀ x y : ConfFacts,
      (truthyS x.bookingNumber = true → truthyS y.bookingNumber = true) →
      (truthyS x.talentName = true → truthyS y.talentName = true) →
      (truthyS x.clientName = true → truthyS y.clientName = true) →
      (truthyS x.eventTitle = true → truthyS y.eventTitle = true) →
      (truthyS x.eventDateText = true → truthyS y.eventDateText = true) →
      (x.sites.isEmpty = false → y.sites.isEmpty = false) →
      (x.contacts.isEmpty = false → y.contacts.isEmpty = false) →
      (computeConfidence x).overall ≤ (computeConfidence y).overall) ∧
    ((parseLaiEventBrief "hello world").confidence.overall = 0 ∧
     (parseLaiEventBrief "hello world\nBooking # 999999").confidence.overall = 14) := by
  constructor
  · intro x y h1 h2 h3 h4 h5 h6 h7
    have hx : (computeConfidence x).overall =
        (((if truthyS x.bookingNumber then 1 else 0) + (if truthyS x.talentName then 1 else 0) +
          (if truthyS x.clientName then 1 else 0) + (if truthyS x.eventTitle then 1 else 0) +
          (if truthyS x.eventDateText then 1 else 0) + (if x.sites.isEmpty then 0 else 1) +
          (if x.contacts.isEmpty then 0 else 1)) * 200 + 7) / 14 := rfl
    have hy : (computeConfidence y).overall =
        (((if truthyS y.bookingNumber then 1 else 0) + (if truthyS y.talentName then 1 else 0) +
          (if truthyS y.clientName then 1 else 0) + (if truthyS y.eventTitle then 1 else 0) +
          (if truthyS y.eventDateText then 1 else 0) + (if y.sites.isEmpty then 0 else 1) +
          (if y.contacts.isEmpty then 0 else 1)) * 200 + 7) / 14 := rfl
    rw [hx, hy]
    apply Nat.div_le_div_right
    have m1 := score_mono _ _ h1
    have m2 := score_mono _ _ h2
    have m3 := score_mono _ _ h3
    have m4 := score_mono _ _ h4
    have m5 := score_mono _ _ h5
    have m6 := score_mono_inv _ _ h6
    have m7 := score_mono_inv _ _ h7
    omega
  · constructor <;> decide

/-- Witness for C7 at a concrete pair of fact records. -/
theorem c7_confidence_monotone_witness :
    (computeConfidence ⟨none, none, none, none, none, [], []⟩).overall ≤
    (computeConfidence ⟨some "123456", none, none, none, none, [], []⟩).overall :=
  c7_confidence_monotone.1 _ _ (by decide) (by decide) (by decide) (by decide) (by decide)
    (by decide) (by decide)

/-! ## C3: contact deduplication -/

theorem dedupeGo_cons (seen : List String) (c : Contact) (cs : List Contact) :
    dedupeGo seen (c :: cs) =
      if seen.contains (contactKey c) then dedupeGo seen cs
      else c :: dedupeGo (contactKey c :: seen) cs := rfl

theorem dedupeGo_filter (k : String) :
    ∀ (l : List Contact) (seen : List String),
      (dedupeGo seen l).filter (fun c => contactKey c == k) =
        if seen.contains k then [] else (l.filter (fun c => contactKey c == k)).take 1
  | [], seen => by
    simp [dedupeGo]
  | c :: cs, seen => by
    cases hck : seen.contains (contactKey c) with
    | true =>
      rw [dedupeGo_cons, if_pos hck, dedupeGo_filter k cs seen, List.filter_cons]
      cases hsk : seen.contains k with
      | true => simp
      | false =>
        have hne : (contactKey c == k) = false := by
          cases hq : contactKey c == k with
          | false => rfl
          | true =>
            have he : contactKey c = k := by simpa using hq
            rw [he, hsk] at hck
            exact absurd hck (by simp)
        simp [hne]
    | false =>
      have hckn : ¬ seen.contains (contactKey c) = true := by rw [hck]; simp
      rw [dedupeGo_cons, if_neg hckn, List.filter_cons,
        dedupeGo_filter k cs (contactKey c :: seen)]
      cases hq : contactKey c == k with
      | true =>
        have hkeq : contactKey c = k := by simpa using hq
        have hsk : seen.contains k = false := by rw [← hkeq]; exact hck
        have hkin : (contactKey c :: seen).contains k = true := by
          simp [List.contains_cons, hkeq]
        have hknotin : k ∉ seen := by simpa using hsk
        rw [hkin]
        simp [hq, hknotin, List.filter_cons]
      | false =>
        have hne2 : ¬ (k = contactKey c) := by
          intro he
          have hbe : (contactKey c == k) = true := by simp [he]
          rw [hbe] at hq
          exact absurd hq (by simp)
        have hkc : (k == contactKey c) = false := by
          simpa using hne2
        have hc2 : (contactKey c :: seen).contains k = seen.contains k := by
          simp only [List.contains_cons, hkc, Bool.false_or]
        rw [hc2]
        simp [hq]

set_option maxRecDepth 40000 in
/-- C3 counterexample: on a document in which the identical contact block
"John Smith, Manager / Office: (555) 987-6543" appears under the two labels
CLIENT ONSITE CONTACT and LEADING AUTHORITIES ONSITE CONTACT (different
contact groups), the final contacts list contains two Contacts for it, not
exactly one, because the dedup key includes the group. -/
theorem c3_dedup_counterexample :
    ((parseLaiEventBrief "CONTACT INFORMATION\nCLIENT ONSITE CONTACT: John Smith, Manager\nOffice: (555) 987-6543\nLEADING AUTHORITIES ONSITE CONTACT: John Smith, Manager\nOffice: (555) 987-6543").contacts.map
      (fun c => (c.group, c.name, c.title, c.office, c.cell, c.email))) =
      [("client_onsite", some "John Smith", some "Manager", some "(555) 987-6543", none, none),
       ("lai_onsite", some "John Smith", some "Manager", some "(555) 987-6543", none, none)] ∧
    ¬(((parseLaiEventBrief "CONTACT INFORMATION\nCLIENT ONSITE CONTACT: John Smith, Manager\nOffice: (555) 987-6543\nLEADING AUTHORITIES ONSITE CONTACT: John Smith, Manager\nOffice: (555) 987-6543").contacts.filter
      (fun c => c.name == some "John Smith")).length = 1) := by
  exact ⟨by rfl, by decide⟩

set_option maxRecDepth 40000 in
/-- C3 amended: deduplication keeps, for every composite key
(group, name, email, normalized cell, normalized office), exactly the first
contact with that key; hence two identical contact blocks under two
different labels of the same group collapse to exactly one Contact (shown
for CLIENT ONSITE CONTACT / CLIENT ONSITE CONTACTS), while identical blocks
under labels of different groups remain distinct. -/
theorem c3_dedup_amended :
    (∀ (l : List Contact) (k : String),
      (dedupeContacts l).filter (fun c => contactKey c == k) =
        (l.filter (fun c => contactKey c == k)).take 1) ∧
    ((parseLaiEventBrief "CONTACT INFORMATION\nCLIENT ONSITE CONTACT: John Smith, Manager\nOffice: (555) 987-6543\nCLIENT ONSITE CONTACTS: John Smith, Manager\nOffice: (555) 987-6543").contacts.filter
      (fun c => c.name == some "John Smith")).length = 1 := by
  constructor
  · intro l k
    unfold dedupeContacts
    rw [dedupeGo_filter k l []]
    simp
  · decide

/-! ## C6: idempotence of the normalizer -/

theorem okPair_of_snd {a b : Char} (h1 : b ≠ ' ') (h2 : b ≠ '\n') : okPair a b :=
  ⟨fun hp => h1 hp.2, fun hp => h2 hp.2, fun hp => h1 hp.2⟩

theorem okPair_of_fst {a b : Char} (h1 : a ≠ ' ') (h2 : a ≠ '\n') : okPair a b :=
  ⟨fun hp => h1 hp.1, fun hp => h1 hp.1, fun hp => h2 hp.1⟩

theorem okPair_nl {y : Char} (h : y ≠ ' ') : okPair '\n' y :=
  ⟨fun hp => absurd hp.1 (by decide), fun hp => absurd hp.1 (by decide), fun hp => h hp.2⟩

theorem okPair_noDS {a b : Char} (h : okPair a b) : noDS a b := h.1

theorem collapse_mem {c : Char} : ∀ (l : List Char) (b : Bool),
    c ∈ collapseWSAux b l → (c ∈ l ∧ isHT c = false) ∨ c = ' '
  | [], b => by simp [collapseWSAux]
  | d :: cs, b => by
    intro h
    by_cases hd : isHT d = true
    · cases b with
      | true =>
        rw [show collapseWSAux true (d :: cs) = collapseWSAux true cs from by
          simp [collapseWSAux, hd]] at h
        rcases collapse_mem cs true h with ⟨h1, h2⟩ | h2
        · exact Or.inl ⟨List.mem_cons_of_mem _ h1, h2⟩
        · exact Or.inr h2
      | false =>
        rw [show collapseWSAux false (d :: cs) = ' ' :: collapseWSAux true cs from by
          simp [collapseWSAux, hd]] at h
        rcases List.mem_cons.mp h with h1 | h1
        · exact Or.inr h1
        · rcases collapse_mem cs true h1 with ⟨h2, h3⟩ | h3
          · exact Or.inl ⟨List.mem_cons_of_mem _ h2, h3⟩
          · exact Or.inr h3
    · have hd' : isHT d = false := by simpa using hd
      rw [show collapseWSAux b (d :: cs) = d :: collapseWSAux false cs from by
        simp [collapseWSAux, hd']] at h
      rcases List.mem_cons.mp h with h1 | h1
      · subst h1; exact Or.inl ⟨List.mem_cons_self _ _, hd'⟩
      · rcases collapse_mem cs false h1 with ⟨h2, h3⟩ | h3
        · exact Or.inl ⟨List.mem_cons_of_mem _ h2, h3⟩
        · exact Or.inr h3

theorem collapse_good : ∀ (l : List Char),
    List.Chain' noDS (collapseWSAux false l) ∧
    (collapseWSAux true l).head? ≠ some ' ' ∧
    List.Chain' noDS (collapseWSAux true l)
  | [] => by simp [collapseWSAux]
  | d :: cs => by
    obtain ⟨ih1, ih2, ih3⟩ := collapse_good cs
    by_cases hd : isHT d = true
    · have e1 : collapseWSAux false (d :: cs) = ' ' :: collapseWSAux true cs := by
        simp [collapseWSAux, hd]
      have e2 : collapseWSAux true (d :: cs) = collapseWSAux true cs := by
        simp [collapseWSAux, hd]
      refine ⟨?_, ?_, ?_⟩
      · rw [e1, List.chain'_cons']
        refine ⟨?_, ih3⟩
        intro y hy hpair
        exact ih2 (hpair.2 ▸ hy)
      · rw [e2]; exact ih2
      · rw [e2]; exact ih3
    · have hd' : isHT d = false := by simpa using hd
      have hds : d ≠ ' ' := by
        intro he; rw [he] at hd'; simp [isHT] at hd'
      have e1 : ∀ b, collapseWSAux b (d :: cs) = d :: collapseWSAux false cs := by
        intro b; simp [collapseWSAux, hd']
      refine ⟨?_, ?_, ?_⟩
      · rw [e1, List.chain'_cons']
        exact ⟨fun y _ hp => hds hp.1, ih1⟩
      · rw [e1]
        intro hcon
        exact hds (by injection hcon)
      · rw [e1, List.chain'_cons']
        exact ⟨fun y _ hp => hds hp.1, ih1⟩

theorem fixNL_nil : fixNL [] = [] := rfl

theorem fixNL_nl_sp (cs : List Char) : fixNL ('\n' :: ' ' :: cs) = '\n' :: fixNL cs := rfl

theorem fixNL_nl_nil : fixNL ['\n'] = ['\n'] := rfl

theorem fixNL_nl_cons {c : Char} (cs : List Char) (h : c ≠ ' ') :
    fixNL ('\n' :: c :: cs) = '\n' :: fixNL (c :: cs) := by
  conv_lhs => unfold fixNL
  split <;> try simp_all
  rename_i hne hall heq
  exact absurd heq.1.symm hne

theorem fixNL_sp_nl_sp (cs : List Char) :
    fixNL (' ' :: '\n' :: ' ' :: cs) = '\n' :: fixNL cs := rfl

theorem fixNL_sp_nl_nil : fixNL [' ', '\n'] = ['\n'] := rfl

theorem fixNL_sp_nl_cons {c : Char} (cs : List Char) (h : c ≠ ' ') :
    fixNL (' ' :: '\n' :: c :: cs) = '\n' :: fixNL (c :: cs) := by
  conv_lhs => unfold fixNL
  split <;> try simp_all
  rename_i hne hall heq
  exact hall (c :: cs) heq.1.symm heq.2.symm

theorem fixNL_other {c : Char} (cs : List Char) (hc : c ≠ '\n')
    (hsp : c = ' ' → cs.head? ≠ some '\n') :
    fixNL (c :: cs) = c :: fixNL cs := by
  conv_lhs => unfold fixNL
  split <;> simp_all

theorem fixHead_other {c : Char} {cs : List Char} (h : c = ' ' → cs.head? ≠ some '\n') :
    fixHead (c :: cs) = some c := by
  conv_lhs => unfold fixHead
  split <;> simp_all

theorem fixHead_ne_sp {l : List Char} (h : l.head? ≠ some ' ') :
    ∀ y, fixHead l = some y → y ≠ ' ' := by
  intro y hy
  cases l with
  | nil => simp [fixHead] at hy
  | cons e cs =>
    have he : e ≠ ' ' := by
      intro hee; exact h (by rw [hee]; rfl)
    rw [fixHead_other (fun hee => absurd hee he), Option.some.injEq] at hy
    intro hys
    exact he (hy.trans hys)

theorem fixHead_spec : ∀ l : List Char, (fixNL l).head? = fixHead l
  | [] => rfl
  | [c] => by
    by_cases hc : c = '\n'
    · subst hc; rfl
    · rw [fixNL_other [] hc (by simp), fixHead_other (by simp)]
      rfl
  | c :: d :: cs => by
    by_cases hc : c = '\n'
    · subst hc
      by_cases hd : d = ' '
      · subst hd; rw [fixNL_nl_sp]; rfl
      · rw [fixNL_nl_cons cs hd]; rfl
    · by_cases hc2 : c = ' '
      · subst hc2
        by_cases hdn : d = '\n'
        · subst hdn
          cases cs with
          | nil => rw [fixNL_sp_nl_nil]; rfl
          | cons e cs2 =>
            by_cases he : e = ' '
            · subst he; rw [fixNL_sp_nl_sp]; rfl
            · rw [fixNL_sp_nl_cons cs2 he]; rfl
        · rw [fixNL_other (d :: cs) hc (fun _ => by simp [hdn]),
            fixHead_other (fun _ => by simp [hdn])]
          rfl
      · rw [fixNL_other (d :: cs) hc (fun he => absurd he hc2),
          fixHead_other (fun he => absurd he hc2)]
        rfl

theorem chainNoDS_head {d : Char} {cs : List Char} (h : List.Chain' noDS (d :: cs))
    (hd : d = ' ') : cs.head? ≠ some ' ' := by
  intro hh
  subst hd
  exact (List.chain'_cons'.mp h).1 ' ' (Option.mem_def.mpr hh) ⟨rfl, rfl⟩

theorem fix_good : ∀ l : List Char, List.Chain' noDS l → List.Chain' okPair (fixNL l)
  | [] => by simp [fixNL_nil]
  | [c] => by
    intro h
    by_cases hc : c = '\n'
    · subst hc; rw [fixNL_nl_nil]; simp
    · rw [fixNL_other [] hc (by simp), fixNL_nil]; simp
  | c :: d :: cs => by
    intro h
    have hpair : noDS c d := (List.chain'_cons.mp h).1
    have htail : List.Chain' noDS (d :: cs) := (List.chain'_cons.mp h).2
    by_cases hc : c = '\n'
    · subst hc
      by_cases hd : d = ' '
      · subst hd
        rw [fixNL_nl_sp, List.chain'_cons']
        have htail2 : List.Chain' noDS cs := (List.chain'_cons'.mp htail).2
        refine ⟨?_, fix_good cs htail2⟩
        intro y hy
        rw [Option.mem_def, fixHead_spec] at hy
        exact okPair_nl (fixHead_ne_sp (chainNoDS_head htail rfl) y hy)
      · rw [fixNL_nl_cons cs hd, List.chain'_cons']
        refine ⟨?_, fix_good (d :: cs) htail⟩
        intro y hy
        rw [Option.mem_def, fixHead_spec] at hy
        have hne : (d :: cs).head? ≠ some ' ' := by
          intro hh
          rw [List.head?_cons, Option.some.injEq] at hh
          exact hd hh
        exact okPair_nl (fixHead_ne_sp hne y hy)
    · by_cases hc2 : c = ' '
      · subst hc2
        have hd : d ≠ ' ' := fun he => hpair ⟨rfl, he⟩
        by_cases hdn : d = '\n'
        · subst hdn
          have htail2 : List.Chain' noDS cs := (List.chain'_cons'.mp htail).2
          cases cs with
          | nil => rw [fixNL_sp_nl_nil]; simp
          | cons e cs2 =>
            by_cases he : e = ' '
            · subst he
              rw [fixNL_sp_nl_sp, List.chain'_cons']
              have htail3 : List.Chain' noDS cs2 := (List.chain'_cons'.mp htail2).2
              refine ⟨?_, fix_good cs2 htail3⟩
              intro y hy
              rw [Option.mem_def, fixHead_spec] at hy
              exact okPair_nl (fixHead_ne_sp (chainNoDS_head htail2 rfl) y hy)
            · rw [fixNL_sp_nl_cons cs2 he, List.chain'_cons']
              refine ⟨?_, fix_good (e :: cs2) htail2⟩
              intro y hy
              rw [Option.mem_def, fixHead_spec] at hy
              have hne : (e :: cs2).head? ≠ some ' ' := by
                intro hh
                rw [List.head?_cons, Option.some.injEq] at hh
                exact he hh
              exact okPair_nl (fixHead_ne_sp hne y hy)
        · rw [fixNL_other (d :: cs) hc (fun _ => by simp [hdn]), List.chain'_cons']
          refine ⟨?_, fix_good (d :: cs) htail⟩
          intro y hy
          rw [Option.mem_def, fixHead_spec,
            fixHead_other (fun hee => absurd hee hd), Option.some.injEq] at hy
          subst hy
          exact okPair_of_snd hd hdn
      · rw [fixNL_other (d :: cs) hc (fun hee => absurd hee hc2), List.chain'_cons']
        exact ⟨fun y _ => okPair_of_fst hc2 hc, fix_good (d :: cs) htail⟩

theorem no3_nil : no3 [] = true := rfl

theorem no3_cons (c : Char) (cs : List Char) :
    no3 (c :: cs) = ((!(c == '\n' && startsNN cs)) && no3 cs) := rfl

theorem no3_tail {c : Char} {cs : List Char} (h : no3 (c :: cs) = true) : no3 cs = true := by
  rw [no3_cons, Bool.and_eq_true] at h
  exact h.2

theorem startsNN_iff {l : List Char} :
    startsNN l = true ↔ ∃ t, l = '\n' :: '\n' :: t := by
  constructor
  · intro h
    simp [startsNN] at h
    obtain ⟨h1, h2⟩ := h
    cases l with
    | nil => simp at h1
    | cons a l2 =>
      cases l2 with
      | nil => simp at h2
      | cons b l3 =>
        simp at h1 h2
        exact ⟨l3, by rw [h1, h2]⟩
  · rintro ⟨t, rfl⟩
    simp [startsNN]

theorem no3_append_left : ∀ (p s : List Char), no3 (p ++ s) = true → no3 p = true
  | [], _, _ => rfl
  | c :: p, s, h => by
    rw [List.cons_append, no3_cons, Bool.and_eq_true] at h
    rw [no3_cons, Bool.and_eq_true]
    obtain ⟨h1, h2⟩ := h
    refine ⟨?_, no3_append_left p s h2⟩
    by_cases hs : startsNN p = true
    · obtain ⟨t, rfl⟩ := startsNN_iff.mp hs
      have hps : startsNN (('\n' :: '\n' :: t) ++ s) = true :=
        startsNN_iff.mpr ⟨t ++ s, rfl⟩
      rw [hps] at h1
      simp at h1
      simp [h1]
    · simp [Bool.eq_false_iff.mpr hs]

theorem no3_append_right : ∀ (p s : List Char), no3 (p ++ s) = true → no3 s = true
  | [], _, h => h
  | _ :: p, s, h => no3_append_right p s (no3_tail h)

theorem squeeze_nil (k : Nat) : squeezeNLAux k [] = [] := rfl

theorem squeeze_cons (k : Nat) (c : Char) (cs : List Char) :
    squeezeNLAux k (c :: cs) =
      if c = '\n' then
        if 2 ≤ k then squeezeNLAux k cs else '\n' :: squeezeNLAux (k + 1) cs
      else c :: squeezeNLAux 0 cs := rfl

theorem squeeze_mem {c : Char} : ∀ (l : List Char) (k : Nat), c ∈ squeezeNLAux k l → c ∈ l
  | [], _, h => by simp [squeeze_nil] at h
  | d :: cs, k, h => by
    rw [squeeze_cons] at h
    by_cases hd : d = '\n'
    · rw [if_pos hd] at h
      by_cases hk : 2 ≤ k
      · rw [if_pos hk] at h
        exact List.mem_cons_of_mem _ (squeeze_mem cs k h)
      · rw [if_neg hk] at h
        rcases List.mem_cons.mp h with h1 | h1
        · rw [h1, hd]
          exact List.mem_cons_self _ _
        · exact List.mem_cons_of_mem _ (squeeze_mem cs (k + 1) h1)
    · rw [if_neg hd] at h
      rcases List.mem_cons.mp h with h1 | h1
      · rw [h1]
        exact List.mem_cons_self _ _
      · exact List.mem_cons_of_mem _ (squeeze_mem cs 0 h1)

theorem fix_mem {c : Char} : ∀ l, c ∈ fixNL l → c ∈ l := by
  intro l
  induction l using fixNL.induct with
  | case1 =>
    intro h
    simp [fixNL_nil] at h
  | case2 cs ih =>
    intro h
    rw [fixNL_nl_sp] at h
    rcases List.mem_cons.mp h with h1 | h1
    · simp [h1]
    · simp [ih h1]
  | case3 cs hne ih =>
    intro h
    have e2 : fixNL ('\n' :: cs) = '\n' :: fixNL cs := by
      cases cs with
      | nil => rw [fixNL_nl_nil, fixNL_nil]
      | cons d cs2 =>
        have hd : d ≠ ' ' := fun hee => hne cs2 (by rw [hee])
        exact fixNL_nl_cons cs2 hd
    rw [e2] at h
    rcases List.mem_cons.mp h with h1 | h1
    · simp [h1]
    · simp [ih h1]
  | case4 cs ih =>
    intro h
    rw [fixNL_sp_nl_sp] at h
    rcases List.mem_cons.mp h with h1 | h1
    · simp [h1]
    · simp [ih h1]
  | case5 cs hne ih =>
    intro h
    have e2 : fixNL (' ' :: '\n' :: cs) = '\n' :: fixNL cs := by
      cases cs with
      | nil => rw [fixNL_sp_nl_nil, fixNL_nil]
      | cons d cs2 =>
        have hd : d ≠ ' ' := fun hee => hne cs2 (by rw [hee])
        exact fixNL_sp_nl_cons cs2 hd
    rw [e2] at h
    rcases List.mem_cons.mp h with h1 | h1
    · simp [h1]
    · simp [ih h1]
  | case6 d cs h1 h2 h3 h4 ih =>
    intro h
    have hsp : d = ' ' → cs.head? ≠ some '\n' := by
      intro hds hh
      cases cs with
      | nil => simp at hh
      | cons e2 cs2 =>
        rw [List.head?_cons, Option.some.injEq] at hh
        exact h4 cs2 hds (by rw [hh])
    rw [fixNL_other cs h2 hsp] at h
    rcases List.mem_cons.mp h with hh | hh
    · simp [hh]
    · simp [ih hh]

theorem squeeze_head_lt2 : ∀ (l : List Char) (k : Nat), k < 2 → ∀ y,
    (squeezeNLAux k l).head? = some y → l.head? = some y
  | [], _, _, y, h => by simp [squeeze_nil] at h
  | c :: cs, k, hk, y, h => by
    rw [squeeze_cons] at h
    by_cases hc : c = '\n'
    · rw [if_pos hc, if_neg (by omega)] at h
      rw [List.head?_cons] at h ⊢
      rw [hc]
      exact h
    · rw [if_neg hc] at h
      rw [List.head?_cons] at h ⊢
      exact h

theorem squeeze2_head_ne : ∀ l : List Char, (squeezeNLAux 2 l).head? ≠ some '\n'
  | [] => by simp [squeeze_nil]
  | c :: cs => by
    rw [squeeze_cons]
    by_cases hc : c = '\n'
    · rw [if_pos hc, if_pos (le_refl 2)]
      exact squeeze2_head_ne cs
    · rw [if_neg hc, List.head?_cons]
      intro h
      exact hc (by injection h)

theorem squeeze_startsNN : ∀ (l : List Char) (k : Nat), 1 ≤ k →
    startsNN (squeezeNLAux k l) = false
  | [], _, _ => rfl
  | c :: cs, k, hk => by
    rw [squeeze_cons]
    by_cases hc : c = '\n'
    · rw [if_pos hc]
      by_cases h2 : 2 ≤ k
      · rw [if_pos h2]
        exact squeeze_startsNN cs k hk
      · rw [if_neg h2]
        have hk2 : k + 1 = 2 := by omega
        rw [hk2]
        simp only [startsNN, List.head?_cons, List.tail_cons, beq_self_eq_true, Bool.true_and]
        exact beq_eq_false_iff_ne.mpr (squeeze2_head_ne cs)
    · rw [if_neg hc]
      simp only [startsNN, List.head?_cons, List.tail_cons]
      rw [show (some c == some '\n') = false from beq_eq_false_iff_ne.mpr (by simpa using hc)]
      simp

theorem squeeze_no3 : ∀ (l : List Char) (k : Nat), no3 (squeezeNLAux k l) = true
  | [], _ => rfl
  | c :: cs, k => by
    rw [squeeze_cons]
    by_cases hc : c = '\n'
    · rw [if_pos hc]
      by_cases h2 : 2 ≤ k
      · rw [if_pos h2]
        exact squeeze_no3 cs k
      · rw [if_neg h2]
        rw [no3_cons, Bool.and_eq_true]
        constructor
        · rw [squeeze_startsNN cs (k + 1) (by omega)]
          simp
        · exact squeeze_no3 cs (k + 1)
    · rw [if_neg hc]
      rw [no3_cons, Bool.and_eq_true]
      constructor
      · rw [show (c == '\n') = false from beq_eq_false_iff_ne.mpr hc]
        simp
      · exact squeeze_no3 cs 0

theorem squeeze2_pair : ∀ (l : List Char), List.Chain' okPair ('\n' :: l) →
    ∀ y, (squeezeNLAux 2 l).head? = some y → okPair '\n' y
  | [], _, y, hy => by simp [squeeze_nil] at hy
  | c :: cs, h, y, hy => by
    by_cases hc : c = '\n'
    · subst hc
      rw [squeeze_cons, if_pos rfl, if_pos (le_refl 2)] at hy
      exact squeeze2_pair cs (List.chain'_cons.mp h).2 y hy
    · rw [squeeze_cons, if_neg hc, List.head?_cons, Option.some.injEq] at hy
      subst hy
      exact (List.chain'_cons.mp h).1

theorem squeeze_chain : ∀ (l : List Char) (k : Nat), List.Chain' okPair l →
    List.Chain' okPair (squeezeNLAux k l)
  | [], _, _ => by simp [squeeze_nil]
  | c :: cs, k, h => by
    have htail : List.Chain' okPair cs := (List.chain'_cons'.mp h).2
    have hpair := (List.chain'_cons'.mp h).1
    rw [squeeze_cons]
    by_cases hc : c = '\n'
    · rw [if_pos hc]
      by_cases hk : 2 ≤ k
      · rw [if_pos hk]
        exact squeeze_chain cs k htail
      · rw [if_neg hk]
        rw [List.chain'_cons']
        refine ⟨?_, squeeze_chain cs (k + 1) htail⟩
        intro y hy
        rw [Option.mem_def] at hy
        subst hc
        by_cases hk1 : k + 1 < 2
        · exact hpair y (Option.mem_def.mpr (squeeze_head_lt2 cs (k + 1) hk1 y hy))
        · have hk2 : k + 1 = 2 := by omega
          rw [hk2] at hy
          exact squeeze2_pair cs h y hy
    · rw [if_neg hc]
      rw [List.chain'_cons']
      refine ⟨?_, squeeze_chain cs 0 htail⟩
      intro y hy
      rw [Option.mem_def] at hy
      exact hpair y (Option.mem_def.mpr (squeeze_head_lt2 cs 0 (by omega) y hy))

theorem squeeze_id : ∀ l : List Char, no3 l = true →
    (squeezeNLAux 0 l = l ∧
      (startsNN l = false → squeezeNLAux 1 l = l) ∧
      (l.head? ≠ some '\n' → squeezeNLAux 2 l = l))
  | [] => fun _ => ⟨rfl, fun _ => rfl, fun _ => rfl⟩
  | c :: cs => by
    intro h
    obtain ⟨ih0, ih1, ih2⟩ := squeeze_id cs (no3_tail h)
    by_cases hc : c = '\n'
    · subst hc
      have hsnn : startsNN cs = false := by
        rw [no3_cons, Bool.and_eq_true] at h
        have h1 := h.1
        simpa using h1
      refine ⟨?_, ?_, ?_⟩
      · have e01 : (0 : Nat) + 1 = 1 := rfl
        rw [squeeze_cons, if_pos rfl, if_neg (by omega), e01, ih1 hsnn]
      · intro hs
        have hcs : cs.head? ≠ some '\n' := by
          have hb : (cs.head? == some '\n') = false := by
            simpa [startsNN] using hs
          exact beq_eq_false_iff_ne.mp hb
        have e12 : (1 : Nat) + 1 = 2 := rfl
        rw [squeeze_cons, if_pos rfl, if_neg (by omega), e12, ih2 hcs]
      · intro hh
        exact absurd rfl hh
    · refine ⟨?_, fun _ => ?_, fun _ => ?_⟩ <;>
      · rw [squeeze_cons, if_neg hc, ih0]

theorem collapse_id : ∀ l : List Char, (∀ c ∈ l, isHT c = true → c = ' ') →
    List.Chain' noDS l →
    (collapseWSAux false l = l ∧ (l.head? ≠ some ' ' → collapseWSAux true l = l))
  | [] => fun _ _ => ⟨rfl, fun _ => rfl⟩
  | c :: cs => by
    intro hht hch
    have hht2 : ∀ d ∈ cs, isHT d = true → d = ' ' :=
      fun d hd => hht d (List.mem_cons_of_mem _ hd)
    have htail : List.Chain' noDS cs := (List.chain'_cons'.mp hch).2
    obtain ⟨ih0, ih1⟩ := collapse_id cs hht2 htail
    by_cases hc : isHT c = true
    · have hcs : c = ' ' := hht c (List.mem_cons_self _ _) hc
      subst hcs
      have hhead : cs.head? ≠ some ' ' := by
        intro hh
        exact (List.chain'_cons'.mp hch).1 ' ' (Option.mem_def.mpr hh) ⟨rfl, rfl⟩
      constructor
      · rw [show collapseWSAux false (' ' :: cs) = ' ' :: collapseWSAux true cs from by
          simp [collapseWSAux, hc]]
        rw [ih1 hhead]
      · intro hh
        exact absurd rfl hh
    · have hcf : isHT c = false := by simpa using hc
      have e : ∀ b, collapseWSAux b (c :: cs) = c :: collapseWSAux false cs := fun b => by
        simp [collapseWSAux, hcf]
      exact ⟨by rw [e, ih0], fun _ => by rw [e, ih0]⟩

theorem fix_id : ∀ l : List Char, List.Chain' okPair l → fixNL l = l
  | [] => fun _ => rfl
  | [c] => by
    intro h
    by_cases hc : c = '\n'
    · subst hc
      exact fixNL_nl_nil
    · rw [fixNL_other [] hc (by simp), fixNL_nil]
  | c :: d :: cs => by
    intro h
    have hpair : okPair c d := (List.chain'_cons.mp h).1
    have htail : List.Chain' okPair (d :: cs) := (List.chain'_cons.mp h).2
    by_cases hc : c = '\n'
    · subst hc
      have hd : d ≠ ' ' := fun he => hpair.2.2 ⟨rfl, he⟩
      rw [fixNL_nl_cons cs hd, fix_id (d :: cs) htail]
    · by_cases hc2 : c = ' '
      · subst hc2
        have hd : d ≠ '\n' := fun he => hpair.2.1 ⟨rfl, he⟩
        rw [fixNL_other (d :: cs) hc (fun _ => by simp [hd]), fix_id (d :: cs) htail]
      · rw [fixNL_other (d :: cs) hc (fun he => absurd he hc2), fix_id (d :: cs) htail]

theorem dropWhile_head_false {p : Char → Bool} : ∀ {l : List Char} {y : Char},
    (List.dropWhile p l).head? = some y → p y = false
  | [], y, h => by simp [List.dropWhile] at h
  | c :: cs, y, h => by
    rw [List.dropWhile_cons] at h
    by_cases hc : p c = true
    · rw [if_pos hc] at h
      exact dropWhile_head_false h
    · rw [if_neg hc, List.head?_cons, Option.some.injEq] at h
      rw [← h]
      simpa using hc

theorem dropWhile_decomp (p : Char → Bool) : ∀ l : List Char, ∃ t, t ++ List.dropWhile p l = l
  | [] => ⟨[], rfl⟩
  | c :: cs => by
    rw [List.dropWhile_cons]
    by_cases hc : p c = true
    · rw [if_pos hc]
      obtain ⟨t, ht⟩ := dropWhile_decomp p cs
      exact ⟨c :: t, by rw [List.cons_append, ht]⟩
    · rw [if_neg hc]
      exact ⟨[], rfl⟩

theorem trimL_eq_append (l : List Char) :
    ∃ w, trimL l ++ w = List.dropWhile isJsWS l := by
  obtain ⟨w, hw⟩ := dropWhile_decomp isJsWS (List.dropWhile isJsWS l).reverse
  refine ⟨w.reverse, ?_⟩
  have h3 := congrArg List.reverse hw
  rw [List.reverse_append, List.reverse_reverse] at h3
  simpa only [trimL] using h3

theorem trimL_decomp (l : List Char) : ∃ t w, l = t ++ trimL l ++ w := by
  obtain ⟨t, ht⟩ := dropWhile_decomp isJsWS l
  obtain ⟨w, h2⟩ := trimL_eq_append l
  refine ⟨t, w, ?_⟩
  calc l = t ++ List.dropWhile isJsWS l := ht.symm
    _ = t ++ (trimL l ++ w) := by rw [h2]
    _ = t ++ trimL l ++ w := (List.append_assoc _ _ _).symm

theorem trim_head_not_ws {l : List Char} {y : Char} (h : (trimL l).head? = some y) :
    isJsWS y = false := by
  obtain ⟨w, h2⟩ := trimL_eq_append l
  have h4 : (List.dropWhile isJsWS l).head? = some y := by
    rw [← h2, List.head?_append, h]
    rfl
  exact dropWhile_head_false h4

theorem trim_last_not_ws {l : List Char} {y : Char} (h : (trimL l).getLast? = some y) :
    isJsWS y = false := by
  have h1 : (trimL l).getLast? = ((l.dropWhile isJsWS).reverse.dropWhile isJsWS).head? := by
    simp only [trimL, List.getLast?_reverse]
  rw [h1] at h
  exact dropWhile_head_false h

theorem dropWhile_id {p : Char → Bool} : ∀ {l : List Char},
    (∀ y, l.head? = some y → p y = false) → List.dropWhile p l = l
  | [], _ => rfl
  | c :: _, h => by
    rw [List.dropWhile_cons, if_neg (by rw [h c rfl]; simp)]

theorem trim_id {l : List Char}
    (hh : ∀ y, l.head? = some y → isJsWS y = false)
    (hl : ∀ y, l.getLast? = some y → isJsWS y = false) :
    trimL l = l := by
  have e1 : List.dropWhile isJsWS l = l := dropWhile_id hh
  have e2 : List.dropWhile isJsWS l.reverse = l.reverse := by
    apply dropWhile_id
    intro y hy
    rw [List.head?_reverse] at hy
    exact hl y hy
  simp only [trimL, e1, e2, List.reverse_reverse]

theorem normalizeL_inv (l : List Char) :
    (∀ c ∈ normalizeL l, c ≠ '\r' ∧ c ≠ '\t') ∧
    List.Chain' okPair (normalizeL l) ∧
    no3 (normalizeL l) = true ∧
    (∀ y, (normalizeL l).head? = some y → isJsWS y = false) ∧
    (∀ y, (normalizeL l).getLast? = some y → isJsWS y = false) := by
  have hnorm : normalizeL l =
      trimL (squeezeNLAux 0 (fixNL (collapseWSAux false (removeCR l)))) := rfl
  obtain ⟨t, w, hdec⟩ :=
    trimL_decomp (squeezeNLAux 0 (fixNL (collapseWSAux false (removeCR l))))
  have hSchain : List.Chain' okPair
      (squeezeNLAux 0 (fixNL (collapseWSAux false (removeCR l)))) :=
    squeeze_chain _ 0 (fix_good _ (collapse_good (removeCR l)).1)
  have hSno3 : no3 (squeezeNLAux 0 (fixNL (collapseWSAux false (removeCR l)))) = true :=
    squeeze_no3 _ 0
  refine ⟨?_, ?_, ?_, ?_, ?_⟩
  · intro c hc
    rw [hnorm] at hc
    have hcS : c ∈ squeezeNLAux 0 (fixNL (collapseWSAux false (removeCR l))) := by
      rw [hdec]
      exact List.mem_append.mpr (Or.inl (List.mem_append.mpr (Or.inr hc)))
    have hcol : c ∈ collapseWSAux false (removeCR l) := fix_mem _ (squeeze_mem _ 0 hcS)
    rcases collapse_mem _ false hcol with ⟨hmem, hht⟩ | hsp
    · constructor
      · intro he
        subst he
        simp [removeCR, List.mem_filter] at hmem
      · intro he
        subst he
        simp [isHT] at hht
    · subst hsp
      exact ⟨by decide, by decide⟩
  · rw [hnorm]
    rw [hdec] at hSchain
    exact (List.chain'_append.mp ((List.chain'_append.mp hSchain).1)).2.1
  · rw [hnorm]
    rw [hdec] at hSno3
    exact no3_append_right t _ (no3_append_left _ w hSno3)
  · intro y hy
    rw [hnorm] at hy
    exact trim_head_not_ws hy
  · intro y hy
    rw [hnorm] at hy
    exact trim_last_not_ws hy

theorem normalizeL_idem (l : List Char) : normalizeL (normalizeL l) = normalizeL l := by
  obtain ⟨hmem, hchain, hno3, hhead, hlast⟩ := normalizeL_inv l
  have h1 : removeCR (normalizeL l) = normalizeL l := by
    simp only [removeCR]
    rw [List.filter_eq_self]
    intro a ha
    simpa using (hmem a ha).1
  have hnoT : ∀ c ∈ normalizeL l, isHT c = true → c = ' ' := by
    intro c hc hht
    simp [isHT] at hht
    rcases hht with h | h
    · exact h
    · exact absurd h (hmem c hc).2
  have hnoDS : List.Chain' noDS (normalizeL l) :=
    List.Chain'.imp (fun a b h => okPair_noDS h) hchain
  have h2 : collapseWSAux false (normalizeL l) = normalizeL l :=
    (collapse_id (normalizeL l) hnoT hnoDS).1
  have h3 : fixNL (normalizeL l) = normalizeL l := fix_id (normalizeL l) hchain
  have h4 : squeezeNLAux 0 (normalizeL l) = normalizeL l := (squeeze_id (normalizeL l) hno3).1
  have h5 : trimL (normalizeL l) = normalizeL l := trim_id hhead hlast
  show trimL (squeezeNLAux 0 (fixNL (collapseWSAux false (removeCR (normalizeL l))))) =
    normalizeL l
  rw [h1, h2, h3, h4]
  exact h5

/-- C6: the text normalizer is idempotent: applying `normalize` to an already
normalized string returns it unchanged, for every input string. -/
theorem c6_normalize_idempotent : ∀ s : String, normalize (normalize s) = normalize s := by
  intro s
  show (normalizeL (normalizeL s.toList).asString.toList).asString = (normalizeL s.toList).asString
  have h : (normalizeL s.toList).asString.toList = normalizeL s.toList := rfl
  rw [h, normalizeL_idem]

/-! ## Heading-scan lemmas for the segmenter claims -/

theorem occScanAux_nil {α} (tryAt : Option Char → List Char → Option (Nat × α))
    (prev : Option Char) (pos : Nat) : occScanAux tryAt prev pos [] = [] := rfl

theorem occScanAux_none {α} {tryAt : Option Char → List Char → Option (Nat × α)}
    {prev : Option Char} {c : Char} {cs : List Char} (pos : Nat)
    (he : tryAt prev (c :: cs) = none) :
    occScanAux tryAt prev pos (c :: cs) = occScanAux tryAt (some c) (pos + 1) cs := by
  conv_lhs => unfold occScanAux
  rw [he]

theorem occScanAux_some {α} {tryAt : Option Char → List Char → Option (Nat × α)}
    {prev : Option Char} {c : Char} {cs : List Char} {len : Nat} {a : α} (pos : Nat)
    (he : tryAt prev (c :: cs) = some (len, a)) :
    occScanAux tryAt prev pos (c :: cs) =
      (pos, len, a) :: occScanAux tryAt (some c) (pos + 1) cs := by
  conv_lhs => unfold occScanAux
  rw [he]

theorem scanAllAux_succ {α} (tryAt : Option Char → List Char → Option (Nat × α))
    (prev : Option Char) (k pos : Nat) (c : Char) (cs : List Char) :
    scanAllAux tryAt prev (Nat.succ k) pos (c :: cs) =
      scanAllAux tryAt (some c) k (pos + 1) cs := rfl

theorem scanAllAux_zero_none {α} {tryAt : Option Char → List Char → Option (Nat × α)}
    {prev : Option Char} {c : Char} {cs : List Char} (pos : Nat)
    (he : tryAt prev (c :: cs) = none) :
    scanAllAux tryAt prev 0 pos (c :: cs) = scanAllAux tryAt (some c) 0 (pos + 1) cs := by
  conv_lhs => unfold scanAllAux
  rw [he]

theorem scanAllAux_zero_some {α} {tryAt : Option Char → List Char → Option (Nat × α)}
    {prev : Option Char} {c : Char} {cs : List Char} {len : Nat} {a : α} (pos : Nat)
    (he : tryAt prev (c :: cs) = some (len, a)) :
    scanAllAux tryAt prev 0 pos (c :: cs) =
      (pos, len, a) :: scanAllAux tryAt (some c) (len - 1) (pos + 1) cs := by
  conv_lhs => unfold scanAllAux
  rw [he]

theorem scanAllAux_eq_occ {α} (tryAt : Option Char → List Char → Option (Nat × α))
    (H : ∀ (prev : Option Char) (s : List Char) (len : Nat) (a : α),
      tryAt prev s = some (len, a) → ∀ d, 1 ≤ d → d < len →
      ∀ (len2 : Nat) (a2 : α), tryAt (s.get? (d - 1)) (s.drop d) ≠ some (len2, a2)) :
    ∀ (l : List Char) (k : Nat) (prev : Option Char) (pos : Nat),
      (∀ d, d < k → ∀ (len2 : Nat) (a2 : α),
        tryAt (prevStep prev l d) (l.drop d) ≠ some (len2, a2)) →
      scanAllAux tryAt prev k pos l = occScanAux tryAt prev pos l
  | [], k, prev, pos, _ => by cases k <;> rfl
  | c :: cs, Nat.succ k, prev, pos, hw => by
    rw [scanAllAux_succ]
    have h0 := hw 0 (Nat.succ_pos k)
    have he : tryAt prev (c :: cs) = none := by
      cases he2 : tryAt prev (c :: cs) with
      | none => rfl
      | some v =>
        obtain ⟨len2, a2⟩ := v
        exact absurd he2 (by simpa [prevStep] using h0 len2 a2)
    rw [occScanAux_none pos he]
    have hw2 : ∀ d, d < k → ∀ len2 a2,
        tryAt (prevStep (some c) cs d) (cs.drop d) ≠ some (len2, a2) := by
      intro d hd
      have h := hw (d + 1) (by omega)
      cases d with
      | zero => simpa [prevStep] using h
      | succ e => simpa [prevStep] using h
    exact scanAllAux_eq_occ tryAt H cs k (some c) (pos + 1) hw2
  | c :: cs, 0, prev, pos, hw => by
    cases he : tryAt prev (c :: cs) with
    | none =>
      rw [scanAllAux_zero_none pos he, occScanAux_none pos he]
      exact scanAllAux_eq_occ tryAt H cs 0 (some c) (pos + 1)
        (fun d hd => absurd hd (by omega))
    | some v =>
      obtain ⟨len, a⟩ := v
      rw [scanAllAux_zero_some pos he, occScanAux_some pos he]
      congr 1
      have hw2 : ∀ d, d < len - 1 → ∀ len2 a2,
          tryAt (prevStep (some c) cs d) (cs.drop d) ≠ some (len2, a2) := by
        intro d hd len2 a2
        have h := H prev (c :: cs) len a he (d + 1) (by omega) (by omega) len2 a2
        cases d with
        | zero => simpa [prevStep] using h
        | succ e => simpa [prevStep] using h
      exact scanAllAux_eq_occ tryAt H cs (len - 1) (some c) (pos + 1) hw2

theorem occScan_mem {α} (tryAt : Option Char → List Char → Option (Nat × α)) :
    ∀ (l : List Char) (prev : Option Char) (pos : Nat) (i len : Nat) (a : α),
      ((i, len, a) ∈ occScanAux tryAt prev pos l ↔
        ∃ d, d < l.length ∧ i = pos + d ∧
          tryAt (prevStep prev l d) (l.drop d) = some (len, a))
  | [], prev, pos, i, len, a => by simp [occScanAux_nil]
  | c :: cs, prev, pos, i, len, a => by
    cases he : tryAt prev (c :: cs) with
    | none =>
      rw [occScanAux_none pos he, occScan_mem tryAt cs (some c) (pos + 1) i len a]
      constructor
      · rintro ⟨d, hd, hi, hm⟩
        refine ⟨d + 1, by simp only [List.length_cons]; omega, by omega, ?_⟩
        cases d with
        | zero => simpa [prevStep] using hm
        | succ e => simpa [prevStep] using hm
      · rintro ⟨d, hd, hi, hm⟩
        cases d with
        | zero =>
          simp only [prevStep, List.drop_zero, he] at hm
          exact absurd hm (by simp)
        | succ e =>
          refine ⟨e, by simp only [List.length_cons] at hd; omega, by omega, ?_⟩
          cases e with
          | zero => simpa [prevStep] using hm
          | succ f => simpa [prevStep] using hm
    | some v =>
      obtain ⟨len0, a0⟩ := v
      rw [occScanAux_some pos he, List.mem_cons,
        occScan_mem tryAt cs (some c) (pos + 1) i len a]
      constructor
      · rintro (heq | ⟨d, hd, hi, hm⟩)
        · rw [Prod.mk.injEq, Prod.mk.injEq] at heq
          obtain ⟨h1, h2, h3⟩ := heq
          refine ⟨0, by simp, by omega, ?_⟩
          simp only [prevStep, List.drop_zero]
          rw [he, h2, h3]
        · refine ⟨d + 1, by simp only [List.length_cons]; omega, by omega, ?_⟩
          cases d with
          | zero => simpa [prevStep] using hm
          | succ e => simpa [prevStep] using hm
      · rintro ⟨d, hd, hi, hm⟩
        cases d with
        | zero =>
          left
          simp only [prevStep, List.drop_zero] at hm
          rw [he, Option.some.injEq, Prod.mk.injEq] at hm
          rw [Prod.mk.injEq, Prod.mk.injEq]
          exact ⟨by omega, hm.1.symm, hm.2.symm⟩
        | succ e =>
          right
          refine ⟨e, by simp only [List.length_cons] at hd; omega, by omega, ?_⟩
          cases e with
          | zero => simpa [prevStep] using hm
          | succ f => simpa [prevStep] using hm

theorem isWordChar_toNat {c : Char} : isWordChar c = true ↔
    (65 ≤ c.toNat ∧ c.toNat ≤ 90) ∨ (97 ≤ c.toNat ∧ c.toNat ≤ 122) ∨
    (48 ≤ c.toNat ∧ c.toNat ≤ 57) ∨ c.toNat = 95 := by
  have h95 : (c = '_') ↔ c.toNat = 95 := char_eq_iff_toNat
  simp [isWordChar, Char.isAlpha, Char.isUpper, Char.isLower, Char.isDigit, h95]
  tauto

theorem lowAscii_toNat (c : Char) :
    (lowAscii c).toNat = if 65 ≤ c.toNat ∧ c.toNat ≤ 90 then c.toNat + 32 else c.toNat := by
  unfold lowAscii
  by_cases hu : c.isUpper = true
  · obtain ⟨h1, h2⟩ := isUpper_toNat hu
    rw [if_pos hu, if_pos ⟨h1, h2⟩]
    unfold Char.ofNat
    rw [dif_pos]
    · rfl
    · constructor
      omega
  · have hr : ¬(65 ≤ c.toNat ∧ c.toNat ≤ 90) := by
      intro hcon
      exact hu (by simp [Char.isUpper]; exact hcon)
    rw [if_neg hu, if_neg hr]

theorem isWordChar_lowAscii (c : Char) : isWordChar (lowAscii c) = isWordChar c := by
  have hl := lowAscii_toNat c
  by_cases hr : 65 ≤ c.toNat ∧ c.toNat ≤ 90
  · rw [if_pos hr] at hl
    have h1 : isWordChar (lowAscii c) = true :=
      isWordChar_toNat.mpr (Or.inr (Or.inl (by omega)))
    have h2 : isWordChar c = true := isWordChar_toNat.mpr (Or.inl hr)
    rw [h1, h2]
  · rw [if_neg hr] at hl
    cases h2 : isWordChar c with
    | true =>
      have hfacts := isWordChar_toNat.mp h2
      exact isWordChar_toNat.mpr (by rw [hl]; exact hfacts)
    | false =>
      cases h1 : isWordChar (lowAscii c) with
      | false => rfl
      | true =>
        exfalso
        have hfacts := isWordChar_toNat.mp h1
        rw [hl] at hfacts
        rw [isWordChar_toNat.mpr hfacts] at h2
        exact Bool.noConfusion h2

theorem icEq_isWordChar {a b : Char} (h : icEq a b = true) : isWordChar a = isWordChar b := by
  have hab : lowAscii a = lowAscii b := by simpa [icEq] using h
  rw [← isWordChar_lowAscii a, ← isWordChar_lowAscii b, hab]

theorem icEq_of_icEq_icEq {a b c : Char} (h1 : icEq a c = true) (h2 : icEq b c = true) :
    icEq a b = true := by
  simp [icEq] at h1 h2 ⊢
  rw [h1]
  exact h2.symm

theorem getD_drop (s : List Char) (d k : Nat) :
    (s.drop d).getD k ' ' = s.getD (d + k) ' ' := by
  rw [List.getD_eq_getElem?_getD, List.getD_eq_getElem?_getD, List.getElem?_drop]

theorem icPrefixRest_some : ∀ (p s r : List Char), icPrefixRest p s = some r →
    p.length ≤ s.length ∧ r = s.drop p.length ∧
    ∀ k, k < p.length → icEq (p.getD k ' ') (s.getD k ' ') = true
  | [], s, r, h => by
    simp [icPrefixRest] at h
    refine ⟨Nat.zero_le _, by simp [h], ?_⟩
    intro k hk
    exact absurd hk (by simp)
  | _ :: _, [], r, h => by simp [icPrefixRest] at h
  | p :: ps, c :: cs, r, h => by
    by_cases hic : icEq p c = true
    · rw [show icPrefixRest (p :: ps) (c :: cs) =
          if icEq p c then icPrefixRest ps cs else none from rfl, if_pos hic] at h
      obtain ⟨h1, h2, h3⟩ := icPrefixRest_some ps cs r h
      refine ⟨by simp only [List.length_cons]; omega, by simpa using h2, ?_⟩
      intro k hk
      cases k with
      | zero => simpa using hic
      | succ e =>
        rw [List.getD_cons_succ, List.getD_cons_succ]
        exact h3 e (by simp only [List.length_cons] at hk; omega)
    · rw [show icPrefixRest (p :: ps) (c :: cs) =
          if icEq p c then icPrefixRest ps cs else none from rfl, if_neg hic] at h
      exact absurd h (by simp)

theorem tryHeadingAt_some {p : List Char} {prev : Option Char} {s : List Char}
    {len : Nat} {a : Unit} (hm : tryHeadingAt p prev s = some (len, a)) :
    len = p.length ∧ boundaryOk prev = true ∧ ∃ rest, icPrefixRest p s = some rest := by
  unfold tryHeadingAt at hm
  split at hm
  · rename_i hb
    split at hm
    · rename_i rest hr
      split at hm
      · rw [Option.some.injEq, Prod.mk.injEq] at hm
        exact ⟨hm.1.symm, hb, rest, hr⟩
      · exact absurd hm (by simp)
    · exact absurd hm (by simp)
  · exact absurd hm (by simp)

theorem icBorderFree_spec {p : List Char} (hb : icBorderFree p = true) :
    ∀ d, 1 ≤ d → d < p.length →
      isWordChar (p.getD (d - 1) ' ') = false →
      ¬(∀ k, k < p.length - d → icEq (p.getD (d + k) ' ') (p.getD k ' ') = true) := by
  intro d h1 h2 hword hic
  have hall := List.all_eq_true.mp hb d (List.mem_range.mpr h2)
  simp only at hall
  rw [if_pos h1, hword] at hall
  have hX : (List.range (p.length - d)).all
      (fun k => icEq (p.getD (d + k) ' ') (p.getD k ' ')) = true :=
    List.all_eq_true.mpr (fun k hk => hic k (List.mem_range.mp hk))
  rw [hX] at hall
  simp at hall

theorem tryHeading_no_overlap {p : List Char} (hb : icBorderFree p = true) :
    ∀ (prev : Option Char) (s : List Char) (len : Nat) (a : Unit),
      tryHeadingAt p prev s = some (len, a) → ∀ d, 1 ≤ d → d < len →
      ∀ (len2 : Nat) (a2 : Unit),
        tryHeadingAt p (s.get? (d - 1)) (s.drop d) ≠ some (len2, a2) := by
  intro prev s len a hm d h1 hd len2 a2 hm2
  obtain ⟨hlen, hb1, r1, hr1⟩ := tryHeadingAt_some hm
  obtain ⟨hlen2, hb2, r2, hr2⟩ := tryHeadingAt_some hm2
  subst hlen
  obtain ⟨hle1, _, hic1⟩ := icPrefixRest_some p s r1 hr1
  obtain ⟨hle2, _, hic2⟩ := icPrefixRest_some p (s.drop d) r2 hr2
  have hd1 : d - 1 < p.length := by omega
  have hd1s : d - 1 < s.length := by omega
  have hget : s.get? (d - 1) = some (s.getD (d - 1) ' ') := by
    rw [List.get?_eq_getElem?, List.getElem?_eq_getElem hd1s, List.getD_eq_getElem s ' ' hd1s]
  have hw2 : isWordChar (s.getD (d - 1) ' ') = false := by
    rw [hget] at hb2
    simpa [boundaryOk] using hb2
  have hicd : icEq (p.getD (d - 1) ' ') (s.getD (d - 1) ' ') = true := hic1 (d - 1) hd1
  have hwp : isWordChar (p.getD (d - 1) ' ') = false := by
    rw [icEq_isWordChar hicd]
    exact hw2
  apply icBorderFree_spec hb d h1 hd hwp
  intro k hk
  have h2k : icEq (p.getD k ' ') (s.getD (d + k) ' ') = true := by
    have h := hic2 k (by omega)
    rwa [getD_drop] at h
  have h1k : icEq (p.getD (d + k) ' ') (s.getD (d + k) ' ') = true := hic1 (d + k) (by omega)
  exact icEq_of_icEq_icEq h1k h2k

theorem scanAll_eq_occ_of_borderFree {p : List Char} (hb : icBorderFree p = true)
    (t : List Char) :
    scanAll (tryHeadingAt p) t = occScanAux (tryHeadingAt p) none 0 t :=
  scanAllAux_eq_occ (tryHeadingAt p) (tryHeading_no_overlap hb) t 0 none 0
    (fun _ hd => absurd hd (by omega))

theorem getLast?_take_succ : ∀ (t : List Char) (d : Nat), d < t.length →
    (t.take (d + 1)).getLast? = t.get? d
  | [], d, h => absurd h (by simp)
  | c :: cs, 0, _ => by simp
  | c :: cs, Nat.succ e, h => by
    rw [List.take_succ_cons]
    have hcs : e < cs.length := by
      simp only [List.length_cons] at h
      omega
    have hne : cs.take (e + 1) ≠ [] := by
      apply List.ne_nil_of_length_pos
      rw [List.length_take]
      omega
    cases hct : cs.take (e + 1) with
    | nil => exact absurd hct hne
    | cons x xs =>
      rw [List.getLast?_cons_cons, ← hct, getLast?_take_succ cs e hcs]
      rfl

theorem prevCharAt_eq_prevStep (t : List Char) (d : Nat) (h : d < t.length) :
    prevCharAt t d = prevStep none t d := by
  cases d with
  | zero => rfl
  | succ e =>
    show (t.take (e + 1)).getLast? = t.get? e
    exact getLast?_take_succ t e (by omega)

theorem headingHits_mem (t : List Char) (hs : List String) (x : Hit) :
    x ∈ headingHits t hs ↔ ∃ h ∈ hs, ∃ r ∈ scanAll (tryHeadingAt h.toList) t,
      x = { heading := h, idx := r.1, len := r.2.1 } := by
  unfold headingHits
  rw [List.mem_flatten]
  constructor
  · rintro ⟨l, hl, hx⟩
    rw [List.mem_map] at hl
    obtain ⟨h, hh, rfl⟩ := hl
    rw [List.mem_map] at hx
    obtain ⟨r, hr, rfl⟩ := hx
    exact ⟨h, hh, r, hr, rfl⟩
  · rintro ⟨h, hh, r, hr, rfl⟩
    exact ⟨_, List.mem_map.mpr ⟨h, hh, rfl⟩, List.mem_map.mpr ⟨r, hr, rfl⟩⟩

theorem hits_iff_occurs {t : List Char} {h : String} (hb : icBorderFree h.toList = true)
    {hs : List String} (hmem : h ∈ hs) (i len : Nat) :
    (∃ x ∈ headingHits t hs, x.heading = h ∧ x.idx = i ∧ x.len = len) ↔
      (i < t.length ∧ tryHeadingAt h.toList (prevCharAt t i) (t.drop i) = some (len, ())) := by
  constructor
  · rintro ⟨x, hx, hheading, hidx, hlen⟩
    rw [headingHits_mem] at hx
    obtain ⟨h2, hh2, r, hr, rfl⟩ := hx
    obtain ⟨i0, len0, a0⟩ := r
    have hh2h : h2 = h := hheading
    subst hh2h
    have hidx2 : i0 = i := hidx
    have hlen2 : len0 = len := hlen
    rw [scanAll_eq_occ_of_borderFree hb] at hr
    rw [occScan_mem] at hr
    obtain ⟨d, hdlen, hi, hm⟩ := hr
    cases a0
    refine ⟨by omega, ?_⟩
    have hieq : i = d := by omega
    rw [hieq, prevCharAt_eq_prevStep t d hdlen, ← hlen2]
    exact hm
  · rintro ⟨hi, hm⟩
    refine ⟨{ heading := h, idx := i, len := len }, ?_, rfl, rfl, rfl⟩
    rw [headingHits_mem]
    refine ⟨h, hmem, (i, len, ()), ?_, rfl⟩
    rw [scanAll_eq_occ_of_borderFree hb, occScan_mem]
    refine ⟨i, hi, by omega, ?_⟩
    rw [← prevCharAt_eq_prevStep t i hi]
    exact hm

theorem insertHit_head (x : Hit) : ∀ (l : List Hit), (insertHit x l).head? = some x ∨
    ((insertHit x l).head? = l.head? ∧ ∃ y, l.head? = some y ∧ ¬(x.idx ≤ y.idx))
  | [] => Or.inl rfl
  | y :: ys => by
    by_cases hxy : x.idx ≤ y.idx
    · left
      rw [show insertHit x (y :: ys) = x :: y :: ys from by simp [insertHit, hxy]]
      rfl
    · right
      rw [show insertHit x (y :: ys) = y :: insertHit x ys from by simp [insertHit, hxy]]
      exact ⟨rfl, y, rfl, hxy⟩

theorem insertHit_chain (x : Hit) : ∀ (l : List Hit),
    List.Chain' (fun a b => a.idx ≤ b.idx) l →
    List.Chain' (fun a b => a.idx ≤ b.idx) (insertHit x l)
  | [], _ => by simp [insertHit]
  | y :: ys, h => by
    by_cases hxy : x.idx ≤ y.idx
    · rw [show insertHit x (y :: ys) = x :: y :: ys from by simp [insertHit, hxy]]
      rw [List.chain'_cons]
      exact ⟨hxy, h⟩
    · rw [show insertHit x (y :: ys) = y :: insertHit x ys from by simp [insertHit, hxy]]
      rw [List.chain'_cons']
      refine ⟨?_, insertHit_chain x ys (List.chain'_cons'.mp h).2⟩
      intro z hz
      rw [Option.mem_def] at hz
      rcases insertHit_head x ys with h1 | ⟨h1, w, hw, hxw⟩
      · rw [hz, Option.some.injEq] at h1
        subst h1
        omega
      · rw [h1] at hz
        exact (List.chain'_cons'.mp h).1 z (Option.mem_def.mpr hz)

theorem sortHits_chain : ∀ l, List.Chain' (fun a b => a.idx ≤ b.idx) (sortHits l)
  | [] => by simp [sortHits]
  | x :: xs => insertHit_chain x (sortHits xs) (sortHits_chain xs)

theorem mem_insertHit (x y : Hit) : ∀ l, x ∈ insertHit y l ↔ x = y ∨ x ∈ l
  | [] => by simp [insertHit]
  | z :: zs => by
    by_cases hyz : y.idx ≤ z.idx
    · rw [show insertHit y (z :: zs) = y :: z :: zs from by simp [insertHit, hyz]]
      simp [List.mem_cons]
    · rw [show insertHit y (z :: zs) = z :: insertHit y zs from by simp [insertHit, hyz]]
      rw [List.mem_cons, mem_insertHit x y zs, List.mem_cons]
      tauto

theorem mem_sortHits (x : Hit) : ∀ l, x ∈ sortHits l ↔ x ∈ l
  | [] => Iff.rfl
  | y :: ys => by
    rw [show sortHits (y :: ys) = insertHit y (sortHits ys) from rfl,
      mem_insertHit x y (sortHits ys), mem_sortHits x ys, List.mem_cons]

theorem buildSections_fst (t : List Char) : ∀ L : List Hit,
    (buildSections t L).map Prod.fst = L.map Hit.heading
  | [] => rfl
  | x :: rest => by
    simp only [buildSections]
    rw [List.map_cons, List.map_cons, buildSections_fst t rest]

theorem buildSections_get? (t : List Char) : ∀ (L : List Hit) (j : Nat),
    (buildSections t L).get? j = (L.get? j).map (fun x =>
      (x.heading, trimL ((t.take (hitEnd t L j)).drop (x.idx + x.len))))
  | [], j => by simp [buildSections]
  | x :: rest, 0 => by
    simp only [buildSections, hitEnd]
    rfl
  | x :: rest, Nat.succ j => by
    show (buildSections t rest).get? j = _
    rw [buildSections_get? t rest j]
    rfl

theorem buildSections_snd (t : List Char) : ∀ (L : List Hit) (p : String × List Char),
    p ∈ buildSections t L → ∃ l0, p.2 = trimL l0
  | [], p => by simp [buildSections]
  | x :: rest, p => by
    intro hp
    simp only [buildSections] at hp
    rcases List.mem_cons.mp hp with h1 | h1
    · exact ⟨_, by rw [h1]⟩
    · exact buildSections_snd t rest p h1

theorem sectionSpans_nil_of_no_hit {t : List Char} {hs : List String} {h : String}
    (hno : ∀ x ∈ headingHits t hs, x.heading ≠ h) :
    sectionSpans (splitByHeadingsMulti t hs) h = [] := by
  have hfil : (splitByHeadingsMulti t hs).filter (fun p => p.1 == h) = [] := by
    rw [List.filter_eq_nil_iff]
    intro p hp hbeq
    have hfst : p.1 ∈ (sortHits (headingHits t hs)).map Hit.heading := by
      rw [← buildSections_fst t]
      exact List.mem_map_of_mem Prod.fst hp
    rw [List.mem_map] at hfst
    obtain ⟨x, hx, hxh⟩ := hfst
    have hx2 : x ∈ headingHits t hs := (mem_sortHits x _).mp hx
    rw [beq_iff_eq] at hbeq
    exact hno x hx2 (by rw [hxh]; exact hbeq)
  unfold sectionSpans
  rw [hfil]
  rfl

theorem trimL_trimL (l : List Char) : trimL (trimL l) = trimL l :=
  trim_id (fun _ hy => trim_head_not_ws hy) (fun _ hy => trim_last_not_ws hy)

set_option maxRecDepth 40000 in
/-- C4 counterexample: the chunk the segmenter stores for an occurrence is
not the exact span of text between the end of its match and the start of the
next occurrence; for a text with two EVENT DETAILS headings, the first stored
chunk differs from the exact inter-heading slice because it is trimmed. -/
theorem c4_counterexample :
    (sectionSpans (splitByHeadingsMulti
        ("EVENT DETAILS\nBody one.\nEVENT DETAILS\nBody two.").toList headingsVocab)
      "EVENT DETAILS").head? ≠
      some ((("EVENT DETAILS\nBody one.\nEVENT DETAILS\nBody two.").toList.take 24).drop 13) := by
  decide

set_option maxRecDepth 40000 in
/-- C4 (amended): for every text the heading segmenter records exactly the
case-insensitive word-boundary occurrences of each recognized heading (a hit
with offset i and length len exists iff the heading pattern matches at i),
merges them into one offset-sorted sequence, a heading with no occurrence has
no entry, and for a text in which EVENT DETAILS occurs twice with distinct
bodies the mapping holds both spans in document order after trimming. -/
theorem c4_segmenter_amended :
    (∀ t : List Char,
      List.Chain' (fun a b => a.idx ≤ b.idx) (sortHits (headingHits t headingsVocab))) ∧
    (∀ (t : List Char) (h : String), h ∈ headingsVocab → ∀ (i len : Nat),
      ((∃ x ∈ headingHits t headingsVocab, x.heading = h ∧ x.idx = i ∧ x.len = len) ↔
        (i < t.length ∧
          tryHeadingAt h.toList (prevCharAt t i) (t.drop i) = some (len, ())))) ∧
    (∀ (t : List Char) (h : String), h ∈ headingsVocab →
      (∀ i, i < t.length → tryHeadingAt h.toList (prevCharAt t i) (t.drop i) = none) →
      sectionSpans (splitByHeadingsMulti t headingsVocab) h = []) ∧
    sectionSpans (splitByHeadingsMulti
        ("EVENT DETAILS\nBody one.\nEVENT DETAILS\nBody two.").toList headingsVocab)
      "EVENT DETAILS" = ["Body one.".toList, "Body two.".toList] := by
  have hball : ∀ h ∈ headingsVocab, icBorderFree h.toList = true := by decide
  refine ⟨?_, ?_, ?_, ?_⟩
  · intro t
    exact sortHits_chain _
  · intro t h hh i len
    exact hits_iff_occurs (hball h hh) hh i len
  · intro t h hh hno
    apply sectionSpans_nil_of_no_hit
    intro x hx heq
    have hocc := (hits_iff_occurs (hball h hh) hh x.idx x.len).mp ⟨x, hx, heq, rfl, rfl⟩
    rw [hno x.idx hocc.1] at hocc
    exact Option.noConfusion hocc.2
  · decide

set_option maxRecDepth 40000 in
/-- C4 witness: the occurrence characterization instantiated at a text that
starts with EVENT DETAILS, and the absent-heading law at a text with no
recognized heading. -/
theorem c4_segmenter_amended_witness :
    (∃ x ∈ headingHits ("EVENT DETAILS\nX").toList headingsVocab,
      x.heading = "EVENT DETAILS" ∧ x.idx = 0 ∧ x.len = 13) ∧
    sectionSpans (splitByHeadingsMulti ("no heading here").toList headingsVocab)
      "EVENT DETAILS" = [] :=
  ⟨(c4_segmenter_amended.2.1 ("EVENT DETAILS\nX").toList "EVENT DETAILS"
      (by decide) 0 13).mpr (by decide),
    c4_segmenter_amended.2.2.1 ("no heading here").toList "EVENT DETAILS"
      (by decide) (by decide)⟩

set_option maxRecDepth 40000 in
/-- C5 counterexample: the engine records a single EVENT DETAILS hit ending
at offset 13, yet the stored raw section passthrough is not byte-for-byte the
substring of the normalized text from that offset to the end of text (the
stored chunk is trimmed, dropping the leading newline). -/
theorem c5_counterexample :
    sortHits (headingHits (normalize "EVENT DETAILS\nSetup at noon.").toList
        headingsVocab) =
      [{ heading := "EVENT DETAILS", idx := 0, len := 13 }] ∧
    (parseLaiEventBrief "EVENT DETAILS\nSetup at noon.").sections.eventDetails ≠
      some (((normalize "EVENT DETAILS\nSetup at noon.").toList.drop (0 + 13)).asString) := by
  constructor
  · decide
  · decide

set_option maxRecDepth 40000 in
/-- C5 (amended): every entry of the heading mapping equals the trim of the
exact substring of the text between the end of its heading match and the
start of the next recorded occurrence (or end of text), every stored chunk is
already trim-normalized, and on a concrete brief the stored EVENT DETAILS
passthrough is recovered by re-slicing the normalized text at the recorded
offsets and trimming. -/
theorem c5_roundtrip_amended :
    (∀ (t : List Char) (j : Nat),
      (splitByHeadingsMulti t headingsVocab).get? j =
        ((sortHits (headingHits t headingsVocab)).get? j).map (fun x =>
          (x.heading,
            trimL ((t.take (hitEnd t (sortHits (headingHits t headingsVocab)) j)).drop
              (x.idx + x.len))))) ∧
    (∀ (t : List Char) (h : String) (chunk : List Char),
      chunk ∈ sectionSpans (splitByHeadingsMulti t headingsVocab) h →
      trimL chunk = chunk) ∧
    (parseLaiEventBrief "EVENT DETAILS\nSetup at noon.").sections.eventDetails =
      some ((trimL ((normalize "EVENT DETAILS\nSetup at noon.").toList.drop
        (0 + 13))).asString) := by
  refine ⟨?_, ?_, ?_⟩
  · intro t j
    exact buildSections_get? t (sortHits (headingHits t headingsVocab)) j
  · intro t h chunk hc
    unfold sectionSpans at hc
    rw [List.mem_map] at hc
    obtain ⟨p, hp, rfl⟩ := hc
    have hp2 : p ∈ splitByHeadingsMulti t headingsVocab := List.mem_of_mem_filter hp
    obtain ⟨l0, hl0⟩ := buildSections_snd t (sortHits (headingHits t headingsVocab)) p hp2
    rw [hl0, trimL_trimL]
  · decide

set_option maxRecDepth 40000 in
/-- C5 witness: the trim-normalization law applied to the concrete stored
EVENT DETAILS chunk of a parsed brief. -/
theorem c5_roundtrip_amended_witness :
    trimL "Setup at noon.".toList = "Setup at noon.".toList :=
  c5_roundtrip_amended.2.1 (normalize "EVENT DETAILS\nSetup at noon.").toList
    "EVENT DETAILS" "Setup at noon.".toList (by decide)

/-! ## Booking-number lemmas (C10) -/

theorem take_takeWhile_len (p : Char → Bool) : ∀ l : List Char,
    l.take ((l.takeWhile p).length) = l.takeWhile p
  | [] => rfl
  | c :: cs => by
    by_cases hc : p c = true
    · rw [List.takeWhile_cons, if_pos hc, List.length_cons, List.take_succ_cons,
        take_takeWhile_len p cs]
    · rw [List.takeWhile_cons, if_neg hc]
      rfl

theorem takeWhile_app (p : Char → Bool) : ∀ (u v : List Char),
    (∀ c ∈ u, p c = true) → (∀ c, v.head? = some c → p c = false) →
    (u ++ v).takeWhile p = u
  | [], v, _, hv => by
    cases v with
    | nil => rfl
    | cons c cs =>
      rw [List.nil_append, List.takeWhile_cons, if_neg (by rw [hv c rfl]; simp)]
  | c :: u, v, hu, hv => by
    rw [List.cons_append, List.takeWhile_cons, if_pos (hu c (List.mem_cons_self _ _)),
      takeWhile_app p u v (fun d hd => hu d (List.mem_cons_of_mem _ hd)) hv]

theorem takeWhile_len_ge (p : Char → Bool) : ∀ (l : List Char) (n : Nat),
    (l.take n).length = n → (∀ c ∈ l.take n, p c = true) →
    n ≤ (l.takeWhile p).length
  | _, 0, _, _ => Nat.zero_le _
  | [], Nat.succ n, hlen, _ => by simp at hlen
  | c :: cs, Nat.succ n, hlen, hp => by
    rw [List.takeWhile_cons, if_pos (hp c (by simp))]
    rw [List.take_succ_cons, List.length_cons] at hlen
    have := takeWhile_len_ge p cs n (by omega)
      (fun d hd => hp d (by rw [List.take_succ_cons]; exact List.mem_cons_of_mem _ hd))
    rw [List.length_cons]
    omega

theorem take_eq_takeWhile_take (p : Char → Bool) (l : List Char) (n : Nat)
    (h : n ≤ (l.takeWhile p).length) : l.take n = (l.takeWhile p).take n := by
  rw [← take_takeWhile_len p l, List.take_take]
  congr 1
  omega

theorem icPrefixRest_of_pointwise : ∀ (p s : List Char), p.length ≤ s.length →
    (∀ k, k < p.length → icEq (p.getD k ' ') (s.getD k ' ') = true) →
    icPrefixRest p s = some (s.drop p.length)
  | [], s, _, _ => by simp [icPrefixRest]
  | a :: ps, [], hle, _ => by simp at hle
  | a :: ps, c :: cs, hle, hic => by
    have h0 : icEq a c = true := by simpa using hic 0 (by simp)
    rw [show icPrefixRest (a :: ps) (c :: cs) =
        if icEq a c then icPrefixRest ps cs else none from rfl, if_pos h0]
    rw [icPrefixRest_of_pointwise ps cs (by simpa using hle) ?_]
    · rfl
    · intro k hk
      have := hic (k + 1) (by simpa using hk)
      simpa using this

theorem take1_cons {l : List Char} {c : Char} (h : l.take 1 = [c]) :
    l = c :: l.drop 1 := by
  cases l with
  | nil => simp at h
  | cons d ds =>
    simp at h
    simp [h]

theorem drop_add (l : List Char) (a b : Nat) : (l.drop a).drop b = l.drop (a + b) :=
  List.drop_drop b a l

theorem trimL_all_digits {l : List Char} (h : ∀ c ∈ l, c.isDigit = true) : trimL l = l :=
  trim_id
    (fun y hy => isDigit_not_ws (h y (List.mem_of_mem_head? (Option.mem_def.mpr hy))))
    (fun y hy => isDigit_not_ws (h y (List.mem_of_mem_getLast? (Option.mem_def.mpr hy))))

theorem icPrefix_map_low {p s r : List Char} (h : icPrefixRest p s = some r) :
    (s.take p.length).map lowAscii = p.map lowAscii := by
  obtain ⟨hle, _, hic⟩ := icPrefixRest_some p s r h
  apply List.ext_getElem
  · simp [List.length_take]
    omega
  · intro n h1 h2
    rw [List.getElem_map, List.getElem_map, List.getElem_take]
    have hn : n < p.length := by simpa using h2
    have hns : n < s.length := by omega
    have hthis := hic n hn
    simp only [icEq] at hthis
    rw [beq_iff_eq, List.getD_eq_getElem p ' ' hn, List.getD_eq_getElem s ' ' hns] at hthis
    exact hthis.symm

theorem tryBookingAt_decomp {prev : Option Char} {s : List Char} {len : Nat}
    {cap : List Char} (h : tryBookingAt prev s = some (len, cap)) :
    icPrefixRest "booking".toList s = some (s.drop 7) ∧
    5 ≤ (bkDigits s).length ∧ cap = (bkDigits s).take 12 ∧
    (s.drop 7).drop (((s.drop 7).takeWhile isJsWS).length) =
      '#' :: s.drop (8 + ((s.drop 7).takeWhile isJsWS).length) := by
  unfold tryBookingAt at h
  dsimp only at h
  split at h
  · exact absurd h (by simp)
  · rename_i r1 heq
    have hr1 : r1 = s.drop 7 :=
      (icPrefixRest_some _ _ _ heq).2.1
    subst hr1
    split at h
    · rename_i r3 heq2
      have hr3 : r3 = s.drop (8 + ((s.drop 7).takeWhile isJsWS).length) := by
        have h3 := congrArg (List.drop 1) heq2
        rw [drop_add, drop_add] at h3
        simp only [List.drop_succ_cons, List.drop_zero] at h3
        rw [← h3]
        congr 1
        omega
      split at h
      · rename_i h5
        rw [Option.some.injEq, Prod.mk.injEq] at h
        obtain ⟨hlen, hcap⟩ := h
        have hds : (r3.drop ((r3.takeWhile isJsWS).length)).takeWhile Char.isDigit =
            bkDigits s := by
          rw [hr3, drop_add]
          rfl
        refine ⟨heq, ?_, ?_, ?_⟩
        · rw [← hds]
          exact h5
        · rw [← hcap, ← hds]
        · rw [heq2, hr3]
      · exact absurd h (by simp)
    · exact absurd h (by simp)

theorem decl_of_tryBookingAt {prev : Option Char} {s : List Char} {len : Nat}
    {cap : List Char} (h : tryBookingAt prev s = some (len, cap)) : bookingDecl s := by
  obtain ⟨hpr, h5, _, hhash⟩ := tryBookingAt_decomp h
  refine ⟨((s.drop 7).takeWhile isJsWS).length,
    ((s.drop (8 + ((s.drop 7).takeWhile isJsWS).length)).takeWhile isJsWS).length,
    ?_, ?_, ?_, ?_, ?_, ?_⟩
  · have hml := icPrefix_map_low hpr
    rw [show ("booking".toList).length = 7 from rfl] at hml
    rw [hml]
    decide
  · intro c hc
    rw [take_takeWhile_len] at hc
    exact List.mem_takeWhile_imp hc
  · have h2 : s.drop (7 + ((s.drop 7).takeWhile isJsWS).length) =
        '#' :: s.drop (8 + ((s.drop 7).takeWhile isJsWS).length) := by
      rw [← drop_add]
      exact hhash
    rw [h2]
    rfl
  · intro c hc
    rw [take_takeWhile_len] at hc
    exact List.mem_takeWhile_imp hc
  · have hlen : ((s.drop (8 + ((s.drop 7).takeWhile isJsWS).length +
        ((s.drop (8 + ((s.drop 7).takeWhile isJsWS).length)).takeWhile
          isJsWS).length)).takeWhile Char.isDigit).length ≤
        (s.drop (8 + ((s.drop 7).takeWhile isJsWS).length +
        ((s.drop (8 + ((s.drop 7).takeWhile isJsWS).length)).takeWhile
          isJsWS).length)).length := by
      have h0 := congrArg List.length (take_takeWhile_len Char.isDigit
        (s.drop (8 + ((s.drop 7).takeWhile isJsWS).length +
          ((s.drop (8 + ((s.drop 7).takeWhile isJsWS).length)).takeWhile
            isJsWS).length)))
      rw [List.length_take] at h0
      omega
    rw [List.length_take]
    have h5b := h5
    unfold bkDigits at h5b
    omega
  · intro c hc
    rw [take_eq_takeWhile_take Char.isDigit _ 5 h5] at hc
    exact List.mem_takeWhile_imp (List.take_subset _ _ hc)

theorem head_mem_take {l : List Char} {c : Char} {n : Nat} (hl : l.head? = some c)
    (hn : 0 < n) : c ∈ l.take n := by
  cases l with
  | nil => simp at hl
  | cons d ds =>
    rw [List.head?_cons, Option.some.injEq] at hl
    cases n with
    | zero => omega
    | succ m =>
      rw [List.take_succ_cons]
      subst hl
      exact List.mem_cons_self _ _

theorem tryBookingAt_of_decl {prev : Option Char} {s : List Char}
    (hd : bookingDecl s) : (tryBookingAt prev s).isSome = true := by
  obtain ⟨w1, w2, hbk, hw1, hhash, hw2, hlen5, hdig5⟩ := hd
  have hlen7 : 7 ≤ s.length := by
    have hl := congrArg List.length hbk
    simp [List.length_take] at hl
    omega
  have hic : ∀ k, k < ("booking".toList).length →
      icEq ("booking".toList.getD k ' ') (s.getD k ' ') = true := by
    intro k hk
    have hk7 : k < 7 := by simpa using hk
    have hks : k < s.length := by omega
    have hkm : k < ((s.take 7).map lowAscii).length := by
      simp [List.length_take]
      omega
    have hbkk := congrArg (fun l => l.getD k ' ') hbk
    simp only at hbkk
    rw [List.getD_eq_getElem _ _ hkm, List.getElem_map, List.getElem_take] at hbkk
    have hfix : ∀ j, j < 7 → lowAscii ("booking".toList.getD j ' ') =
        "booking".toList.getD j ' ' := by decide
    simp only [icEq]
    rw [beq_iff_eq, hfix k hk7, List.getD_eq_getElem s ' ' hks, hbkk]
  have hpr : icPrefixRest "booking".toList s = some (s.drop 7) := by
    have hh := icPrefixRest_of_pointwise "booking".toList s (by simpa using hlen7) hic
    rw [show ("booking".toList).length = 7 from rfl] at hh
    exact hh
  have hne1 : s.drop (7 + w1) = '#' :: s.drop (8 + w1) := by
    have h1 := take1_cons hhash
    rw [drop_add] at h1
    rw [show 7 + w1 + 1 = 8 + w1 from by omega] at h1
    exact h1
  have hlenhash : 8 + w1 ≤ s.length := by
    have := congrArg List.length hne1
    simp [List.length_drop] at this
    omega
  have hw1max : (s.drop 7).takeWhile isJsWS = (s.drop 7).take w1 := by
    calc (s.drop 7).takeWhile isJsWS
        = ((s.drop 7).take w1 ++ (s.drop 7).drop w1).takeWhile isJsWS := by
          rw [List.take_append_drop]
      _ = (s.drop 7).take w1 := by
          apply takeWhile_app _ _ _ hw1
          intro c hc
          rw [drop_add, hne1, List.head?_cons, Option.some.injEq] at hc
          rw [← hc]
          decide
  have hw1len : ((s.drop 7).takeWhile isJsWS).length = w1 := by
    rw [hw1max, List.length_take, List.length_drop]
    omega
  have hlen5s : 5 ≤ s.length - (8 + w1 + w2) := by
    rw [List.length_take, List.length_drop] at hlen5
    omega
  have hhead2 : ∀ c, ((s.drop (8 + w1)).drop w2).head? = some c → isJsWS c = false := by
    intro c hc
    rw [drop_add] at hc
    exact isDigit_not_ws (hdig5 c (head_mem_take hc (by omega)))
  have hw2max : (s.drop (8 + w1)).takeWhile isJsWS = (s.drop (8 + w1)).take w2 := by
    calc (s.drop (8 + w1)).takeWhile isJsWS
        = ((s.drop (8 + w1)).take w2 ++ (s.drop (8 + w1)).drop w2).takeWhile isJsWS := by
          rw [List.take_append_drop]
      _ = (s.drop (8 + w1)).take w2 := takeWhile_app _ _ _ hw2 hhead2
  have hw2len : ((s.drop (8 + w1)).takeWhile isJsWS).length = w2 := by
    rw [hw2max, List.length_take, List.length_drop]
    omega
  have hds : 5 ≤ ((s.drop (8 + w1 + w2)).takeWhile Char.isDigit).length :=
    takeWhile_len_ge _ _ 5 hlen5 hdig5
  cases hres : tryBookingAt prev s with
  | some v => rfl
  | none =>
    exfalso
    unfold tryBookingAt at hres
    dsimp only at hres
    split at hres
    · rename_i heq
      rw [hpr] at heq
      exact Option.noConfusion heq
    · rename_i r1 heq
      have hr1 : r1 = s.drop 7 := by
        rw [hpr, Option.some.injEq] at heq
        exact heq.symm
      subst hr1
      split at hres
      · rename_i r3 heq2
        have hr3 : r3 = s.drop (8 + w1) := by
          have h3 := heq2
          rw [hw1len, drop_add, hne1] at h3
          exact (List.cons.injEq _ _ _ _ ▸ h3).2.symm
        split at hres
        · exact Option.noConfusion hres
        · rename_i h5
          apply h5
          rw [hr3, hw2len, drop_add]
          exact hds
      · rename_i hall
        exact hall (s.drop (8 + w1)) (by rw [hw1len, drop_add]; exact hne1)

theorem tryBooking_iff_decl (prev : Option Char) (s : List Char) :
    (tryBookingAt prev s).isSome = true ↔ bookingDecl s := by
  constructor
  · intro h
    rw [Option.isSome_iff_exists] at h
    obtain ⟨v, hv⟩ := h
    obtain ⟨len, cap⟩ := v
    exact decl_of_tryBookingAt hv
  · exact tryBookingAt_of_decl

theorem findFirstAux_isSome_iff : ∀ (l : List Char) (prev : Option Char) (pos : Nat),
    ((findFirstAux tryBookingAt prev pos l).isSome = true ↔
      ∃ d, (tryBookingAt none (l.drop d)).isSome = true)
  | [], prev, pos => by
    constructor
    · intro h
      simp [findFirstAux] at h
    · rintro ⟨d, hd⟩
      rw [List.drop_nil] at hd
      rw [show tryBookingAt none ([] : List Char) = none from rfl] at hd
      simp at hd
  | c :: cs, prev, pos => by
    cases he : tryBookingAt prev (c :: cs) with
    | some v =>
      constructor
      · intro _
        refine ⟨0, ?_⟩
        rw [List.drop_zero, show tryBookingAt none (c :: cs) = some v from he]
        rfl
      · intro _
        conv_lhs => unfold findFirstAux
        rw [he]
        rfl
    | none =>
      conv_lhs => unfold findFirstAux
      rw [he]
      rw [findFirstAux_isSome_iff cs (some c) (pos + 1)]
      constructor
      · rintro ⟨d, hd⟩
        exact ⟨d + 1, by simpa using hd⟩
      · rintro ⟨d, hd⟩
        cases d with
        | zero =>
          rw [List.drop_zero, show tryBookingAt none (c :: cs) = none from he] at hd
          simp at hd
        | succ e => exact ⟨e, by simpa using hd⟩

theorem findFirstAux_first_val : ∀ (l : List Char) (prev : Option Char)
    (pos d len : Nat) (cap : List Char),
    (∀ j, j < d → tryBookingAt none (l.drop j) = none) →
    tryBookingAt none (l.drop d) = some (len, cap) →
    findFirstAux tryBookingAt prev pos l = some (pos + d, len, cap)
  | [], prev, pos, d, len, cap, _, hm => by
    rw [List.drop_nil, show tryBookingAt none ([] : List Char) = none from rfl] at hm
    exact absurd hm (by simp)
  | c :: cs, prev, pos, 0, len, cap, _, hm => by
    rw [List.drop_zero] at hm
    conv_lhs => unfold findFirstAux
    rw [show tryBookingAt prev (c :: cs) = some (len, cap) from hm]
    rfl
  | c :: cs, prev, pos, Nat.succ d, len, cap, hj, hm => by
    have h0 : tryBookingAt prev (c :: cs) = none := by
      have := hj 0 (Nat.succ_pos d)
      rw [List.drop_zero] at this
      exact this
    conv_lhs => unfold findFirstAux
    rw [h0]
    have hrec := findFirstAux_first_val cs (some c) (pos + 1) d len cap
      (fun j hjd => by simpa using hj (j + 1) (by omega))
      (by simpa using hm)
    rw [hrec, show pos + 1 + d = pos + (d + 1) from by omega]

set_option maxRecDepth 40000 in
/-- C10: the returned bookingNumber is present iff the normalized text
contains, at some offset, the word Booking case-insensitively, optional
whitespace, a hash, optional whitespace and at least five consecutive
digits; when present it is the first at most twelve digits of the run at the
first such offset; the engine reads the normalized text; and a booking
number of only four digits yields an absent bookingNumber while a
thirteen-digit run is capped at twelve. -/
theorem c10_booking_digits :
    (∀ t : List Char, ((bookingNumberL t).isSome = true ↔ ∃ i, bookingDecl (t.drop i))) ∧
    (∀ (t : List Char) (i : Nat), bookingDecl (t.drop i) →
      (∀ j, j < i → ¬ bookingDecl (t.drop j)) →
      bookingNumberL t = some (((bkDigits (t.drop i)).take 12).asString)) ∧
    (∀ raw : String, (parseLaiEventBrief raw).bookingNumber =
      bookingNumberL (normalize raw).toList) ∧
    (parseLaiEventBrief "Booking # 1234").bookingNumber = none ∧
    (parseLaiEventBrief "Booking # 1234567890123").bookingNumber =
      some "123456789012" := by
  refine ⟨?_, ?_, ?_, ?_, ?_⟩
  · intro t
    have h1 : (capToS (findFirst tryBookingAt t)).isSome =
        (findFirst tryBookingAt t).isSome := by
      cases findFirst tryBookingAt t <;> rfl
    show (capToS (findFirst tryBookingAt t)).isSome = true ↔ _
    rw [h1]
    unfold findFirst
    rw [findFirstAux_isSome_iff t none 0]
    constructor
    · rintro ⟨d, hd⟩
      exact ⟨d, (tryBooking_iff_decl none (t.drop d)).mp hd⟩
    · rintro ⟨i, hi⟩
      exact ⟨i, tryBookingAt_of_decl hi⟩
  · intro t i hdecl hmin
    have hsome : (tryBookingAt none (t.drop i)).isSome = true := tryBookingAt_of_decl hdecl
    rw [Option.isSome_iff_exists] at hsome
    obtain ⟨v, hv⟩ := hsome
    obtain ⟨len, cap⟩ := v
    have hnone : ∀ j, j < i → tryBookingAt none (t.drop j) = none := by
      intro j hj
      cases hjv : tryBookingAt none (t.drop j) with
      | none => rfl
      | some w =>
        exfalso
        apply hmin j hj
        apply (tryBooking_iff_decl none (t.drop j)).mp
        rw [hjv]
        rfl
    have hff := findFirstAux_first_val t none 0 i len cap hnone hv
    show capToS (findFirst tryBookingAt t) = _
    unfold findFirst
    rw [hff]
    unfold capToS
    simp only [Option.map_some']
    obtain ⟨_, _, hcap, _⟩ := tryBookingAt_decomp hv
    have hdig : ∀ c ∈ (bkDigits (t.drop i)).take 12, c.isDigit = true := by
      intro c hc
      have hc2 : c ∈ bkDigits (t.drop i) := List.take_subset _ _ hc
      unfold bkDigits at hc2
      exact List.mem_takeWhile_imp hc2
    rw [hcap, trimL_all_digits hdig]
  · intro raw
    rfl
  · decide
  · decide

set_option maxRecDepth 40000 in
/-- C10 witness: the first-occurrence value law applied to a concrete text
whose booking pattern starts at offset zero with a six-digit run. -/
theorem c10_booking_digits_witness :
    bookingNumberL ("Booking # 123456").toList = some "123456" := by
  have h := c10_booking_digits.2.1 ("Booking # 123456").toList 0
    ⟨1, 1, by decide, by decide, by decide, by decide, by decide, by decide⟩
    (fun j hj => absurd hj (by omega))
  rw [h]
  decide

/-! ## Lemmas for the no-heading degradation claim (C8) -/

theorem tryHeadingAt_none {p : List Char} {prev : Option Char} {s : List Char}
    (h : icPrefixRest p s = none) : tryHeadingAt p prev s = none := by
  unfold tryHeadingAt
  rw [h]
  split <;> rfl

theorem scanAllAux_nil_of_none {α} (tryAt : Option Char → List Char → Option (Nat × α)) :
    ∀ (l : List Char) (prev : Option Char) (k pos : Nat),
      (∀ d, d < l.length → ∀ (len : Nat) (a : α),
        tryAt (prevStep prev l d) (l.drop d) ≠ some (len, a)) →
      scanAllAux tryAt prev k pos l = []
  | [], _, k, _, _ => by cases k <;> rfl
  | c :: cs, prev, Nat.succ k, pos, hw => by
    rw [scanAllAux_succ]
    refine scanAllAux_nil_of_none tryAt cs (some c) k (pos + 1) ?_
    intro d hd
    have h := hw (d + 1) (by simp only [List.length_cons]; omega)
    cases d with
    | zero => simpa [prevStep] using h
    | succ e => simpa [prevStep] using h
  | c :: cs, prev, 0, pos, hw => by
    have he : tryAt prev (c :: cs) = none := by
      cases he2 : tryAt prev (c :: cs) with
      | none => rfl
      | some v =>
        obtain ⟨len, a⟩ := v
        have h0 := hw 0 (by simp)
        exact absurd he2 (by simpa [prevStep] using h0 len a)
    rw [scanAllAux_zero_none pos he]
    refine scanAllAux_nil_of_none tryAt cs (some c) 0 (pos + 1) ?_
    intro d hd
    have h := hw (d + 1) (by simp only [List.length_cons]; omega)
    cases d with
    | zero => simpa [prevStep] using h
    | succ e => simpa [prevStep] using h

theorem headingHits_nil {t : List Char} {hs : List String}
    (H : ∀ h ∈ hs, ∀ i, i < t.length → icPrefixRest h.toList (t.drop i) = none) :
    headingHits t hs = [] := by
  unfold headingHits
  rw [List.flatten_eq_nil_iff]
  intro l hl
  rw [List.mem_map] at hl
  obtain ⟨h, hh, rfl⟩ := hl
  have hscan : scanAll (tryHeadingAt h.toList) t = [] := by
    refine scanAllAux_nil_of_none _ t none 0 0 ?_
    intro d hd len a
    rw [tryHeadingAt_none (H h hh d hd)]
    simp
  rw [hscan]
  rfl

theorem suffix_exists_drop {s t : List Char} (h : s <:+ t) : ∃ n, t.drop n = s := by
  obtain ⟨p, hp⟩ := h
  exact ⟨p.length, by rw [← hp, List.drop_left]⟩

theorem icPrefixRest_cons_some {a : Char} {ps u x : List Char}
    (h : icPrefixRest (a :: ps) u = some x) :
    ∃ c u2, u = c :: u2 ∧ icPrefixRest ps u2 = some x := by
  cases u with
  | nil => simp [icPrefixRest] at h
  | cons c u2 =>
    by_cases hic : icEq a c = true
    · rw [show icPrefixRest (a :: ps) (c :: u2) =
          if icEq a c then icPrefixRest ps u2 else none from rfl, if_pos hic] at h
      exact ⟨c, u2, rfl, h⟩
    · rw [show icPrefixRest (a :: ps) (c :: u2) =
          if icEq a c then icPrefixRest ps u2 else none from rfl, if_neg hic] at h
      exact absurd h (by simp)

theorem headerBlockCap_none {t : List Char}
    (H : ∀ i, i < t.length →
      icPrefixRest ("CONTACT INFORMATION").toList (t.drop i) = none) :
    headerBlockCap t = none := by
  unfold headerBlockCap
  cases hf : findFirst tryDashAt t with
  | none => rfl
  | some r =>
    exfalso
    obtain ⟨p, s, hs, hd⟩ := findFirst_some hf
    unfold tryDashAt at hd
    dsimp only at hd
    split at hd
    · rename_i r1
      split at hd
      · rename_i r2 heq2
        split at hd
        · rename_i r3 heq3
          obtain ⟨w, hw, hfw⟩ := List.exists_of_findSome?_eq_some hd
          rw [Option.map_eq_some'] at hfw
          obtain ⟨j, hj, _⟩ := hfw
          unfold findICLit at hj
          rw [Option.map_eq_some'] at hj
          obtain ⟨r2b, hr2b, _⟩ := hj
          obtain ⟨p2, u, hu, hg⟩ := findFirst_some hr2b
          rw [Option.map_eq_some'] at hg
          obtain ⟨x, hx, _⟩ := hg
          have hx2 : icPrefixRest ('\n' :: "CONTACT INFORMATION".toList) u = some x := hx
          obtain ⟨c, u2, hu2, hx3⟩ := icPrefixRest_cons_some hx2
          have hchain : u2 <:+ t := by
            have h1 : u2 <:+ u := by
              rw [hu2]
              exact List.suffix_cons c u2
            have h2 : u <:+ r3.drop (w + 1) := hu
            have h3 : r3.drop (w + 1) <:+ r3 := List.drop_suffix _ _
            have h4 : r3 <:+ r2.drop ((r2.takeWhile isJsWS).length) := by
              rw [heq3]
              exact List.suffix_cons '-' r3
            have h5 : r2.drop ((r2.takeWhile isJsWS).length) <:+ r2 := List.drop_suffix _ _
            have h6 : r2 <:+ r1.drop ((r1.takeWhile isJsWS).length) := by
              rw [heq2]
              exact List.suffix_cons '-' r2
            have h7 : r1.drop ((r1.takeWhile isJsWS).length) <:+ r1 := List.drop_suffix _ _
            have h8 : r1 <:+ '-' :: r1 := List.suffix_cons '-' r1
            exact (((((((h1.trans h2).trans h3).trans h4).trans h5).trans h6).trans
              h7).trans h8).trans hs
          obtain ⟨n, hn⟩ := suffix_exists_drop hchain
          have hlen : ("CONTACT INFORMATION".toList).length ≤ u2.length :=
            (icPrefixRest_some _ _ _ hx3).1
          have hlen19 : ("CONTACT INFORMATION".toList).length = 19 := rfl
          have hnlt : n < t.length := by
            have hl := congrArg List.length hn
            rw [List.length_drop] at hl
            omega
          have hH := H n hnlt
          rw [hn] at hH
          rw [hH] at hx3
          exact Option.noConfusion hx3
        · exact absurd hd (by simp)
      · exact absurd hd (by simp)
    · exact absurd hd (by simp)

theorem computeConfidence_le_100 (x : ConfFacts) : (computeConfidence x).overall ≤ 100 := by
  have hb : ∀ o : Option String, (if truthyS o then 1 else 0) ≤ 1 := by
    intro o
    split <;> omega
  have hsx : (if x.sites.isEmpty then 0 else 1) ≤ 1 := by split <;> omega
  have hcx : (if x.contacts.isEmpty then 0 else 1) ≤ 1 := by split <;> omega
  have h1 := hb x.bookingNumber
  have h2 := hb x.talentName
  have h3 := hb x.clientName
  have h4 := hb x.eventTitle
  have h5 := hb x.eventDateText
  calc (computeConfidence x).overall
      = (((if truthyS x.bookingNumber then 1 else 0) +
        (if truthyS x.talentName then 1 else 0) +
        (if truthyS x.clientName then 1 else 0) +
        (if truthyS x.eventTitle then 1 else 0) +
        (if truthyS x.eventDateText then 1 else 0) +
        (if x.sites.isEmpty then 0 else 1) +
        (if x.contacts.isEmpty then 0 else 1)) * 200 + 7) / 14 := rfl
    _ ≤ (7 * 200 + 7) / 14 := by
        apply Nat.div_le_div_right
        omega
    _ = 100 := by norm_num

set_option maxRecDepth 40000 in
/-- C8: the extraction engine is a total function whose result is always a
well-shaped ParsedBrief (the overall confidence is a percentage of at most
100 for every input), and whenever the normalized text contains no
case-insensitive occurrence of any recognized heading the segmenter returns
the empty mapping and the engine still returns a ParsedBrief with all
section-dependent fields absent and confidence at most 14. -/
theorem c8_no_throw_degradation :
    (∀ raw : String, (parseLaiEventBrief raw).confidence.overall ≤ 100) ∧
    (∀ raw : String,
      (∀ h ∈ headingsVocab, ∀ i, i < (normalize raw).toList.length →
        icPrefixRest h.toList ((normalize raw).toList.drop i) = none) →
      splitByHeadingsMulti (normalize raw).toList headingsVocab = [] ∧
      (parseLaiEventBrief raw).sites = [] ∧
      (parseLaiEventBrief raw).contacts = [] ∧
      (parseLaiEventBrief raw).schedule = none ∧
      (parseLaiEventBrief raw).sections =
        { contactInformation := none, eventDetails := none, clientDetails := none,
          talentIntroduction := none } ∧
      (parseLaiEventBrief raw).header =
        { talentName := none, clientName := none, eventTitle := none,
          eventDateText := none, raw := none } ∧
      (parseLaiEventBrief raw).confidence.overall ≤ 14) := by
  constructor
  · intro raw
    exact computeConfidence_le_100 _
  · intro raw H
    have H2 : ∀ h ∈ headingsVocab, ∀ i, i < (normalizeL raw.toList).length →
        icPrefixRest h.toList ((normalizeL raw.toList).drop i) = none := H
    have hsplit : splitByHeadingsMulti (normalizeL raw.toList) headingsVocab = [] := by
      unfold splitByHeadingsMulti
      rw [headingHits_nil H2]
      rfl
    have hCI : "CONTACT INFORMATION" ∈ headingsVocab := by decide
    have hhead : headerBlockCap (normalizeL raw.toList) = none :=
      headerBlockCap_none (fun i hi => H2 "CONTACT INFORMATION" hCI i hi)
    have hP : parseLaiEventBrief raw =
        { bookingNumber := bookingNumberL (normalizeL raw.toList),
          header := ⟨none, none, none, none, none⟩,
          sites := [], contacts := [], schedule := none,
          sections := ⟨none, none, none, none⟩,
          confidence := computeConfidence
            ⟨bookingNumberL (normalizeL raw.toList), none, none, none, none, [], []⟩ } := by
      show parseLaiEventBriefL raw.toList = _
      simp only [parseLaiEventBriefL]
      rw [hsplit, hhead]
      rfl
    refine ⟨hsplit, ?_, ?_, ?_, ?_, ?_, ?_⟩
    · rw [hP]
    · rw [hP]
    · rw [hP]
    · rw [hP]
    · rw [hP]
    · rw [hP]
      have h14 : ∀ b : Nat, b ≤ 1 → (b * 200 + 7) / 14 ≤ 14 := by
        intro b hb
        interval_cases b <;> decide
      show ((((if truthyS (bookingNumberL (normalizeL raw.toList)) then 1 else 0) +
        (if truthyS (none : Option String) then 1 else 0) +
        (if truthyS (none : Option String) then 1 else 0) +
        (if truthyS (none : Option String) then 1 else 0) +
        (if truthyS (none : Option String) then 1 else 0) +
        (if ([] : List Site).isEmpty then 0 else 1) +
        (if ([] : List Contact).isEmpty then 0 else 1)) * 200 + 7) / 14) ≤ 14
      rw [show (if truthyS (none : Option String) then (1 : Nat) else 0) = 0 from rfl,
        show (if ([] : List Site).isEmpty then (0 : Nat) else 1) = 0 from rfl,
        show (if ([] : List Contact).isEmpty then (0 : Nat) else 1) = 0 from rfl]
      simp only [Nat.add_zero]
      apply h14
      split <;> omega

set_option maxRecDepth 40000 in
/-- C8 witness: the degradation law applied to a concrete text that contains
no recognized heading. -/
theorem c8_no_throw_degradation_witness :
    (parseLaiEventBrief "Booking # 999999").sites = [] ∧
    (parseLaiEventBrief "Booking # 999999").schedule = none ∧
    (parseLaiEventBrief "Booking # 999999").confidence.overall ≤ 14 := by
  have h := c8_no_throw_degradation.2 "Booking # 999999" (by decide)
  exact ⟨h.2.1, h.2.2.2.1, h.2.2.2.2.2.2⟩

set_option maxRecDepth 40000 in
/-- C9 counterexample: a leaf string field of the returned record can be the
empty string: a site whose label is immediately followed by the next label
stores an empty raw slice (the `match1` helper trims its capture without the
`|| null` guard, and the slice passthrough stores the trimmed chunk even when
it is empty). -/
theorem c9_counterexample :
    (((parseLaiEventBrief
        "CONTACT INFORMATION\nEVENT SITE: HOTEL SITE: Hilton\nPhone: (555) 111-2222").sites.get?
      0).map Site.raw) = some "" := by
  decide

/-! ## C9 amended: apart from the raw slice passthrough, leaf string fields
are never stored as the empty string.

The phone-class captures are the delicate part: the pattern class
`[0-9()\- ]` contains the space, so a capture of at least seven characters
could in principle trim to the empty string — but only if it contained two
adjacent spaces, and the normalizer guarantees that the canonical text (and
hence every block sliced from it) has no two adjacent spaces. -/

theorem chain_within {R : Char → Char → Prop} {l m : List Char} (h : List.Chain' R m)
    (hw : l <:+: m) : List.Chain' R l := by
  obtain ⟨s, t, he⟩ := hw
  rw [← he] at h
  exact (List.chain'_append.mp (List.chain'_append.mp h).1).2.1

theorem chain_slice {R : Char → Char → Prop} {l : List Char} (h : List.Chain' R l)
    (e s : Nat) : List.Chain' R ((l.take e).drop s) :=
  chain_within h
    ((List.drop_suffix s (l.take e)).isInfix.trans (List.take_prefix e l).isInfix)

theorem trimL_within (l : List Char) : trimL l <:+: l := by
  obtain ⟨t, w, hd⟩ := trimL_decomp l
  exact ⟨t, w, hd.symm⟩

theorem chain_trimL {R : Char → Char → Prop} {l : List Char} (h : List.Chain' R l) :
    List.Chain' R (trimL l) :=
  chain_within h (trimL_within l)

theorem chain_trim_slice {R : Char → Char → Prop} {l : List Char} (h : List.Chain' R l)
    (e s : Nat) : List.Chain' R (trimL ((l.take e).drop s)) :=
  chain_trimL (chain_slice h e s)

theorem orNullS_ne_empty (o : Option String) : orNullS o ≠ some "" := by
  cases o with
  | none => simp [orNullS]
  | some s => by_cases h : s = "" <;> simp [orNullS, h]

theorem jsOr_ne_empty {a b : Option String} (hb : b ≠ some "") : jsOr a b ≠ some "" := by
  cases a with
  | none => exact hb
  | some s =>
    show (if s == "" then b else some s) ≠ some ""
    by_cases h : s = ""
    · rw [if_pos (by simp [h])]
      exact hb
    · rw [if_neg (by simp [h])]
      simp [h]

theorem olist_eq_some {l x : List Char} (h : olist l = some x) : x = l ∧ l ≠ [] := by
  unfold olist at h
  by_cases he : l.isEmpty
  · rw [if_pos he] at h
    exact absurd h (by simp)
  · rw [if_neg he] at h
    refine ⟨?_, by simpa using he⟩
    injection h with h2
    exact h2.symm

theorem olist_map_ne_empty (l : List Char) :
    (olist l).map (fun x => x.asString) ≠ some "" := by
  intro h
  rw [Option.map_eq_some'] at h
  obtain ⟨x, hx, hxs⟩ := h
  obtain ⟨hxl, hne⟩ := olist_eq_some hx
  exact hne (by rw [← hxl]; exact asString_eq_empty_iff.mp hxs)

theorem capToS_ne_empty {r : Option (Nat × Nat × List Char)}
    (h : ∀ x, r = some x → ∃ c ∈ x.2.2, isJsWS c = false) : capToS r ≠ some "" := by
  unfold capToS
  cases hr : r with
  | none => simp
  | some x =>
    simp only [Option.map_some']
    intro he
    have h2 : (trimL x.2.2).asString = "" := by injection he
    obtain ⟨c, hc, hw⟩ := h x hr
    exact trimL_ne_nil_of_mem hc hw (asString_eq_empty_iff.mp h2)

theorem isPhoneChar_not_ws {c : Char} (h : isPhoneChar c = true) (hs : c ≠ ' ') :
    isJsWS c = false := by
  unfold isPhoneChar at h
  simp only [Bool.or_eq_true, beq_iff_eq] at h
  rcases h with ((((hd | h1) | h2) | h3) | h4)
  · exact isDigit_not_ws hd
  · subst h1; decide
  · subst h2; decide
  · subst h3; decide
  · exact absurd h4 hs

theorem isAlnum_not_ws {c : Char} (h : isAlnum c = true) : isJsWS c = false := by
  unfold isAlnum at h
  rw [Bool.or_eq_true] at h
  rcases h with h | h
  · exact isAlpha_not_ws h
  · exact isDigit_not_ws h

theorem isUpper_not_ws {c : Char} (h : c.isUpper = true) : isJsWS c = false :=
  isAlpha_not_ws (by simp [Char.isAlpha, h])

theorem noDS_nl_left (b : Char) : noDS '\n' b := fun hc => by
  have := hc.1
  simp at this

theorem noDS_nl_right (a : Char) : noDS a '\n' := fun hc => by
  have := hc.2
  simp at this

theorem collapse_mem_fwd {c : Char} (hht : isHT c = false) :
    ∀ (l : List Char) (b : Bool), c ∈ l → c ∈ collapseWSAux b l
  | [], _, h => by simp at h
  | d :: ds, b, h => by
    unfold collapseWSAux
    by_cases hd : isHT d = true
    · rw [if_pos hd]
      have hcd : c ∈ ds := by
        rcases List.mem_cons.mp h with h1 | h2
        · rw [← h1] at hd
          rw [hht] at hd
          exact Bool.noConfusion hd
        · exact h2
      by_cases hb : b = true
      · rw [if_pos hb]
        exact collapse_mem_fwd hht ds true hcd
      · rw [if_neg hb]
        exact List.mem_cons_of_mem _ (collapse_mem_fwd hht ds true hcd)
    · rw [if_neg hd]
      rcases List.mem_cons.mp h with h1 | h2
      · rw [h1]
        exact List.mem_cons_self _ _
      · exact List.mem_cons_of_mem _ (collapse_mem_fwd hht ds false h2)

theorem fix_mem_fwd {c : Char} (hsp : c ≠ ' ') : ∀ l, c ∈ l → c ∈ fixNL l := by
  intro l
  induction l using fixNL.induct with
  | case1 =>
    intro h
    simp at h
  | case2 cs ih =>
    intro h
    rw [fixNL_nl_sp]
    rcases List.mem_cons.mp h with h1 | h1
    · rw [h1]
      exact List.mem_cons_self _ _
    · rcases List.mem_cons.mp h1 with h2 | h2
      · exact absurd h2 hsp
      · exact List.mem_cons_of_mem _ (ih h2)
  | case3 cs hne ih =>
    intro h
    have e2 : fixNL ('\n' :: cs) = '\n' :: fixNL cs := by
      cases cs with
      | nil => rw [fixNL_nl_nil, fixNL_nil]
      | cons d cs2 =>
        have hd : d ≠ ' ' := fun hee => hne cs2 (by rw [hee])
        exact fixNL_nl_cons cs2 hd
    rw [e2]
    rcases List.mem_cons.mp h with h1 | h1
    · rw [h1]
      exact List.mem_cons_self _ _
    · exact List.mem_cons_of_mem _ (ih h1)
  | case4 cs ih =>
    intro h
    rw [fixNL_sp_nl_sp]
    rcases List.mem_cons.mp h with h1 | h1
    · exact absurd h1 hsp
    · rcases List.mem_cons.mp h1 with h2 | h2
      · rw [h2]
        exact List.mem_cons_self _ _
      · rcases List.mem_cons.mp h2 with h3 | h3
        · exact absurd h3 hsp
        · exact List.mem_cons_of_mem _ (ih h3)
  | case5 cs hne ih =>
    intro h
    have e2 : fixNL (' ' :: '\n' :: cs) = '\n' :: fixNL cs := by
      cases cs with
      | nil => rw [fixNL_sp_nl_nil, fixNL_nil]
      | cons d cs2 =>
        have hd : d ≠ ' ' := fun hee => hne cs2 (by rw [hee])
        exact fixNL_sp_nl_cons cs2 hd
    rw [e2]
    rcases List.mem_cons.mp h with h1 | h1
    · exact absurd h1 hsp
    · rcases List.mem_cons.mp h1 with h2 | h2
      · rw [h2]
        exact List.mem_cons_self _ _
      · exact List.mem_cons_of_mem _ (ih h2)
  | case6 d cs h1 h2 h3 h4 ih =>
    intro h
    have hsp2 : d = ' ' → cs.head? ≠ some '\n' := by
      intro hds hh
      cases cs with
      | nil => simp at hh
      | cons e2 cs2 =>
        rw [List.head?_cons, Option.some.injEq] at hh
        exact h4 cs2 hds (by rw [hh])
    rw [fixNL_other cs h2 hsp2]
    rcases List.mem_cons.mp h with hh | hh
    · rw [hh]
      exact List.mem_cons_self _ _
    · exact List.mem_cons_of_mem _ (ih hh)

theorem squeeze_mem_fwd {c : Char} (hnl : c ≠ '\n') : ∀ (l : List Char) (k : Nat),
    c ∈ l → c ∈ squeezeNLAux k l
  | [], _, h => by simp at h
  | d :: cs, k, h => by
    rw [squeeze_cons]
    by_cases hd : d = '\n'
    · rw [if_pos hd]
      have hcd : c ∈ cs := by
        rcases List.mem_cons.mp h with h1 | h2
        · rw [h1, hd] at hnl
          exact absurd rfl hnl
        · exact h2
      by_cases hk : 2 ≤ k
      · rw [if_pos hk]
        exact squeeze_mem_fwd hnl cs k hcd
      · rw [if_neg hk]
        exact List.mem_cons_of_mem _ (squeeze_mem_fwd hnl cs (k + 1) hcd)
    · rw [if_neg hd]
      rcases List.mem_cons.mp h with h1 | h2
      · rw [h1]
        exact List.mem_cons_self _ _
      · exact List.mem_cons_of_mem _ (squeeze_mem_fwd hnl cs 0 h2)

theorem normalizeL_ne_nil_of_mem {l : List Char} {c : Char} (hc : c ∈ l)
    (hw : isJsWS c = false) : normalizeL l ≠ [] := by
  have hsp : c ≠ ' ' := by intro h; rw [h] at hw; exact absurd hw (by decide)
  have hnl : c ≠ '\n' := by intro h; rw [h] at hw; exact absurd hw (by decide)
  have hcr : c ≠ '\r' := by intro h; rw [h] at hw; exact absurd hw (by decide)
  have htb : c ≠ '\t' := by intro h; rw [h] at hw; exact absurd hw (by decide)
  have hht : isHT c = false := by
    unfold isHT
    simp [hsp, htb]
  have h1 : c ∈ removeCR l := List.mem_filter.mpr ⟨hc, by simp [hcr]⟩
  have h2 := collapse_mem_fwd hht (removeCR l) false h1
  have h3 := fix_mem_fwd hsp _ h2
  have h4 := squeeze_mem_fwd hnl _ 0 h3
  exact trimL_ne_nil_of_mem h4 hw

theorem exists_two_of_len : ∀ {l : List Char}, 2 ≤ l.length → ∃ a b t, l = a :: b :: t
  | [], h => by simp at h
  | [a], h => by simp at h
  | a :: b :: t, _ => ⟨a, b, t, rfl⟩

theorem intercalate_cons_ne_nil {α : Type} (sep x : List α) (xs : List (List α))
    (hx : x ≠ []) : List.intercalate sep (x :: xs) ≠ [] := by
  cases xs with
  | nil =>
    intro h
    apply hx
    simpa [List.intercalate, List.intersperse] using h
  | cons y ys =>
    intro h
    apply hx
    rw [show List.intercalate sep (x :: y :: ys) =
      x ++ (sep ++ List.intercalate sep (y :: ys)) from by
        simp [List.intercalate, List.intersperse]] at h
    exact (List.append_eq_nil.mp h).1

theorem toList_asString (l : List Char) : (l.asString).toList = l := rfl

theorem asString_trim {l : List Char} (h : trimL l = l) : trimmedS l.asString := by
  unfold trimmedS
  rw [toList_asString]
  exact h

theorem trimL_asString_trim (l : List Char) : trimmedS (trimL l).asString :=
  asString_trim (trimL_trimL l)

theorem capToS_trim {r : Option (Nat × Nat × List Char)} {s : String}
    (h : capToS r = some s) : trimmedS s := by
  unfold capToS at h
  cases hr : r with
  | none =>
    rw [hr] at h
    exact absurd h (by simp)
  | some x =>
    rw [hr, Option.map_some', Option.some.injEq] at h
    rw [← h]
    exact trimL_asString_trim _

theorem orNullS_eq_some {o : Option String} {s : String} (h : orNullS o = some s) :
    o = some s := by
  cases o with
  | none => exact absurd h (by simp [orNullS])
  | some v =>
    have h2 : (if v == "" then none else some v) = some s := h
    split at h2
    · exact absurd h2 (by simp)
    · exact h2

theorem jsOr_eq_some {a b : Option String} {s : String} (h : jsOr a b = some s) :
    a = some s ∨ b = some s := by
  cases a with
  | none => exact Or.inr h
  | some v =>
    have h2 : (if v == "" then b else some v) = some s := h
    split at h2
    · exact Or.inr h2
    · exact Or.inl h2

theorem optTrimNE_orNullS {o : Option String}
    (h : ∀ s, o = some s → trimmedS s) : optTrimNE (orNullS o) :=
  ⟨orNullS_ne_empty o, fun s hs => h s (orNullS_eq_some hs)⟩

theorem optTrimNE_capToS {r : Option (Nat × Nat × List Char)}
    (h : ∀ x, r = some x → ∃ c ∈ x.2.2, isJsWS c = false) : optTrimNE (capToS r) :=
  ⟨capToS_ne_empty h, fun _ hs => capToS_trim hs⟩

theorem optTrimNE_none : optTrimNE none :=
  ⟨by simp, fun s hs => absurd hs (by simp)⟩

theorem optTrimNE_jsOr {a b : Option String} (hb : b ≠ some "")
    (ha2 : ∀ s, a = some s → trimmedS s) (hb2 : ∀ s, b = some s → trimmedS s) :
    optTrimNE (jsOr a b) := by
  refine ⟨jsOr_ne_empty hb, fun s hs => ?_⟩
  rcases jsOr_eq_some hs with h | h
  · exact ha2 s h
  · exact hb2 s h

theorem trimmed_ends {l : List Char} (h : trimL l = l) :
    (∀ y, l.head? = some y → isJsWS y = false) ∧
    (∀ y, l.getLast? = some y → isJsWS y = false) := by
  constructor
  · intro y hy
    rw [← h] at hy
    exact trim_head_not_ws hy
  · intro y hy
    rw [← h] at hy
    exact trim_last_not_ws hy

theorem inter_ends {sep : List Char} : ∀ parts : List (List Char),
    (∀ x ∈ parts, x ≠ [] ∧ trimL x = x) →
    (∀ y, (List.intercalate sep parts).head? = some y → isJsWS y = false) ∧
    (∀ y, (List.intercalate sep parts).getLast? = some y → isJsWS y = false)
  | [] => by
    intro _
    rw [show List.intercalate sep ([] : List (List Char)) = [] from rfl]
    constructor <;> (intro y hy; exact absurd hy (by simp))
  | [x] => by
    intro h
    rw [show List.intercalate sep [x] = x from by
      simp [List.intercalate, List.intersperse]]
    exact trimmed_ends (h x (List.mem_cons_self _ _)).2
  | x :: y :: ys => by
    intro h
    obtain ⟨ih1, ih2⟩ := inter_ends (y :: ys) (fun z hz => h z (List.mem_cons_of_mem _ hz))
    rw [show List.intercalate sep (x :: y :: ys) =
      x ++ (sep ++ List.intercalate sep (y :: ys)) from by
        simp [List.intercalate, List.intersperse]]
    have hx := h x (List.mem_cons_self _ _)
    constructor
    · intro yy hyy
      obtain ⟨c, x', hx'⟩ : ∃ c x', x = c :: x' := by
        cases hcx : x with
        | nil => exact absurd hcx hx.1
        | cons a b => exact ⟨a, b, rfl⟩
      rw [hx', List.cons_append, List.head?_cons, Option.some.injEq] at hyy
      rw [← hyy]
      exact (trimmed_ends hx.2).1 c (by rw [hx']; rfl)
    · intro yy hyy
      have hne2 : List.intercalate sep (y :: ys) ≠ [] :=
        intercalate_cons_ne_nil sep y ys
          (h y (List.mem_cons_of_mem _ (List.mem_cons_self _ _))).1
      have hne : sep ++ List.intercalate sep (y :: ys) ≠ [] := by
        intro he
        exact hne2 (List.append_eq_nil.mp he).2
      rw [List.getLast?_append_of_ne_nil _ hne] at hyy
      rw [List.getLast?_append_of_ne_nil _ hne2] at hyy
      exact ih2 yy hyy

theorem inter_trim {sep : List Char} (parts : List (List Char))
    (h : ∀ x ∈ parts, x ≠ [] ∧ trimL x = x) :
    trimL (List.intercalate sep parts) = List.intercalate sep parts := by
  obtain ⟨h1, h2⟩ := inter_ends parts h
  exact trim_id h1 h2

theorem mem_linesOf_trim {b x : List Char} (h : x ∈ linesOf b) : trimL x = x := by
  unfold linesOf at h
  have h2 := List.mem_of_mem_filter h
  rw [List.mem_map] at h2
  obtain ⟨pc, _, hpx⟩ := h2
  rw [← hpx]
  exact trimL_trimL pc

theorem joinNl_trim {sel : List (List Char)}
    (h : ∀ x ∈ sel, x ≠ [] ∧ trimL x = x) : trimL (joinNl sel) = joinNl sel := by
  show trimL (List.intercalate ['\n'] sel) = List.intercalate ['\n'] sel
  exact inter_trim sel h

theorem normalizeL_trim (l : List Char) : trimL (normalizeL l) = normalizeL l :=
  trimL_trimL _

theorem sectionHeadD_trim (t : List Char) (hv : List String) (h : String) :
    trimL ((sectionSpans (splitByHeadingsMulti t hv) h).headD []) =
      (sectionSpans (splitByHeadingsMulti t hv) h).headD [] := by
  cases hq : sectionSpans (splitByHeadingsMulti t hv) h with
  | nil => rfl
  | cons x xs =>
    have hx : x ∈ sectionSpans (splitByHeadingsMulti t hv) h := by
      rw [hq]
      exact List.mem_cons_self _ _
    unfold sectionSpans at hx
    rw [List.mem_map] at hx
    obtain ⟨p, hp, hpx⟩ := hx
    have hp2 := List.mem_of_mem_filter hp
    unfold splitByHeadingsMulti at hp2
    obtain ⟨l0, hpe⟩ := buildSections_snd t _ p hp2
    show trimL x = x
    rw [← hpx, hpe]
    exact trimL_trimL l0

theorem headerBlockCap_trim {t x : List Char} (h : headerBlockCap t = some x) :
    trimL x = x := by
  unfold headerBlockCap at h
  rw [Option.map_eq_some'] at h
  obtain ⟨r, _, hre⟩ := h
  rw [← hre]
  exact trimL_trimL _

theorem mem_linesOf_opt_optTrim (b : List Char) {o : Option (List Char)}
    (ho : ∀ x, o = some x → x ∈ linesOf b) :
    optTrimNE (o.map (fun l => l.asString)) := by
  refine ⟨linesOf_opt_ne_empty b ho, ?_⟩
  intro s hs
  rw [Option.map_eq_some'] at hs
  obtain ⟨x, hx, hxs⟩ := hs
  rw [← hxs]
  exact asString_trim (mem_linesOf_trim (ho x hx))

theorem parseHeaderBlock_optTrim (ob : Option (List Char))
    (hob : ∀ x, ob = some x → trimL x = x) :
    optTrimNE (parseHeaderBlock ob).talentName ∧
    optTrimNE (parseHeaderBlock ob).clientName ∧
    optTrimNE (parseHeaderBlock ob).eventTitle ∧
    optTrimNE (parseHeaderBlock ob).eventDateText ∧
    optTrimNE (parseHeaderBlock ob).raw := by
  cases ob with
  | none => simp [parseHeaderBlock, optTrimNE]
  | some b =>
    unfold parseHeaderBlock
    by_cases hb : b.isEmpty
    · simp [hb, optTrimNE]
    · simp only [hb, Bool.false_eq_true, if_false]
      refine ⟨?_, ?_, ?_, ?_, ?_, ?_⟩
      · exact mem_linesOf_opt_optTrim b (fun x hx => List.get?_mem hx)
      · exact mem_linesOf_opt_optTrim b (fun x hx => List.get?_mem hx)
      · exact mem_linesOf_opt_optTrim b (fun x hx => List.get?_mem hx)
      · refine mem_linesOf_opt_optTrim b (fun x hx => ?_)
        rw [Option.bind_eq_some] at hx
        obtain ⟨i, _, hi⟩ := hx
        exact List.get?_mem hi
      · intro h
        rw [Option.some.injEq] at h
        have h2 : b = [] := asString_eq_empty_iff.mp h
        rw [h2] at hb
        exact hb rfl
      · intro s hs
        rw [Option.some.injEq] at hs
        rw [← hs]
        exact asString_trim (hob b rfl)

theorem bookingNumberL_optTrim (t : List Char) : optTrimNE (bookingNumberL t) := by
  refine ⟨bookingNumberL_ne_empty t, ?_⟩
  intro s hs
  unfold bookingNumberL at hs
  exact capToS_trim hs

theorem olist_map_optTrim {l : List Char} (hl : trimL l = l) :
    optTrimNE ((olist l).map (fun x => x.asString)) := by
  refine ⟨olist_map_ne_empty l, ?_⟩
  intro s hs
  rw [Option.map_eq_some'] at hs
  obtain ⟨x, hx, hxs⟩ := hs
  obtain ⟨hxl, _⟩ := olist_eq_some hx
  rw [← hxs, hxl]
  exact asString_trim hl

theorem strTrimNE_lit {s : String} (h1 : s ≠ "") (h2 : trimL s.toList = s.toList) :
    strTrimNE s := ⟨h1, h2⟩

theorem phoneCapTry_cap {u : List Char} : ∀ {w n : Nat} {cap : List Char},
    phoneCapTry u w = some (n, cap) →
    ∃ k, cap = (u.drop k).takeWhile isPhoneChar ∧ 7 ≤ cap.length
  | 0, n, cap => by
    intro h
    unfold phoneCapTry at h
    dsimp only at h
    split at h
    · rename_i hlen
      rw [Option.some.injEq, Prod.mk.injEq] at h
      refine ⟨0, ?_, ?_⟩
      · rw [← h.2]
        simp
      · rw [← h.2]
        exact hlen
    · exact absurd h (by simp)
  | Nat.succ w2, n, cap => by
    intro h
    unfold phoneCapTry at h
    dsimp only at h
    split at h
    · rename_i hlen
      rw [Option.some.injEq, Prod.mk.injEq] at h
      refine ⟨w2 + 1, h.2.symm, ?_⟩
      rw [← h.2]
      exact hlen
    · exact phoneCapTry_cap h

theorem matchPhone_ne_empty {t : List Char} (hch : List.Chain' noDS t)
    (lab : String) (needB : Bool) : matchPhone t lab needB ≠ some "" := by
  unfold matchPhone
  apply capToS_ne_empty
  intro x hx
  obtain ⟨p, s, hs, ht⟩ := findFirst_some hx
  unfold tryPhoneLabelAt at ht
  split at ht
  · exact absurd ht (by simp)
  · split at ht
    · exact absurd ht (by simp)
    · rename_i u hic
      rw [Option.map_eq_some'] at ht
      obtain ⟨r, hr, hre⟩ := ht
      unfold phoneCapAfter at hr
      obtain ⟨k, hcap, hlen⟩ := phoneCapTry_cap (show phoneCapTry u
        (List.takeWhile isJsWS u).length = some (r.1, r.2) from by
          rw [hr])
      have hxcap : x.2.2 = r.2 := by
        rw [Prod.mk.injEq] at hre
        exact hre.2.symm
      have hsu : u = s.drop lab.toList.length := (icPrefixRest_some _ _ _ hic).2.1
      have hchu : List.Chain' noDS r.2 := by
        rw [hcap]
        refine chain_within hch (List.IsInfix.trans ?_ hs.isInfix)
        refine List.IsInfix.trans ((List.takeWhile_prefix isPhoneChar).isInfix) ?_
        refine List.IsInfix.trans (List.drop_suffix k u).isInfix ?_
        rw [hsu]
        exact (List.drop_suffix _ s).isInfix
      rw [hxcap]
      obtain ⟨c1, c2, rest, hc12⟩ := exists_two_of_len (show 2 ≤ r.2.length by omega)
      have hchu2 : List.Chain' noDS (c1 :: c2 :: rest) := by
        rw [← hc12]
        exact hchu
      have hpair : noDS c1 c2 := (List.chain'_cons'.mp hchu2).1 c2 rfl
      have hmem1 : c1 ∈ r.2 := by
        rw [hc12]
        exact List.mem_cons_self _ _
      have hmem2 : c2 ∈ r.2 := by
        rw [hc12]
        exact List.mem_cons_of_mem _ (List.mem_cons_self _ _)
      have hph1 : isPhoneChar c1 = true := List.mem_takeWhile_imp (hcap ▸ hmem1)
      have hph2 : isPhoneChar c2 = true := List.mem_takeWhile_imp (hcap ▸ hmem2)
      by_cases hc1sp : c1 = ' '
      · have hc2sp : c2 ≠ ' ' := fun he => hpair ⟨hc1sp, he⟩
        exact ⟨c2, hmem2, isPhoneChar_not_ws hph2 hc2sp⟩
      · exact ⟨c1, hmem1, isPhoneChar_not_ws hph1 hc1sp⟩

theorem tryEmailAt_cap {p : Option Char} {s : List Char} {n : Nat} {r : List Char}
    (h : tryEmailAt p s = some (n, r)) : ∃ c ∈ r, isJsWS c = false := by
  unfold tryEmailAt at h
  split at h
  · exact absurd h (by simp)
  · rename_i u hic
    dsimp only at h
    split at h
    · rename_i hat
      rw [Option.some.injEq, Prod.mk.injEq] at h
      refine ⟨'@', ?_, by decide⟩
      rw [← h.2]
      have hat2 : '@' ∈ (((u.drop (List.takeWhile isJsWS u).length).takeWhile
          (fun c => !isJsWS c)).drop 1).dropLast := by
        simpa using hat
      exact List.drop_subset 1 _ (List.dropLast_subset _ hat2)
    · exact absurd h (by simp)

theorem matchEmail_ne_empty (t : List Char) : matchEmail t ≠ some "" := by
  unfold matchEmail
  apply capToS_ne_empty
  intro x hx
  obtain ⟨p, s, hs, ht⟩ := findFirst_some hx
  exact tryEmailAt_cap ht

theorem alnum_run_mem {u run : List Char} (hr : run = u.takeWhile isAlnum)
    (hne : run.isEmpty = false) : ∃ c ∈ run, isJsWS c = false := by
  obtain ⟨c, hc⟩ := List.exists_mem_of_ne_nil run (by simpa using hne)
  refine ⟨c, hc, isAlnum_not_ws ?_⟩
  rw [hr] at hc
  exact List.mem_takeWhile_imp hc

theorem tryResAt_cap {p : Option Char} {s : List Char} {n : Nat} {run : List Char}
    (h : tryResAt p s = some (n, run)) : ∃ c ∈ run, isJsWS c = false := by
  unfold tryResAt at h
  dsimp only at h
  cases h1 : (match icPrefixRest "Reservation Code:".toList s with
    | none => none
    | some u =>
      if ((u.drop (u.takeWhile isJsWS).length).takeWhile isAlnum).isEmpty = true then none
      else some ("Reservation Code:".length + (u.takeWhile isJsWS).length +
        ((u.drop (u.takeWhile isJsWS).length).takeWhile isAlnum).length,
        (u.drop (u.takeWhile isJsWS).length).takeWhile isAlnum)) with
  | some v =>
    rw [h1] at h
    simp only [Option.orElse] at h
    rw [Option.some.injEq] at h
    rw [h] at h1
    split at h1
    · exact absurd h1 (by simp)
    · split at h1
      · exact absurd h1 (by simp)
      · rename_i hne
        rw [Option.some.injEq, Prod.mk.injEq] at h1
        refine alnum_run_mem h1.2.symm ?_
        rw [← h1.2]
        simpa using hne
  | none =>
    rw [h1] at h
    simp only [Option.orElse] at h
    split at h
    · exact absurd h (by simp)
    · split at h
      · exact absurd h (by simp)
      · rename_i hne
        rw [Option.some.injEq, Prod.mk.injEq] at h
        refine alnum_run_mem h.2.symm ?_
        rw [← h.2]
        simpa using hne

theorem trySeatColonAt_cap {p : Option Char} {s : List Char} {n : Nat} {run : List Char}
    (h : trySeatColonAt p s = some (n, run)) : ∃ c ∈ run, isJsWS c = false := by
  unfold trySeatColonAt at h
  split at h
  · split at h
    · exact absurd h (by simp)
    · dsimp only at h
      split at h
      · exact absurd h (by simp)
      · rename_i hne
        rw [Option.some.injEq, Prod.mk.injEq] at h
        refine alnum_run_mem h.2.symm ?_
        rw [← h.2]
        simpa using hne
  · exact absurd h (by simp)

theorem trySeatSpAt_cap {p : Option Char} {s : List Char} {n : Nat} {run : List Char}
    (h : trySeatSpAt p s = some (n, run)) : ∃ c ∈ run, isJsWS c = false := by
  unfold trySeatSpAt at h
  split at h
  · split at h
    · exact absurd h (by simp)
    · dsimp only at h
      split at h
      · exact absurd h (by simp)
      · split at h
        · exact absurd h (by simp)
        · rename_i hne
          rw [Option.some.injEq, Prod.mk.injEq] at h
          rw [Bool.not_eq_true, Bool.or_eq_false_iff] at hne
          refine alnum_run_mem h.2.symm ?_
          rw [← h.2]
          exact hne.1
  · exact absurd h (by simp)

theorem tailNumMatch_cap {u : List Char} {n : Nat} {ds : List Char}
    (h : tailNumMatch u = some (n, ds)) : ds ≠ [] ∧ ∀ c ∈ ds, c.isDigit = true := by
  unfold tailNumMatch at h
  dsimp only at h
  split at h
  · exact absurd h (by simp)
  · split at h
    · rename_i hcond
      rw [Option.some.injEq, Prod.mk.injEq] at h
      simp only [Bool.and_eq_true, decide_eq_true_eq] at hcond
      constructor
      · intro hnil
        rw [h.2, hnil] at hcond
        simp at hcond
      · intro c hc
        rw [← h.2] at hc
        exact List.mem_takeWhile_imp hc
    · exact absurd h (by simp)

theorem head_of_takeWhile {po : Char → Bool} {l a : List Char} {c : Char}
    (hl : l.takeWhile po = c :: a) : l.head? = some c := by
  obtain ⟨t, ht⟩ := List.takeWhile_prefix (l := l) po
  rw [hl] at ht
  rw [← ht]
  rfl

theorem alt1Go_cap {s U : List Char} (hU : ∀ c ∈ U, c.isUpper = true) :
    ∀ {k n : Nat} {a ds : List Char},
      alt1Go s U k = some (n, (a, ds)) → k ≤ U.length →
      (∃ c ∈ a, isJsWS c = false) ∧ ds ≠ [] ∧ (∀ c ∈ ds, c.isDigit = true) ∧ 1 ≤ n ∧
      ∃ c0, U.head? = some c0 ∧ isJsWS c0 = false
  | 0, n, a, ds => by
    intro h _
    exact absurd h (by simp [alt1Go])
  | 1, n, a, ds => by
    intro h _
    exact absurd h (by simp [alt1Go])
  | Nat.succ (Nat.succ w2), n, a, ds => by
    intro h hk
    rw [show alt1Go s U (Nat.succ (Nat.succ w2)) =
        (match tailNumMatch (s.drop (Nat.succ w2 + 1)) with
         | some (n2, ds2) => some (Nat.succ w2 + 1 + n2, (U.take (Nat.succ w2 + 1), ds2))
         | none => alt1Go s U (Nat.succ w2)) from rfl] at h
    cases ht : tailNumMatch (s.drop (Nat.succ w2 + 1)) with
    | some r =>
      obtain ⟨n2, ds2⟩ := r
      rw [ht] at h
      rw [Option.some.injEq, Prod.mk.injEq, Prod.mk.injEq] at h
      obtain ⟨hn, ha, hds⟩ := h
      obtain ⟨hds1, hds2⟩ := tailNumMatch_cap ht
      obtain ⟨c0, U2, hU2⟩ : ∃ c0 U2, U = c0 :: U2 := by
        cases U with
        | nil => simp at hk
        | cons x y => exact ⟨x, y, rfl⟩
      have hc0 : c0.isUpper = true := hU c0 (by rw [hU2]; exact List.mem_cons_self _ _)
      refine ⟨⟨c0, ?_, isUpper_not_ws hc0⟩, by rw [← hds]; exact hds1,
        by rw [← hds]; exact hds2, by omega, c0, by rw [hU2]; rfl, isUpper_not_ws hc0⟩
      rw [← ha, hU2]
      show c0 ∈ (c0 :: U2).take (w2 + 2)
      rw [List.take_succ_cons]
      exact List.mem_cons_self _ _
    | none =>
      rw [ht] at h
      exact alt1Go_cap hU h (by omega)

theorem alt2Star_cap : ∀ {f wl : Nat} {u : List Char} {cl tot : Nat} {ds : List Char},
    alt2Star wl u f = some (cl, tot, ds) →
    wl ≤ cl ∧ wl ≤ tot ∧ ds ≠ [] ∧ ∀ c ∈ ds, c.isDigit = true
  | 0, wl, u, cl, tot, ds => by
    intro h
    unfold alt2Star at h
    rw [Option.map_eq_some'] at h
    obtain ⟨r, hr, he⟩ := h
    rw [Prod.mk.injEq, Prod.mk.injEq] at he
    obtain ⟨h1, h2, h3⟩ := he
    obtain ⟨hd1, hd2⟩ := tailNumMatch_cap (show tailNumMatch u = some (r.1, r.2) from by
      rw [hr])
    exact ⟨by omega, by omega, by rw [← h3]; exact hd1, by rw [← h3]; exact hd2⟩
  | Nat.succ f, wl, u, cl, tot, ds => by
    intro h
    unfold alt2Star at h
    cases hu : unitMatch u with
    | some m =>
      rw [hu] at h
      obtain ⟨h1, h2, h3, h4⟩ := alt2Star_cap h
      exact ⟨by omega, by omega, h3, h4⟩
    | none =>
      rw [hu] at h
      rw [Option.map_eq_some'] at h
      obtain ⟨r, hr, he⟩ := h
      rw [Prod.mk.injEq, Prod.mk.injEq] at he
      obtain ⟨h1, h2, h3⟩ := he
      obtain ⟨hd1, hd2⟩ := tailNumMatch_cap (show tailNumMatch u = some (r.1, r.2) from by
        rw [hr])
      exact ⟨by omega, by omega, by rw [← h3]; exact hd1, by rw [← h3]; exact hd2⟩

theorem alt2Try_cap {s : List Char} {n : Nat} {a ds : List Char}
    (h : alt2Try s = some (n, (a, ds))) :
    (∃ c ∈ a, isJsWS c = false) ∧ ds ≠ [] ∧ (∀ c ∈ ds, c.isDigit = true) ∧ 1 ≤ n ∧
    ∃ c0, s.head? = some c0 ∧ isJsWS c0 = false := by
  cases s with
  | nil => exact absurd h (by simp [alt2Try])
  | cons c r =>
    have he2 : alt2Try (c :: r) =
        (if c.isUpper = true then
          (if (r.takeWhile Char.isAlpha).isEmpty = true then none
           else (alt2Star (1 + (r.takeWhile Char.isAlpha).length)
              (r.drop (r.takeWhile Char.isAlpha).length) r.length).map
              (fun x => (x.2.1, ((c :: r).take x.1, x.2.2))))
        else none) := rfl
    rw [he2] at h
    split at h
    · rename_i hup
      split at h
      · exact absurd h (by simp)
      · rename_i hl0
        rw [Option.map_eq_some'] at h
        obtain ⟨x, hx, he⟩ := h
        rw [Prod.mk.injEq, Prod.mk.injEq] at he
        obtain ⟨h1, h2, h3⟩ := he
        obtain ⟨w1, w2, w3, w4⟩ := alt2Star_cap (show alt2Star (1 + (r.takeWhile
            Char.isAlpha).length) (r.drop (r.takeWhile Char.isAlpha).length) r.length =
            some (x.1, x.2.1, x.2.2) from by rw [hx])
        refine ⟨⟨c, ?_, isUpper_not_ws hup⟩, by rw [← h3]; exact w3,
          by rw [← h3]; exact w4, by omega, c, rfl, isUpper_not_ws hup⟩
        rw [← h2]
        obtain ⟨x1p, hx1p⟩ : ∃ x1p, x.1 = x1p + 1 := ⟨x.1 - 1, by omega⟩
        rw [hx1p, List.take_succ_cons]
        exact List.mem_cons_self _ _
    · exact absurd h (by simp)

theorem flightHeadAt_cap {prev : Option Char} {s : List Char} {n : Nat} {a ds : List Char}
    (h : flightHeadAt prev s = some (n, (a, ds))) :
    (∃ c ∈ a, isJsWS c = false) ∧ ds ≠ [] ∧ (∀ c ∈ ds, c.isDigit = true) ∧ 1 ≤ n ∧
    ∃ c0, s.head? = some c0 ∧ isJsWS c0 = false := by
  unfold flightHeadAt at h
  split at h
  · dsimp only at h
    cases ha : alt1Go s (s.takeWhile Char.isUpper) (s.takeWhile Char.isUpper).length with
    | some r =>
      rw [ha] at h
      rw [Option.some.injEq] at h
      rw [h] at ha
      have := alt1Go_cap (fun c hc => List.mem_takeWhile_imp hc) ha (le_refl _)
      obtain ⟨w1, w2, w3, w4, c0, hc0, hc0w⟩ := this
      refine ⟨w1, w2, w3, w4, c0, ?_, hc0w⟩
      obtain ⟨cu, au, hcu⟩ : ∃ cu au, s.takeWhile Char.isUpper = cu :: au := by
        cases hg : s.takeWhile Char.isUpper with
        | nil => rw [hg] at hc0; exact absurd hc0 (by simp)
        | cons x y => exact ⟨x, y, rfl⟩
      rw [hcu] at hc0
      rw [head_of_takeWhile hcu]
      exact hc0
    | none =>
      rw [ha] at h
      exact alt2Try_cap h
  · exact absurd h (by simp)

theorem tryFlightAt_cap {prev : Option Char} {s : List Char} {len : Nat} {a ds : List Char}
    (h : tryFlightAt prev s = some (len, (a, ds))) :
    (∃ c ∈ a, isJsWS c = false) ∧ ds ≠ [] ∧ (∀ c ∈ ds, c.isDigit = true) ∧ 1 ≤ len ∧
    ∃ c0, s.head? = some c0 ∧ isJsWS c0 = false := by
  unfold tryFlightAt at h
  rw [Option.map_eq_some'] at h
  obtain ⟨r, hr, he⟩ := h
  obtain ⟨r1, ra, rds⟩ := r
  have hc := flightHeadAt_cap hr
  rw [Prod.mk.injEq, Prod.mk.injEq] at he
  obtain ⟨hlen, hca, hcds⟩ := he
  rw [← hca, ← hcds]
  have h1 : 1 ≤ r1 := hc.2.2.2.1
  exact ⟨hc.1, hc.2.1, hc.2.2.1, by omega, hc.2.2.2.2⟩

theorem scanAllAux_mem_at {α} {tryAt : Option Char → List Char → Option (Nat × α)} :
    ∀ {prev : Option Char} {k pos : Nat} {l : List Char} {r},
      r ∈ scanAllAux tryAt prev k pos l →
      pos ≤ r.1 ∧ ∃ p, tryAt p (l.drop (r.1 - pos)) = some (r.2.1, r.2.2)
  | prev, k, pos, [], r => by simp [scanAllAux]
  | prev, Nat.succ k, pos, c :: cs, r => by
    intro h
    have h0 : r ∈ scanAllAux tryAt (some c) k (pos + 1) cs := h
    obtain ⟨hle, p, hp⟩ := scanAllAux_mem_at h0
    refine ⟨by omega, p, ?_⟩
    rw [show (c :: cs).drop (r.1 - pos) = cs.drop (r.1 - (pos + 1)) from by
      rw [show r.1 - pos = (r.1 - (pos + 1)) + 1 from by omega, List.drop_succ_cons]]
    exact hp
  | prev, 0, pos, c :: cs, r => by
    intro h
    unfold scanAllAux at h
    cases ht : tryAt prev (c :: cs) with
    | some v =>
      obtain ⟨vl, va⟩ := v
      rw [ht] at h
      rcases List.mem_cons.mp h with h1 | h2
      · rw [h1]
        refine ⟨le_refl _, prev, ?_⟩
        simpa using ht
      · obtain ⟨hle, p, hp⟩ := scanAllAux_mem_at h2
        refine ⟨by omega, p, ?_⟩
        rw [show (c :: cs).drop (r.1 - pos) = cs.drop (r.1 - (pos + 1)) from by
          rw [show r.1 - pos = (r.1 - (pos + 1)) + 1 from by omega, List.drop_succ_cons]]
        exact hp
    | none =>
      rw [ht] at h
      obtain ⟨hle, p, hp⟩ := scanAllAux_mem_at h
      refine ⟨by omega, p, ?_⟩
      rw [show (c :: cs).drop (r.1 - pos) = cs.drop (r.1 - (pos + 1)) from by
        rw [show r.1 - pos = (r.1 - (pos + 1)) + 1 from by omega, List.drop_succ_cons]]
      exact hp

theorem parseFlights_fields {sb : List Char} {leg : FlightLeg}
    (hm : leg ∈ parseFlights sb) :
    strTrimNE leg.airline ∧ strTrimNE leg.flightNumber ∧
    optTrimNE leg.reservationCode ∧ optTrimNE leg.seat ∧ strTrimNE leg.raw := by
  unfold parseFlights at hm
  rw [List.mem_map] at hm
  obtain ⟨r, hr, hleg⟩ := hm
  unfold scanAll at hr
  obtain ⟨hle, p, hp⟩ := scanAllAux_mem_at hr
  rw [Nat.sub_zero] at hp
  obtain ⟨pos, len, ra, rds⟩ := r
  dsimp only at hp
  obtain ⟨w1, w2, w3, w4, c0, hc0, hc0w⟩ := tryFlightAt_cap hp
  rw [← hleg]
  dsimp only
  refine ⟨⟨?_, trimL_asString_trim _⟩, ⟨?_, trimL_asString_trim _⟩, ⟨?_, ?_⟩, ?_,
    ⟨?_, asString_trim (normalizeL_trim _)⟩⟩
  · intro he
    obtain ⟨c, hc, hcw⟩ := w1
    exact trimL_ne_nil_of_mem hc hcw (asString_eq_empty_iff.mp he)
  · intro he
    obtain ⟨c, hc⟩ := List.exists_mem_of_ne_nil rds w2
    exact trimL_ne_nil_of_mem hc (isDigit_not_ws (w3 c hc)) (asString_eq_empty_iff.mp he)
  · apply capToS_ne_empty
    intro x hx
    obtain ⟨p2, s2, hs2, ht2⟩ := findFirst_some hx
    exact tryResAt_cap ht2
  · intro s hs
    exact capToS_trim hs
  · refine optTrimNE_jsOr ?_ (fun s hs => capToS_trim hs) (fun s hs => capToS_trim hs)
    apply capToS_ne_empty
    intro x hx
    obtain ⟨p2, s2, hs2, ht2⟩ := findFirst_some hx
    exact trySeatSpAt_cap ht2
  · intro he
    have hcm : c0 ∈ (sb.drop pos).take len := head_mem_take hc0 (by omega)
    exact normalizeL_ne_nil_of_mem hcm hc0w (asString_eq_empty_iff.mp he)

theorem cons_within {α : Type} {a : α} {l1 l2 : List α} (h : l1 <:+: l2) :
    l1 <:+: a :: l2 := by
  obtain ⟨s, t, he⟩ := h
  exact ⟨a :: s, t, by rw [← he]; rfl⟩

theorem splitOnChar_shape (sep : Char) : ∀ l : List Char,
    ∃ x xs, splitOnChar sep l = x :: xs ∧ x <+: l ∧ ∀ p ∈ xs, p <:+: l
  | [] => ⟨[], [], rfl, List.nil_prefix, by simp⟩
  | c :: cs => by
    obtain ⟨x, xs, hs, hpre, hinf⟩ := splitOnChar_shape sep cs
    by_cases hc : c = sep
    · refine ⟨[], splitOnChar sep cs, ?_, List.nil_prefix, ?_⟩
      · rw [show splitOnChar sep (c :: cs) =
            (if c = sep then [] :: splitOnChar sep cs
             else match splitOnChar sep cs with
             | [] => [[c]]
             | x2 :: xs2 => (c :: x2) :: xs2) from rfl, if_pos hc]
      · intro p hp
        rw [hs] at hp
        rcases List.mem_cons.mp hp with h1 | h2
        · rw [h1]
          exact cons_within hpre.isInfix
        · exact cons_within (hinf p h2)
    · rw [show splitOnChar sep (c :: cs) =
          (if c = sep then [] :: splitOnChar sep cs
           else match splitOnChar sep cs with
           | [] => [[c]]
           | x2 :: xs2 => (c :: x2) :: xs2) from rfl, if_neg hc, hs]
      refine ⟨c :: x, xs, rfl, List.cons_prefix_cons.mpr ⟨rfl, hpre⟩, ?_⟩
      intro p hp
      exact cons_within (hinf p hp)

theorem mem_splitOnChar_within {sep : Char} {l p : List Char}
    (h : p ∈ splitOnChar sep l) : p <:+: l := by
  obtain ⟨x, xs, hs, hpre, hinf⟩ := splitOnChar_shape sep l
  rw [hs] at h
  rcases List.mem_cons.mp h with h1 | h2
  · rw [h1]
    exact hpre.isInfix
  · exact hinf p h2

theorem chain_linesOf {R : Char → Char → Prop} {b x : List Char}
    (hch : List.Chain' R b) (hx : x ∈ linesOf b) : List.Chain' R x := by
  unfold linesOf at hx
  have hx2 := List.mem_of_mem_filter hx
  rw [List.mem_map] at hx2
  obtain ⟨pc, hpc, hpx⟩ := hx2
  rw [← hpx]
  exact chain_trimL (chain_within hch (mem_splitOnChar_within hpc))

theorem chain_joinNl : ∀ {sel : List (List Char)},
    (∀ x ∈ sel, List.Chain' noDS x) → List.Chain' noDS (joinNl sel)
  | [] => by
    intro _
    show List.Chain' noDS (List.intercalate ['\n'] [])
    simp [List.intercalate, List.intersperse]
  | [x] => by
    intro h
    show List.Chain' noDS (List.intercalate ['\n'] [x])
    rw [show List.intercalate ['\n'] [x] = x from by
      simp [List.intercalate, List.intersperse]]
    exact h x (by simp)
  | x :: y :: xs => by
    intro h
    show List.Chain' noDS (List.intercalate ['\n'] (x :: y :: xs))
    rw [show List.intercalate ['\n'] (x :: y :: xs) =
      x ++ ('\n' :: List.intercalate ['\n'] (y :: xs)) from by
        simp [List.intercalate, List.intersperse]]
    rw [List.chain'_append]
    refine ⟨h x (List.mem_cons_self _ _), ?_, ?_⟩
    · rw [List.chain'_cons']
      refine ⟨fun z _ => noDS_nl_left z, ?_⟩
      exact chain_joinNl (fun z hz => h z (List.mem_cons_of_mem _ hz))
    · intro a _ b hb
      rw [List.head?_cons, Option.mem_def, Option.some.injEq] at hb
      rw [← hb]
      exact noDS_nl_right a

theorem groupBlocksGo_join : ∀ (ls cur : List (List Char)) {bl : List Char},
    bl ∈ groupBlocksGo cur ls →
    ∃ sel : List (List Char), (∀ x ∈ sel, x ∈ cur ∨ x ∈ ls) ∧ bl = joinNl sel
  | [], cur, bl => by
    intro h
    unfold groupBlocksGo at h
    by_cases hc : cur.isEmpty = true
    · rw [if_pos hc] at h
      simp at h
    · rw [if_neg hc] at h
      rcases List.mem_cons.mp h with h1 | h2
      · exact ⟨cur, fun x hx => Or.inl hx, h1⟩
      · simp at h2
  | l :: ls, cur, bl => by
    intro h
    unfold groupBlocksGo at h
    by_cases hc : (newPersonTest l && !cur.isEmpty) = true
    · rw [if_pos hc] at h
      rcases List.mem_cons.mp h with h1 | h2
      · exact ⟨cur, fun x hx => Or.inl hx, h1⟩
      · obtain ⟨sel, hsel, hbl⟩ := groupBlocksGo_join ls [l] h2
        refine ⟨sel, ?_, hbl⟩
        intro x hx
        rcases hsel x hx with h3 | h4
        · rw [List.mem_singleton] at h3
          rw [h3]
          exact Or.inr (List.mem_cons_self _ _)
        · exact Or.inr (List.mem_cons_of_mem _ h4)
    · rw [if_neg hc] at h
      obtain ⟨sel, hsel, hbl⟩ := groupBlocksGo_join ls (cur ++ [l]) h
      refine ⟨sel, ?_, hbl⟩
      intro x hx
      rcases hsel x hx with h3 | h4
      · rcases List.mem_append.mp h3 with h5 | h6
        · exact Or.inl h5
        · rw [List.mem_singleton] at h6
          rw [h6]
          exact Or.inr (List.mem_cons_self _ _)
      · exact Or.inr (List.mem_cons_of_mem _ h4)

theorem parseAddressBlock_fields {block : List Char} (hch : List.Chain' noDS block) :
    optTrimNE (parseAddressBlock block).name ∧
    optTrimNE (parseAddressBlock block).address ∧
    optTrimNE (parseAddressBlock block).phone ∧
    optTrimNE (parseAddressBlock block).email := by
  unfold parseAddressBlock
  dsimp only
  refine ⟨?_, ⟨?_, ?_⟩, ?_, ?_⟩
  · exact mem_linesOf_opt_optTrim block (fun x hx => List.get?_mem hx)
  · split
    · simp
    · rename_i hne
      intro h
      rw [Option.some.injEq] at h
      obtain ⟨x0, xs0, hx0⟩ : ∃ x0 xs0,
          ((linesOf block).filter (fun l =>
            !startsWithIC "Phone:" l && !startsWithIC "Email:" l)).take 4 = x0 :: xs0 := by
        cases hq : ((linesOf block).filter (fun l =>
            !startsWithIC "Phone:" l && !startsWithIC "Email:" l)).take 4 with
        | nil => rw [hq] at hne; simp at hne
        | cons a b => exact ⟨a, b, rfl⟩
      rw [hx0] at h
      have hx0m : x0 ∈ linesOf block := by
        have : x0 ∈ ((linesOf block).filter (fun l =>
            !startsWithIC "Phone:" l && !startsWithIC "Email:" l)).take 4 := by
          rw [hx0]
          exact List.mem_cons_self _ _
        exact List.mem_of_mem_filter (List.take_subset _ _ this)
      exact intercalate_cons_ne_nil _ x0 xs0 (mem_linesOf_ne_nil hx0m)
        (asString_eq_empty_iff.mp h)
  · intro s hs
    split at hs
    · exact absurd hs (by simp)
    · rw [Option.some.injEq] at hs
      rw [← hs]
      refine asString_trim (inter_trim _ ?_)
      intro x hx
      have hxm : x ∈ linesOf block :=
        List.mem_of_mem_filter (List.take_subset _ _ hx)
      exact ⟨mem_linesOf_ne_nil hxm, mem_linesOf_trim hxm⟩
  · exact ⟨matchPhone_ne_empty hch "Phone:" false, fun s hs => capToS_trim hs⟩
  · exact ⟨matchEmail_ne_empty block, fun s hs => capToS_trim hs⟩

theorem parseHotelDetails_fields {block : List Char} {hd : HotelDetails}
    (h : parseHotelDetails block = some hd) :
    optTrimNE hd.checkIn ∧ optTrimNE hd.checkOut ∧ optTrimNE hd.confirmation ∧
    optTrimNE hd.roomType ∧ optTrimNE hd.rate := by
  unfold parseHotelDetails at h
  dsimp only at h
  split at h
  · rw [Option.some.injEq] at h
    rw [← h]
    exact ⟨optTrimNE_orNullS (fun s hs => capToS_trim hs),
      optTrimNE_orNullS (fun s hs => capToS_trim hs),
      optTrimNE_orNullS (fun s hs => capToS_trim hs),
      optTrimNE_orNullS (fun s hs => capToS_trim hs),
      optTrimNE_orNullS (fun s hs => capToS_trim hs)⟩
  · exact absurd h (by simp)

theorem parsePersonBlock_fields {g : String} {b : List Char} {c : Contact}
    (hch : List.Chain' noDS b) (htr : trimL b = b) (h : parsePersonBlock g b = some c) :
    c.group = g ∧ optTrimNE c.name ∧ optTrimNE c.title ∧ optTrimNE c.office ∧
    optTrimNE c.cell ∧ optTrimNE c.email ∧ optTrimNE c.companion ∧
    c.raw ≠ "" ∧ trimmedS c.raw := by
  have hb : b ≠ [] := by
    intro he
    rw [he] at h
    rw [show parsePersonBlock g [] = none from rfl] at h
    exact Option.noConfusion h
  unfold parsePersonBlock at h
  dsimp only at h
  split at h
  · exact absurd h (by simp)
  · rw [Option.some.injEq] at h
    rw [← h]
    dsimp only
    refine ⟨rfl, ?_, ?_, ⟨matchPhone_ne_empty hch "Office:" false,
      fun s hs => capToS_trim hs⟩,
      optTrimNE_jsOr (matchPhone_ne_empty hch "Mobile:" false)
        (fun s hs => capToS_trim hs) (fun s hs => capToS_trim hs),
      ⟨matchEmail_ne_empty b, fun s hs => capToS_trim hs⟩, optTrimNE_none, ?_, ?_⟩
    · refine optTrimNE_orNullS (fun s hs => ?_)
      rw [Option.some.injEq] at hs
      rw [← hs]
      refine asString_trim ?_
      split <;> exact trimL_trimL _
    · refine optTrimNE_orNullS (fun s hs => ?_)
      rw [Option.map_eq_some'] at hs
      obtain ⟨x, hx, hxs⟩ := hs
      split at hx
      · rw [Option.some.injEq] at hx
        rw [← hxs, ← hx]
        exact trimL_asString_trim _
      · exact absurd hx (by simp)
    · intro he
      exact hb (asString_eq_empty_iff.mp he)
    · exact asString_trim htr

theorem parsePeopleList_fields {txt : List Char} {g : String} {c : Contact}
    (hch : List.Chain' noDS txt) (hm : c ∈ parsePeopleList txt g) :
    c.group = g ∧ optTrimNE c.name ∧ optTrimNE c.title ∧ optTrimNE c.office ∧
    optTrimNE c.cell ∧ optTrimNE c.email ∧ optTrimNE c.companion ∧
    c.raw ≠ "" ∧ trimmedS c.raw := by
  unfold parsePeopleList at hm
  dsimp only at hm
  split at hm
  · simp at hm
  · rw [List.reduceOption_mem_iff, List.mem_map] at hm
    obtain ⟨b, hb, hpb⟩ := hm
    have hjoin : ∃ sel : List (List Char),
        (∀ x ∈ sel, x ∈ linesOf txt) ∧ b = joinNl sel := by
      split at hb
      · rw [List.mem_singleton] at hb
        exact ⟨linesOf txt, fun x hx => hx, hb⟩
      · obtain ⟨sel, hsel, hbl⟩ := groupBlocksGo_join (linesOf txt) [] hb
        refine ⟨sel, ?_, hbl⟩
        intro x hx
        rcases hsel x hx with h1 | h2
        · simp at h1
        · exact h2
    obtain ⟨sel, hsel, hbl⟩ := hjoin
    have hchb : List.Chain' noDS b := by
      rw [hbl]
      exact chain_joinNl (fun x hx => chain_linesOf hch (hsel x hx))
    have htrb : trimL b = b := by
      rw [hbl]
      exact joinNl_trim (fun x hx =>
        ⟨mem_linesOf_ne_nil (hsel x hx), mem_linesOf_trim (hsel x hx)⟩)
    exact parsePersonBlock_fields hchb htrb hpb

theorem name_map_trim {o : Option (List Char)} (s : String)
    (hs : o.map (fun l => (trimL l).asString) = some s) : trimmedS s := by
  rw [Option.map_eq_some'] at hs
  obtain ⟨x, _, hxs⟩ := hs
  rw [← hxs]
  exact trimL_asString_trim _

theorem parseTalentContacts_fields {txt : List Char} {c : Contact}
    (hm : c ∈ parseTalentContacts txt) :
    strTrimNE c.group ∧ optTrimNE c.name ∧ optTrimNE c.title ∧ optTrimNE c.office ∧
    optTrimNE c.cell ∧ optTrimNE c.email ∧ optTrimNE c.companion ∧ strTrimNE c.raw := by
  unfold parseTalentContacts at hm
  dsimp only at hm
  split at hm
  · simp at hm
  · rename_i hbe
    have hraw : strTrimNE (trimL txt).asString := by
      refine ⟨?_, trimL_asString_trim txt⟩
      intro he
      exact hbe (by rw [asString_eq_empty_iff.mp he]; rfl)
    split at hm
    · rcases List.mem_cons.mp hm with h1 | h2
      · rw [h1]
        dsimp only
        exact ⟨strTrimNE_lit (by decide) (by decide), optTrimNE_orNullS name_map_trim,
          optTrimNE_none, optTrimNE_none,
          optTrimNE_orNullS (fun s hs => capToS_trim hs),
          ⟨matchEmail_ne_empty _, fun s hs => capToS_trim hs⟩,
          optTrimNE_orNullS (fun s hs => capToS_trim hs), hraw⟩
      · rw [List.mem_singleton] at h2
        rw [h2]
        dsimp only
        exact ⟨strTrimNE_lit (by decide) (by decide),
          optTrimNE_orNullS (fun s hs => capToS_trim hs),
          optTrimNE_none, optTrimNE_none,
          optTrimNE_orNullS (fun s hs => capToS_trim hs),
          optTrimNE_none, optTrimNE_none, hraw⟩
    · rw [List.mem_singleton] at hm
      rw [hm]
      dsimp only
      exact ⟨strTrimNE_lit (by decide) (by decide), optTrimNE_orNullS name_map_trim,
        optTrimNE_none, optTrimNE_none,
        optTrimNE_orNullS (fun s hs => capToS_trim hs),
        ⟨matchEmail_ne_empty _, fun s hs => capToS_trim hs⟩,
        optTrimNE_orNullS (fun s hs => capToS_trim hs), hraw⟩

theorem chunksGo_mem {block : List Char} : ∀ {L : List (String × Nat × Nat)}
    {g : String} {ch : List Char}, (g, ch) ∈ chunksGo block L →
    (∃ e ∈ L, g = e.1) ∧ ∃ a b, ch = trimL ((block.take a).drop b)
  | [], g, ch => by
    intro h
    simp [chunksGo] at h
  | e :: rest, g, ch => by
    intro h
    obtain ⟨eg, eidx, elen⟩ := e
    unfold chunksGo at h
    rcases List.mem_cons.mp h with h1 | h2
    · rw [Prod.mk.injEq] at h1
      exact ⟨⟨(eg, eidx, elen), List.mem_cons_self _ _, h1.1⟩, _, _, h1.2⟩
    · obtain ⟨⟨e2, he2, hg⟩, a, b, hch⟩ := chunksGo_mem h2
      exact ⟨⟨e2, List.mem_cons_of_mem _ he2, hg⟩, a, b, hch⟩

theorem mem_insertByIdx {α : Type} (key : α → Nat) (x y : α) :
    ∀ l : List α, x ∈ insertByIdx key y l ↔ x = y ∨ x ∈ l
  | [] => by simp [insertByIdx]
  | z :: zs => by
    unfold insertByIdx
    by_cases hk : key y ≤ key z
    · rw [if_pos hk]
      simp
    · rw [if_neg hk]
      constructor
      · intro h
        rcases List.mem_cons.mp h with h1 | h2
        · exact Or.inr (by rw [h1]; exact List.mem_cons_self _ _)
        · rcases (mem_insertByIdx key x y zs).mp h2 with h3 | h4
          · exact Or.inl h3
          · exact Or.inr (List.mem_cons_of_mem _ h4)
      · intro h
        rcases h with h1 | h2
        · exact List.mem_cons_of_mem _ ((mem_insertByIdx key x y zs).mpr (Or.inl h1))
        · rcases List.mem_cons.mp h2 with h3 | h4
          · rw [h3]
            exact List.mem_cons_self _ _
          · exact List.mem_cons_of_mem _ ((mem_insertByIdx key x y zs).mpr (Or.inr h4))

theorem mem_sortByIdx {α : Type} (key : α → Nat) (x : α) :
    ∀ l : List α, x ∈ sortByIdx key l ↔ x ∈ l
  | [] => Iff.rfl
  | z :: zs => by
    unfold sortByIdx
    rw [mem_insertByIdx key x z (sortByIdx key zs), mem_sortByIdx key x zs]
    simp

theorem dedupeGo_subset : ∀ (l : List Contact) (seen : List String) {c : Contact},
    c ∈ dedupeGo seen l → c ∈ l
  | [], seen, c => by
    intro h
    simp [dedupeGo] at h
  | d :: ds, seen, c => by
    intro h
    unfold dedupeGo at h
    dsimp only at h
    split at h
    · exact List.mem_cons_of_mem _ (dedupeGo_subset ds seen h)
    · rcases List.mem_cons.mp h with h1 | h2
      · rw [h1]
        exact List.mem_cons_self _ _
      · exact List.mem_cons_of_mem _ (dedupeGo_subset ds _ h2)

theorem buildSections_snd2 (t : List Char) : ∀ (L : List Hit) (p : String × List Char),
    p ∈ buildSections t L → ∃ a b, p.2 = trimL ((t.take a).drop b)
  | [], p => by simp [buildSections]
  | x :: rest, p => by
    intro hp
    simp only [buildSections] at hp
    rcases List.mem_cons.mp hp with h1 | h1
    · exact ⟨_, _, by rw [h1]⟩
    · exact buildSections_snd2 t rest p h1

theorem siteOfChunk_fields {ch : List Char} (hcE : List.Chain' noDS ch) {ty lb : String}
    {hdo : Option HotelDetails} {rv : String}
    (hty : strTrimNE ty) (hlb : strTrimNE lb) (hrv : trimmedS rv)
    (hhd : ∀ hd, hdo = some hd → optTrimNE hd.checkIn ∧ optTrimNE hd.checkOut ∧
      optTrimNE hd.confirmation ∧ optTrimNE hd.roomType ∧ optTrimNE hd.rate) :
    strTrimNE ty ∧ strTrimNE lb ∧ optTrimNE (parseAddressBlock ch).name ∧
    optTrimNE (parseAddressBlock ch).address ∧ optTrimNE (parseAddressBlock ch).phone ∧
    optTrimNE (parseAddressBlock ch).email ∧ trimmedS rv ∧
    ∀ hd, hdo = some hd → optTrimNE hd.checkIn ∧ optTrimNE hd.checkOut ∧
      optTrimNE hd.confirmation ∧ optTrimNE hd.roomType ∧ optTrimNE hd.rate := by
  obtain ⟨a1, a2, a3, a4⟩ := parseAddressBlock_fields hcE
  exact ⟨hty, hlb, a1, a2, a3, a4, hrv, hhd⟩

theorem sitesGo_cons (cb : List Char) (ty : String) (idx mlen : Nat)
    (rest : List (String × Nat × Nat)) (lastIdx : Nat) :
    sitesGo cb ((ty, idx, mlen) :: rest) lastIdx =
      (let endPos := match rest with
        | [] => cb.length
        | (_, idx2, _) :: _ => idx2
      let chunk0 := trimL ((cb.take endPos).drop (idx + mlen))
      let s2 := '\n' :: chunk0
      let cut : Option (Nat × Nat) × Nat :=
        if s2.length < lastIdx then (none, 0)
        else
          match findFirstFrom tryCapsAt s2 lastIdx with
          | some (p, l, _) => (some (p, l), p + l)
          | none => (none, 0)
      let chunk := match cut.1 with
        | some (p, _) => if 0 < p then trimL (chunk0.take p) else chunk0
        | none => chunk0
      let parsed := parseAddressBlock chunk
      let hd := if ty == "hotel" then parseHotelDetails chunk else none
      { type := ty,
        label := if ty == "event" then "EVENT SITE" else "HOTEL SITE",
        name := parsed.name, address := parsed.address, phone := parsed.phone,
        email := parsed.email, hotelDetails := hd, raw := chunk.asString } ::
        sitesGo cb rest cut.2) := rfl

theorem sitesGo_fields {cb : List Char} (hch : List.Chain' noDS cb) :
    ∀ (L : List (String × Nat × Nat)) (k : Nat) {st : Site},
      (∀ e ∈ L, e.1 = "event" ∨ e.1 = "hotel") → st ∈ sitesGo cb L k →
      strTrimNE st.type ∧ strTrimNE st.label ∧ optTrimNE st.name ∧
      optTrimNE st.address ∧ optTrimNE st.phone ∧ optTrimNE st.email ∧
      trimmedS st.raw ∧
      ∀ hd, st.hotelDetails = some hd → optTrimNE hd.checkIn ∧ optTrimNE hd.checkOut ∧
        optTrimNE hd.confirmation ∧ optTrimNE hd.roomType ∧ optTrimNE hd.rate
  | [], k, st => by
    intro _ h
    simp [sitesGo] at h
  | (ty, idx, mlen) :: rest, k, st => by
    intro hL hm
    rw [sitesGo_cons] at hm
    dsimp only at hm
    rcases List.mem_cons.mp hm with h1 | h2
    · have hty : strTrimNE ty := by
        rcases hL (ty, idx, mlen) (List.mem_cons_self _ _) with he | he <;>
          · dsimp only at he
            rw [he]
            exact strTrimNE_lit (by decide) (by decide)
      rw [h1]
      dsimp only
      refine siteOfChunk_fields ?_ hty ?_ ?_ ?_
      · split
        · split
          · exact chain_trimL (chain_within (chain_trim_slice hch _ _)
              (List.take_prefix _ _).isInfix)
          · exact chain_trim_slice hch _ _
        · exact chain_trim_slice hch _ _
      · split <;> exact strTrimNE_lit (by decide) (by decide)
      · split
        · split
          · exact asString_trim (trimL_trimL _)
          · exact asString_trim (trimL_trimL _)
        · exact asString_trim (trimL_trimL _)
      · intro hd hdh
        split at hdh
        · exact parseHotelDetails_fields hdh
        · exact absurd hdh (by simp)
    · exact sitesGo_fields hch rest _ (fun e he => hL e (List.mem_cons_of_mem _ he)) h2

theorem parseSites_fields {cb : List Char} (hch : List.Chain' noDS cb)
    (hcbt : trimL cb = cb) {st : Site} (hm : st ∈ parseSitesFromContactInfo cb) :
    strTrimNE st.type ∧ strTrimNE st.label ∧ optTrimNE st.name ∧
    optTrimNE st.address ∧ optTrimNE st.phone ∧ optTrimNE st.email ∧
    trimmedS st.raw ∧
    ∀ hd, st.hotelDetails = some hd → optTrimNE hd.checkIn ∧ optTrimNE hd.checkOut ∧
      optTrimNE hd.confirmation ∧ optTrimNE hd.roomType ∧ optTrimNE hd.rate := by
  unfold parseSitesFromContactInfo at hm
  split at hm
  · simp at hm
  · dsimp only at hm
    split at hm
    · split at hm
      · rename_i ph hph
        split at hm
        · simp at hm
        · rename_i hpe
          rcases List.mem_cons.mp hm with h1 | h2
          · rw [h1]
            dsimp only
            refine siteOfChunk_fields hch (strTrimNE_lit (by decide) (by decide))
              (strTrimNE_lit (by decide) (by decide)) (asString_trim hcbt) ?_
            intro hd hdh
            exact absurd hdh (by simp)
          · simp at h2
      · simp at hm
    · refine sitesGo_fields hch _ 0 ?_ hm
      intro e he
      rw [mem_sortByIdx] at he
      rw [List.mem_filterMap] at he
      obtain ⟨spec, hspec, hmap⟩ := he
      rw [Option.map_eq_some'] at hmap
      obtain ⟨r, _, hre⟩ := hmap
      have he1 : e.1 = spec.1 := by
        rw [← hre]
      simp only [siteLabelSpecs, List.mem_cons, List.not_mem_nil, or_false] at hspec
      rcases hspec with h | h | h | h
      · rw [he1, h]
        exact Or.inl rfl
      · rw [he1, h]
        exact Or.inl rfl
      · rw [he1, h]
        exact Or.inr rfl
      · rw [he1, h]
        exact Or.inr rfl

theorem parseContacts_fields {cb : List Char} (hch : List.Chain' noDS cb) {c : Contact}
    (hm : c ∈ parseContactsFromContactInfo cb) :
    strTrimNE c.group ∧ optTrimNE c.name ∧ optTrimNE c.title ∧ optTrimNE c.office ∧
    optTrimNE c.cell ∧ optTrimNE c.email ∧ optTrimNE c.companion ∧
    c.raw ≠ "" ∧ trimmedS c.raw := by
  unfold parseContactsFromContactInfo at hm
  split at hm
  · simp at hm
  · dsimp only at hm
    unfold dedupeContacts at hm
    have hout := dedupeGo_subset _ _ hm
    rw [List.mem_flatten] at hout
    obtain ⟨lc, hlc, hcl⟩ := hout
    rw [List.mem_map] at hlc
    obtain ⟨chp, hchp, hlce⟩ := hlc
    obtain ⟨cg, cch⟩ := chp
    unfold sliceLabeledChunks at hchp
    dsimp only at hchp
    split at hchp
    · simp at hchp
    · obtain ⟨⟨e, he, hg⟩, a, b, hche⟩ := chunksGo_mem hchp
      have hchain : List.Chain' noDS cch := by
        rw [hche]
        exact chain_trim_slice hch a b
      have hgne : strTrimNE cg := by
        rw [mem_sortByIdx] at he
        rw [List.mem_flatten] at he
        obtain ⟨le, hle, hel⟩ := he
        rw [List.mem_map] at hle
        obtain ⟨spec, hspec, hspe⟩ := hle
        rw [← hspe] at hel
        rw [List.mem_map] at hel
        obtain ⟨r2, _, hr2⟩ := hel
        have he1 : e.1 = spec.1 := by
          rw [← hr2]
        rw [hg, he1]
        simp only [contactLabelSpecs, List.mem_cons, List.not_mem_nil, or_false] at hspec
        rcases hspec with h | h | h | h | h | h | h <;>
          · rw [h]
            exact strTrimNE_lit (by decide) (by decide)
      rw [← hlce] at hcl
      split at hcl
      · exact parseTalentContacts_fields hcl
      · obtain ⟨p1, p2, p3, p4, p5, p6, p7, p8⟩ := parsePeopleList_fields hchain hcl
        exact ⟨by rw [p1]; exact hgne, p2, p3, p4, p5, p6, p7, p8⟩

theorem parseHeaderBlock_raw (ob : Option (List Char)) :
    (parseHeaderBlock ob).raw ≠ some "" := by
  cases ob with
  | none => simp [parseHeaderBlock]
  | some b =>
    unfold parseHeaderBlock
    by_cases hb : b.isEmpty
    · simp [hb]
    · simp only [hb, Bool.false_eq_true, if_false]
      intro h
      rw [Option.some.injEq] at h
      have h2 : b = [] := asString_eq_empty_iff.mp h
      rw [h2] at hb
      exact hb rfl

theorem chain_normalizeL (l : List Char) : List.Chain' noDS (normalizeL l) :=
  List.Chain'.imp (fun _ _ h => okPair_noDS h) (normalizeL_inv l).2.1

theorem chain_contactBlock (l : List Char) :
    List.Chain' noDS ((sectionSpans (splitByHeadingsMulti (normalizeL l) headingsVocab)
      "CONTACT INFORMATION").headD []) := by
  cases hq : sectionSpans (splitByHeadingsMulti (normalizeL l) headingsVocab)
      "CONTACT INFORMATION" with
  | nil => exact List.chain'_nil
  | cons x xs =>
    have hx : x ∈ sectionSpans (splitByHeadingsMulti (normalizeL l) headingsVocab)
        "CONTACT INFORMATION" := by
      rw [hq]
      exact List.mem_cons_self _ _
    unfold sectionSpans at hx
    rw [List.mem_map] at hx
    obtain ⟨p, hp, hpx⟩ := hx
    have hp2 := List.mem_of_mem_filter hp
    unfold splitByHeadingsMulti at hp2
    obtain ⟨a, b, hpe⟩ := buildSections_snd2 _ _ p hp2
    show List.Chain' noDS x
    rw [← hpx, hpe]
    exact chain_trim_slice (chain_normalizeL l) a b

/-- C9 (amended): for every input, every leaf string field of the returned
record is a trimmed string — trimming it again is a no-op — and every one of
them except the raw slice passthrough `Site.raw` is moreover either absent or
non-empty: the booking number, the five header fields, every site's type,
label, name, address, phone, email, raw slice and hotel-detail strings, every
contact's group, name, title, office, cell, email, companion and raw block,
the schedule raw text and every flight leg's airline, flight number,
reservation code, seat and raw text, and the four section passthroughs.
`Site.raw` is trimmed but may be the empty string.  The phone-class fields
cannot trim to empty because the normalizer leaves no two adjacent spaces in
the canonical text or in any block sliced from it. -/
theorem c9_leaf_fields_amended (rawText : String) :
    optTrimNE (parseLaiEventBrief rawText).bookingNumber ∧
    optTrimNE (parseLaiEventBrief rawText).header.talentName ∧
    optTrimNE (parseLaiEventBrief rawText).header.clientName ∧
    optTrimNE (parseLaiEventBrief rawText).header.eventTitle ∧
    optTrimNE (parseLaiEventBrief rawText).header.eventDateText ∧
    optTrimNE (parseLaiEventBrief rawText).header.raw ∧
    (∀ st ∈ (parseLaiEventBrief rawText).sites,
      strTrimNE st.type ∧ strTrimNE st.label ∧ optTrimNE st.name ∧
      optTrimNE st.address ∧ optTrimNE st.phone ∧ optTrimNE st.email ∧
      trimmedS st.raw ∧
      ∀ hd, st.hotelDetails = some hd →
        optTrimNE hd.checkIn ∧ optTrimNE hd.checkOut ∧ optTrimNE hd.confirmation ∧
        optTrimNE hd.roomType ∧ optTrimNE hd.rate) ∧
    (∀ c ∈ (parseLaiEventBrief rawText).contacts,
      strTrimNE c.group ∧ optTrimNE c.name ∧ optTrimNE c.title ∧ optTrimNE c.office ∧
      optTrimNE c.cell ∧ optTrimNE c.email ∧ optTrimNE c.companion ∧
      strTrimNE c.raw) ∧
    (∀ sch, (parseLaiEventBrief rawText).schedule = some sch →
      strTrimNE sch.raw ∧ ∀ leg ∈ sch.flights,
        strTrimNE leg.airline ∧ strTrimNE leg.flightNumber ∧
        optTrimNE leg.reservationCode ∧ optTrimNE leg.seat ∧ strTrimNE leg.raw) ∧
    optTrimNE (parseLaiEventBrief rawText).sections.contactInformation ∧
    optTrimNE (parseLaiEventBrief rawText).sections.eventDetails ∧
    optTrimNE (parseLaiEventBrief rawText).sections.clientDetails ∧
    optTrimNE (parseLaiEventBrief rawText).sections.talentIntroduction := by
  simp only [parseLaiEventBrief, parseLaiEventBriefL]
  refine ⟨?_, ?_, ?_, ?_, ?_, ?_, ?_, ?_, ?_, ?_, ?_, ?_, ?_⟩
  · exact bookingNumberL_optTrim _
  · exact (parseHeaderBlock_optTrim _ (fun x hx => headerBlockCap_trim hx)).1
  · exact (parseHeaderBlock_optTrim _ (fun x hx => headerBlockCap_trim hx)).2.1
  · exact (parseHeaderBlock_optTrim _ (fun x hx => headerBlockCap_trim hx)).2.2.1
  · exact (parseHeaderBlock_optTrim _ (fun x hx => headerBlockCap_trim hx)).2.2.2.1
  · exact (parseHeaderBlock_optTrim _ (fun x hx => headerBlockCap_trim hx)).2.2.2.2
  · intro st hm
    exact parseSites_fields (chain_contactBlock rawText.toList)
      (sectionHeadD_trim _ _ _) hm
  · intro c hm
    exact parseContacts_fields (chain_contactBlock rawText.toList) hm
  · intro sch hs
    cases hS : olist ((sectionSpans (splitByHeadingsMulti (normalizeL rawText.toList)
        headingsVocab) "SCHEDULE OF EVENTS").headD []) with
    | none =>
      rw [hS] at hs
      exact Option.noConfusion hs
    | some sb =>
      rw [hS] at hs
      rw [Option.map_some', Option.some.injEq] at hs
      rw [← hs]
      dsimp only
      obtain ⟨hsbe, hsbne⟩ := olist_eq_some hS
      refine ⟨⟨?_, ?_⟩, ?_⟩
      · intro he
        exact hsbne (hsbe ▸ asString_eq_empty_iff.mp he)
      · refine asString_trim ?_
        rw [hsbe]
        exact sectionHeadD_trim _ _ _
      · intro leg hleg
        exact parseFlights_fields hleg
  · exact olist_map_optTrim (sectionHeadD_trim _ _ _)
  · exact olist_map_optTrim (sectionHeadD_trim _ _ _)
  · exact olist_map_optTrim (sectionHeadD_trim _ _ _)
  · exact olist_map_optTrim (sectionHeadD_trim _ _ _)

set_option maxRecDepth 40000 in
/-- C9 witness: the amended leaf-field law instantiated on a concrete brief
whose parse yields a hotel site with details, a client-onsite contact, and a
schedule with one flight leg; it also exercises the trimmedness clause on the
stored phone value. -/
theorem c9_leaf_fields_amended_witness :
    (⟨"hotel", "HOTEL SITE", some "Hilton", some "Hilton, Check-In: 3pm",
      some "(555) 123-4567", none, some ⟨some "3pm", none, none, none, none, none⟩,
      "Hilton\nCheck-In: 3pm\nPhone: (555) 123-4567"⟩ : Site).phone ≠ some "" ∧
    trimmedS "(555) 123-4567" ∧
    (⟨some "3pm", none, none, none, none, none⟩ : HotelDetails).checkIn ≠ some "" ∧
    (⟨"client_onsite", some "John Smith", some "Manager", some "(555) 987-6543", none,
      none, none, "John Smith, Manager\nOffice: (555) 987-6543"⟩ : Contact).office ≠
        some "" ∧
    (⟨[⟨"AA", "1234", some "ABCDEF", some "12A",
        "AA 1234 Reservation Code: ABCDEF Seat 12A"⟩],
      "AA 1234 Reservation Code: ABCDEF Seat 12A"⟩ : Schedule).raw ≠ "" ∧
    (⟨"AA", "1234", some "ABCDEF", some "12A",
      "AA 1234 Reservation Code: ABCDEF Seat 12A"⟩ : FlightLeg).seat ≠ some "" := by
  obtain ⟨h1, h2, h3, h4, h5, h6, hsites, hcons, hsched, hx1, hx2, hx3, hx4⟩ :=
    c9_leaf_fields_amended
      "CONTACT INFORMATION\nHOTEL SITE: Hilton\nCheck-In: 3pm\nPhone: (555) 123-4567\nCLIENT ONSITE CONTACT: John Smith, Manager\nOffice: (555) 987-6543\nSCHEDULE OF EVENTS\nAA 1234 Reservation Code: ABCDEF Seat 12A"
  have hms : (⟨"hotel", "HOTEL SITE", some "Hilton", some "Hilton, Check-In: 3pm",
      some "(555) 123-4567", none, some ⟨some "3pm", none, none, none, none, none⟩,
      "Hilton\nCheck-In: 3pm\nPhone: (555) 123-4567"⟩ : Site) ∈
      (parseLaiEventBrief
        "CONTACT INFORMATION\nHOTEL SITE: Hilton\nCheck-In: 3pm\nPhone: (555) 123-4567\nCLIENT ONSITE CONTACT: John Smith, Manager\nOffice: (555) 987-6543\nSCHEDULE OF EVENTS\nAA 1234 Reservation Code: ABCDEF Seat 12A").sites := by
    decide
  have hmc : (⟨"client_onsite", some "John Smith", some "Manager", some "(555) 987-6543",
      none, none, none, "John Smith, Manager\nOffice: (555) 987-6543"⟩ : Contact) ∈
      (parseLaiEventBrief
        "CONTACT INFORMATION\nHOTEL SITE: Hilton\nCheck-In: 3pm\nPhone: (555) 123-4567\nCLIENT ONSITE CONTACT: John Smith, Manager\nOffice: (555) 987-6543\nSCHEDULE OF EVENTS\nAA 1234 Reservation Code: ABCDEF Seat 12A").contacts := by
    decide
  have hmsch : (parseLaiEventBrief
      "CONTACT INFORMATION\nHOTEL SITE: Hilton\nCheck-In: 3pm\nPhone: (555) 123-4567\nCLIENT ONSITE CONTACT: John Smith, Manager\nOffice: (555) 987-6543\nSCHEDULE OF EVENTS\nAA 1234 Reservation Code: ABCDEF Seat 12A").schedule =
      some ⟨[⟨"AA", "1234", some "ABCDEF", some "12A",
        "AA 1234 Reservation Code: ABCDEF Seat 12A"⟩],
        "AA 1234 Reservation Code: ABCDEF Seat 12A"⟩ := by
    decide
  have hsfacts := hsites _ hms
  have hcfacts := hcons _ hmc
  have hschf := hsched _ hmsch
  exact ⟨(hsfacts.2.2.2.2.1).1, (hsfacts.2.2.2.2.1).2 "(555) 123-4567" (by decide),
    ((hsfacts.2.2.2.2.2.2.2 _ (by decide)).1).1, (hcfacts.2.2.2.1).1,
    hschf.1.1, ((hschf.2 _ (by decide)).2.2.2.1).1⟩

end EventBrief
